import Mathlib

/-!
# B-tree of minimum degree `t` (package `btree`)

A shallow embedding of `btree/node.go` and `btree/btree.go`.

* Go's `int` keys, indices and the degree `t` are integers (`Int`), and `int` is the
  64-bit two's-complement type of the usual platforms. The arithmetic of the program
  is on lengths and indices (`idx+1`, `idx-1`, `depth+1`), which stay far from the
  machine bounds for every tree that fits in memory, on `t-1`, which cannot overflow
  for `t ≥ 2`, and on `2*t-1`, which overflows for `t > 2^62`.
  In `validateRec` the comparisons `len(n.keys) > 2*t-1` are on the wrapped value
  `maxKeys t`: for `t > 2^62` it is negative and the comparison holds of every node.
  In `Insert` and `insertNonFull` the tests `len(keys) == 2*t-1` are on the
  mathematical value: for `t ≤ 2^62` nothing wraps, and for a larger `int` the wrapped
  value is negative while the mathematical one exceeds the length of every slice, so
  the test fails either way.
* A `*node` is a value: nodes are exclusively owned by their parent, so a mutation
  of a child in place is a replacement of that child in the list of its parent.
  Nil nodes are not represented.
* A run-time panic (index or slice bound out of range) is the outcome `Res.panic`.
* Recursion on nodes is driven by a budget (`Res.outOfFuel` when it runs out); the
  public operations of `BTree` pass the height of the root, and the theorems below
  show that this budget is never exhausted on the trees they speak of.
-/

/-- Outcome of running a piece of the program. -/
inductive Res (α : Type) where
  | ok (val : α) : Res α
  | panic : Res α
  | outOfFuel : Res α
  deriving DecidableEq, Repr

/-- Sequencing of outcomes: a panic or an exhausted budget aborts the rest. -/
def Res.bind {α β : Type} (r : Res α) (f : α → Res β) : Res β :=
  match r with
  | .ok a => f a
  | .panic => .panic
  | .outOfFuel => .outOfFuel

instance : Monad Res where
  pure := Res.ok
  bind := Res.bind

/-- The value of a Go `int` result on a 64-bit platform: the representative of `x`
modulo `2^64` in `[-2^63, 2^63)`. -/
def wrapInt (x : Int) : Int :=
  (x + 9223372036854775808) % 18446744073709551616 - 9223372036854775808

/-- Go `2*t-1` on `int`: the product wraps, then the difference wraps. -/
def maxKeys (t : Int) : Int := wrapInt (wrapInt (2 * t) - 1)

/-- Go `s[i]`: panics unless `0 ≤ i < len(s)`. -/
def getAt {α : Type} (s : List α) (i : Int) : Res α :=
  if i < 0 then .panic
  else match s[i.toNat]? with
    | some a => .ok a
    | none => .panic

/-- Go `s[i] = v`: panics unless `0 ≤ i < len(s)`. -/
def setAt {α : Type} (s : List α) (i : Int) (v : α) : Res (List α) :=
  if 0 ≤ i ∧ i < s.length then .ok (s.set i.toNat v) else .panic

/-- Go `s[lo:]`: panics unless `0 ≤ lo ≤ len(s)`. -/
def sliceFrom {α : Type} (s : List α) (lo : Int) : Res (List α) :=
  if 0 ≤ lo ∧ lo ≤ s.length then .ok (s.drop lo.toNat) else .panic

/-- Go `s[:hi]`. Every use in the program follows an access that already forces
`hi ≤ len(s)`, so the capacity of the slice plays no role. -/
def sliceTo {α : Type} (s : List α) (hi : Int) : Res (List α) :=
  if 0 ≤ hi ∧ hi ≤ s.length then .ok (s.take hi.toNat) else .panic

/-- Go `s = append(s, zero); copy(s[i+1:], s[i:]); s[i] = v`:
panics unless `0 ≤ i ≤ len(s)`. -/
def insertAt {α : Type} (s : List α) (i : Int) (v : α) : Res (List α) :=
  if 0 ≤ i ∧ i ≤ s.length then .ok (s.take i.toNat ++ v :: s.drop i.toNat) else .panic

/-- Go `append(s[:i], s[i+1:]...)`: panics unless `0 ≤ i < len(s)`. -/
def removeAt {α : Type} (s : List α) (i : Int) : Res (List α) :=
  if 0 ≤ i ∧ i < s.length then .ok (s.take i.toNat ++ s.drop (i.toNat + 1)) else .panic

/-- The loop of `sort.Search` specialised to `sort.SearchInts(a, x)`:
`for i < j { h := (i+j)/2; if a[h] < x { i = h+1 } else { j = h } }`. -/
def searchLoop (a : List Int) (x : Int) : Nat → Nat → Nat → Nat
  | 0, i, _ => i
  | fuel + 1, i, j =>
    if i < j then
      let h := (i + j) / 2
      if a.getD h 0 < x then searchLoop a x fuel (h + 1) j
      else searchLoop a x fuel i h
    else i

/-- Go `sort.SearchInts(a, x)`: binary search with `i, j := 0, len(a)`. The loop
shrinks `j - i` at every turn, so `len(a)` turns are enough. -/
def searchInts (a : List Int) (x : Int) : Int :=
  (searchLoop a x a.length 0 a.length : Nat)

/-- Go `type node struct { leaf bool; keys []int; children []*node }`. -/
inductive node where
  | mk (leaf : Bool) (keys : List Int) (children : List node) : node

namespace node

/-- Field `leaf`. -/
def leaf : node → Bool
  | mk l _ _ => l

/-- Field `keys`. -/
def keys : node → List Int
  | mk _ ks _ => ks

/-- Field `children`. -/
def children : node → List node
  | mk _ _ cs => cs

mutual
/-- Number of levels of a node: one more than the largest of its children. -/
def height : node → Nat
  | mk _ _ cs => heightList cs + 1
/-- Largest height in a list of nodes. -/
def heightList : List node → Nat
  | [] => 0
  | c :: cs => max (height c) (heightList cs)
end

end node

/-- Go `newLeaf()`. -/
def newLeaf : node := node.mk true [] []

/-- Go `newInternal()`. -/
def newInternal : node := node.mk false [] []

namespace node

/-- Go `(n *node) search(k)`. -/
def search : Nat → node → Int → Res (Int × Bool)
  | 0, _, _ => .outOfFuel
  | fuel + 1, n, k =>
    let i := searchInts n.keys k
    if i < n.keys.length ∧ getAt n.keys i = .ok k then .ok (i, true)
    else if n.leaf then .ok (i, false)
    else do
      let c ← getAt n.children i
      search fuel c k

/-- Go `(n *node) splitChild(i, t)`. -/
def splitChild (n : node) (i t : Int) : Res node := do
  let y ← getAt n.children i
  let median ← getAt y.keys (t - 1)
  let zkeys ← sliceFrom y.keys t
  let ykeys ← sliceTo y.keys (t - 1)
  let yz ← (if y.leaf then pure (y.children, [])
    else do
      let zchildren ← sliceFrom y.children t
      let ychildren ← sliceTo y.children t
      pure (ychildren, zchildren) : Res (List node × List node))
  let y1 := mk y.leaf ykeys yz.1
  let z := mk y.leaf zkeys yz.2
  let cs1 ← setAt n.children i y1
  let cs2 ← insertAt cs1 (i + 1) z
  let ks ← insertAt n.keys i median
  pure (mk n.leaf ks cs2)

/-- Go `(n *node) insertNonFull(k, t)`. -/
def insertNonFull : Nat → node → Int → Int → Res node
  | 0, _, _, _ => .outOfFuel
  | fuel + 1, n, k, t =>
    let i := searchInts n.keys k
    if n.leaf then do
      let ks ← insertAt n.keys i k
      pure (mk n.leaf ks n.children)
    else do
      let c ← getAt n.children i
      if (c.keys.length : Int) = 2 * t - 1 then do
        let n1 ← splitChild n i t
        let m ← getAt n1.keys i
        let i1 := if k > m then i + 1 else i
        let c1 ← getAt n1.children i1
        let c2 ← insertNonFull fuel c1 k t
        let cs ← setAt n1.children i1 c2
        pure (mk n1.leaf n1.keys cs)
      else do
        let c1 ← insertNonFull fuel c k t
        let cs ← setAt n.children i c1
        pure (mk n.leaf n.keys cs)

/-- The loop `for i, k := range n.keys { n.children[i].inorder(out); *out = append(*out, k) }`
of `inorder`, with `rec` the traversal of a child. -/
def inorderLoop (rec : node → List Int → Res (List Int)) (children : List node) :
    List Int → Int → List Int → Res (List Int)
  | [], _, out => .ok out
  | k :: ks, i, out => do
    let c ← getAt children i
    let out1 ← rec c out
    inorderLoop rec children ks (i + 1) (out1 ++ [k])

/-- Go `(n *node) inorder(out)`; the slice behind `out` is passed and returned. -/
def inorder : Nat → node → List Int → Res (List Int)
  | 0, _, _ => .outOfFuel
  | fuel + 1, n, out =>
    if n.leaf then .ok (out ++ n.keys)
    else do
      let out1 ← inorderLoop (inorder fuel) n.children n.keys 0 out
      let last ← getAt n.children ((n.children.length : Int) - 1)
      inorder fuel last out1

/-- Go `(n *node) minKey()`: the loop `for !cur.leaf { cur = cur.children[0] }`. -/
def minKey : Nat → node → Res Int
  | 0, _ => .outOfFuel
  | fuel + 1, cur =>
    if cur.leaf then getAt cur.keys 0
    else do
      let c ← getAt cur.children 0
      minKey fuel c

/-- Go `(n *node) maxKey()`: the loop `for !cur.leaf { cur = cur.children[len(cur.children)-1] }`. -/
def maxKey : Nat → node → Res Int
  | 0, _ => .outOfFuel
  | fuel + 1, cur =>
    if cur.leaf then getAt cur.keys ((cur.keys.length : Int) - 1)
    else do
      let c ← getAt cur.children ((cur.children.length : Int) - 1)
      maxKey fuel c

/-- Go `(n *node) mergeChildren(i)`. -/
def mergeChildren (n : node) (i : Int) : Res node := do
  let left ← getAt n.children i
  let right ← getAt n.children (i + 1)
  let sep ← getAt n.keys i
  let lkeys := left.keys ++ [sep] ++ right.keys
  let lchildren := if left.leaf then left.children else left.children ++ right.children
  let cs1 ← setAt n.children i (mk left.leaf lkeys lchildren)
  let ks ← removeAt n.keys i
  let cs2 ← removeAt cs1 (i + 1)
  pure (mk n.leaf ks cs2)

/-- Go `(n *node) borrowFromPrev(idx)`. -/
def borrowFromPrev (n : node) (idx : Int) : Res node := do
  let child ← getAt n.children idx
  let sib ← getAt n.children (idx - 1)
  let sep ← getAt n.keys (idx - 1)
  let ckeys := sep :: child.keys
  let up ← getAt sib.keys ((sib.keys.length : Int) - 1)
  let ks ← setAt n.keys (idx - 1) up
  let skeys ← sliceTo sib.keys ((sib.keys.length : Int) - 1)
  let sc ← (if child.leaf then pure (sib.children, child.children)
    else do
      let move ← getAt sib.children ((sib.children.length : Int) - 1)
      let schildren ← sliceTo sib.children ((sib.children.length : Int) - 1)
      pure (schildren, move :: child.children) : Res (List node × List node))
  let cs1 ← setAt n.children idx (mk child.leaf ckeys sc.2)
  let cs2 ← setAt cs1 (idx - 1) (mk sib.leaf skeys sc.1)
  pure (mk n.leaf ks cs2)

/-- Go `(n *node) borrowFromNext(idx)`. -/
def borrowFromNext (n : node) (idx : Int) : Res node := do
  let child ← getAt n.children idx
  let sib ← getAt n.children (idx + 1)
  let sep ← getAt n.keys idx
  let ckeys := child.keys ++ [sep]
  let up ← getAt sib.keys 0
  let ks ← setAt n.keys idx up
  let skeys ← sliceFrom sib.keys 1
  let sc ← (if child.leaf then pure (sib.children, child.children)
    else do
      let move ← getAt sib.children 0
      let schildren ← sliceFrom sib.children 1
      pure (schildren, child.children ++ [move]) : Res (List node × List node))
  let cs1 ← setAt n.children idx (mk child.leaf ckeys sc.2)
  let cs2 ← setAt cs1 (idx + 1) (mk sib.leaf skeys sc.1)
  pure (mk n.leaf ks cs2)

/-- Go `(n *node) ensureChildHasAtLeastTKeys(idx, t)`: the node after the repair and
the index of the child to descend into. The two `&&` are evaluated left to right. -/
def ensureChildHasAtLeastTKeys (n : node) (idx t : Int) : Res (node × Int) := do
  let fromPrev ← (if idx > 0 then do
      let s ← getAt n.children (idx - 1)
      pure (decide ((s.keys.length : Int) ≥ t))
    else pure false : Res Bool)
  if fromPrev then do
    let n1 ← borrowFromPrev n idx
    pure (n1, idx)
  else do
    let fromNext ← (if idx < (n.children.length : Int) - 1 then do
        let s ← getAt n.children (idx + 1)
        pure (decide ((s.keys.length : Int) ≥ t))
      else pure false : Res Bool)
    if fromNext then do
      let n1 ← borrowFromNext n idx
      pure (n1, idx)
    else if idx < (n.children.length : Int) - 1 then do
      let n1 ← mergeChildren n idx
      pure (n1, idx)
    else do
      let n1 ← mergeChildren n (idx - 1)
      pure (n1, idx - 1)

/-- Go `(n *node) delete(k, t)`. -/
def delete : Nat → node → Int → Int → Res node
  | 0, _, _, _ => .outOfFuel
  | fuel + 1, n, k, t =>
    let idx := searchInts n.keys k
    if idx < n.keys.length ∧ getAt n.keys idx = .ok k then
      if n.leaf then do
        let ks ← removeAt n.keys idx
        pure (mk n.leaf ks n.children)
      else do
        let c ← getAt n.children idx
        if (c.keys.length : Int) ≥ t then do
          let pred ← maxKey fuel c
          let ks ← setAt n.keys idx pred
          let c1 ← delete fuel c pred t
          let cs ← setAt n.children idx c1
          pure (mk n.leaf ks cs)
        else do
          let d ← getAt n.children (idx + 1)
          if (d.keys.length : Int) ≥ t then do
            let succ ← minKey fuel d
            let ks ← setAt n.keys idx succ
            let d1 ← delete fuel d succ t
            let cs ← setAt n.children (idx + 1) d1
            pure (mk n.leaf ks cs)
          else do
            let n1 ← mergeChildren n idx
            let m ← getAt n1.children idx
            let m1 ← delete fuel m k t
            let cs ← setAt n1.children idx m1
            pure (mk n1.leaf n1.keys cs)
    else if n.leaf then pure n
    else do
      let c ← getAt n.children idx
      let r ← (if (c.keys.length : Int) = t - 1 then ensureChildHasAtLeastTKeys n idx t
        else pure (n, idx) : Res (node × Int))
      let c1 ← getAt r.1.children r.2
      let c2 ← delete fuel c1 k t
      let cs ← setAt r.1.children r.2 c2
      pure (mk r.1.leaf r.1.keys cs)

end node

/-- The invariant violations reported by `validateRec` (the `fmt.Errorf` cases). -/
inductive VErr where
  | invalidT
  | rootTooManyKeys
  | invalidKeyCount
  | keysNotIncreasing
  | minViolated
  | maxViolated
  | leafHasChildren
  | leafDepthMismatch
  | childrenMismatch
  deriving DecidableEq, Repr

/-- The loop `for i := 1; i < len(keys); i++ { if keys[i-1] >= keys[i] { return error } }`:
true when no error is returned. -/
def keysIncreasing : List Int → Bool
  | a :: b :: rest => if a ≥ b then false else keysIncreasing (b :: rest)
  | _ => true

namespace node

/-- The bounds `childMin`, `childMax` that `validateRec` computes for child `i`:
`(minExclusive, keys[0])` for `i == 0` (the inherited upper bound when there is no
key), `(keys[i-1], maxExclusive)` for `i == len(keys)`, `(keys[i-1], keys[i])` otherwise. -/
def childBounds (n : node) (minExclusive maxExclusive : Option Int) (i : Int) :
    Res (Option Int × Option Int) :=
  if i = 0 then
    if n.keys.length > 0 then do
      let k0 ← getAt n.keys 0
      pure (minExclusive, some k0)
    else pure (minExclusive, maxExclusive)
  else if i = n.keys.length then do
    let k1 ← getAt n.keys (i - 1)
    pure (some k1, maxExclusive)
  else do
    let k1 ← getAt n.keys (i - 1)
    let k2 ← getAt n.keys i
    pure (some k1, some k2)

/-- The loop `for i := 0; i < len(n.children); i++ { ... }` of `validateRec`, with
`rec` the validation of a child; the first argument counts the turns left. -/
def validateLoop (rec : node → Option Int → Option Int → Int → Res (Option VErr × Int))
    (n : node) (minExclusive maxExclusive : Option Int) :
    Nat → Int → Int → Res (Option VErr × Int)
  | 0, _, leafDepth => .ok (none, leafDepth)
  | turns + 1, i, leafDepth => do
    let bounds ← childBounds n minExclusive maxExclusive i
    let c ← getAt n.children i
    let r ← rec c bounds.1 bounds.2 leafDepth
    match r.1 with
    | some e => .ok (some e, r.2)
    | none => validateLoop rec n minExclusive maxExclusive turns (i + 1) r.2

/-- Go `(n *node) validateRec(t, isRoot, minExclusive, maxExclusive, depth, leafDepth)`:
the error (if any) and the value left in `*leafDepth`. The bound `2*t-1` of the two
key-count checks is the `int` value `maxKeys t`; `t-1` is reached only for `t ≥ 2`. -/
def validateRec : Nat → node → Int → Bool → Option Int → Option Int → Int → Int →
    Res (Option VErr × Int)
  | 0, _, _, _, _, _, _, _ => .outOfFuel
  | fuel + 1, n, t, isRoot, minExclusive, maxExclusive, depth, leafDepth =>
    if t < 2 then .ok (some .invalidT, leafDepth)
    else if isRoot ∧ (n.keys.length : Int) > maxKeys t then
      .ok (some .rootTooManyKeys, leafDepth)
    else if ¬ isRoot ∧ ((n.keys.length : Int) < t - 1 ∨ (n.keys.length : Int) > maxKeys t) then
      .ok (some .invalidKeyCount, leafDepth)
    else if ¬ keysIncreasing n.keys then .ok (some .keysNotIncreasing, leafDepth)
    else if minExclusive.any (fun lo => n.keys.any (fun k => k ≤ lo)) then
      .ok (some .minViolated, leafDepth)
    else if maxExclusive.any (fun hi => n.keys.any (fun k => k ≥ hi)) then
      .ok (some .maxViolated, leafDepth)
    else if n.leaf then
      if n.children.length ≠ 0 then .ok (some .leafHasChildren, leafDepth)
      else if leafDepth = -1 then .ok (none, depth)
      else if leafDepth ≠ depth then .ok (some .leafDepthMismatch, leafDepth)
      else .ok (none, leafDepth)
    else if n.children.length ≠ n.keys.length + 1 then .ok (some .childrenMismatch, leafDepth)
    else validateLoop (fun c lo hi ld => validateRec fuel c t false lo hi (depth + 1) ld)
      n minExclusive maxExclusive n.children.length 0 leafDepth

/-- Go `(n *node) validate(t, isRoot)`. -/
def validate (fuel : Nat) (n : node) (t : Int) (isRoot : Bool) : Res (Option VErr) := do
  let r ← validateRec fuel n t isRoot none none 0 (-1)
  pure r.1

end node

/-- Go `type BTree struct { t int; root *node }`. -/
structure BTree where
  t : Int
  root : node

namespace BTree

/-- Go `New(t)`: `none` stands for the pair `(nil, error)`. -/
def New (t : Int) : Option BTree :=
  if t < 2 then none else some ⟨t, newLeaf⟩

/-- Go `(tr *BTree) MinDegree()`. -/
def MinDegree (tr : BTree) : Int := tr.t

/-- Go `(tr *BTree) Search(k)`. -/
def Search (tr : BTree) (k : Int) : Res Bool := do
  let r ← tr.root.search tr.root.height k
  pure r.2

/-- Go `(tr *BTree) Insert(k)`. -/
def Insert (tr : BTree) (k : Int) : Res BTree := do
  let found ← tr.Search k
  if found then pure tr
  else do
    let root ← (if (tr.root.keys.length : Int) = 2 * tr.t - 1 then
        node.splitChild (node.mk newInternal.leaf newInternal.keys [tr.root]) 0 tr.t
      else pure tr.root : Res node)
    let root1 ← root.insertNonFull root.height k tr.t
    pure ⟨tr.t, root1⟩

/-- Go `(tr *BTree) Delete(k)`. -/
def Delete (tr : BTree) (k : Int) : Res BTree := do
  let root ← tr.root.delete tr.root.height k tr.t
  if root.keys.length = 0 ∧ ¬ root.leaf then do
    let c ← getAt root.children 0
    pure ⟨tr.t, c⟩
  else pure ⟨tr.t, root⟩

/-- Go `(tr *BTree) Keys()`. -/
def Keys (tr : BTree) : Res (List Int) :=
  tr.root.inorder tr.root.height []

/-- Go `(tr *BTree) Validate()`. -/
def Validate (tr : BTree) : Res (Option VErr) :=
  if tr.t < 2 then .ok (some .invalidT)
  else tr.root.validate tr.root.height tr.t true

end BTree

/-! ## Specification-level notions -/

namespace node

mutual
/-- The keys of a subtree in symmetric order: for an internal node, child `0`,
key `0`, child `1`, key `1`, ..., last child. -/
def flat : node → List Int
  | mk true ks _ => ks
  | mk false ks cs => flatKC ks cs
/-- Symmetric order of a list of keys interleaved with a list of children. -/
def flatKC : List Int → List node → List Int
  | _, [] => []
  | [], c :: cs => flat c ++ flatKC [] cs
  | k :: ks, c :: cs => flat c ++ k :: flatKC ks cs
end

end node

/-- Shape of a subtree whose leaves are all `h` levels below its top node: every
node has at most `2t-1` keys, a leaf has no children, an internal node has one
child more than keys, and every node below the top has at least `t-1` keys. -/
inductive Shaped (t : Int) : Nat → node → Prop
  | leaf (ks : List Int) : (ks.length : Int) ≤ 2 * t - 1 → Shaped t 0 (node.mk true ks [])
  | inner (ks : List Int) (cs : List node) (h : Nat) :
      (ks.length : Int) ≤ 2 * t - 1 → cs.length = ks.length + 1 →
      (∀ c ∈ cs, t - 1 ≤ (c.keys.length : Int)) → (∀ c ∈ cs, Shaped t h c) →
      Shaped t (h + 1) (node.mk false ks cs)

/-- The keys of `l` lie strictly between the optional exclusive bounds. -/
def Within (lo hi : Option Int) (l : List Int) : Prop :=
  (∀ a, lo = some a → ∀ x ∈ l, a < x) ∧ (∀ b, hi = some b → ∀ x ∈ l, x < b)

/-- Exclusive lower bound of child `i`: the inherited bound for the first child,
key `i-1` of the node otherwise. -/
def childMin (lo : Option Int) (ks : List Int) (i : Nat) : Option Int :=
  if i = 0 then lo else ks[i - 1]?

/-- Exclusive upper bound of child `i`: key `i` of the node, the inherited bound
for the last child. -/
def childMax (hi : Option Int) (ks : List Int) (i : Nat) : Option Int :=
  match ks[i]? with
  | some k => some k
  | none => hi

/-- Invariant of the trees built by the public operations: well-shaped, keys in
strictly increasing symmetric order, and a root that is a leaf or holds a key. -/
def TreeInv (tr : BTree) : Prop :=
  2 ≤ tr.t ∧ ∃ h, Shaped tr.t h tr.root ∧ (tr.root.flat).Pairwise (· < ·) ∧
    (tr.root.leaf = true ∨ 1 ≤ tr.root.keys.length)

/-- A call of one of the two mutating public operations. -/
inductive Op where
  | insert (k : Int)
  | delete (k : Int)

/-- One call on a tree. -/
def BTree.step (tr : BTree) : Op → Res BTree
  | .insert k => tr.Insert k
  | .delete k => tr.Delete k

/-- A finite sequence of calls, in order. -/
def BTree.run (tr : BTree) : List Op → Res BTree
  | [] => .ok tr
  | op :: ops => do
    let tr1 ← tr.step op
    tr1.run ops

/-- The trees reachable from `New(t)` by a finite sequence of `Insert`/`Delete` calls. -/
def Reachable (t : Int) (tr : BTree) : Prop :=
  ∃ tr0 ops, BTree.New t = some tr0 ∧ tr0.run ops = .ok tr

/-- Reference model: one call on a finite set of keys. -/
def Op.onSet (S : Finset Int) : Op → Finset Int
  | .insert k => S ∪ {k}
  | .delete k => S \ {k}

/-- Reference model: the set after a sequence of calls on the empty set. -/
def setAfter (ops : List Op) : Finset Int :=
  ops.foldl Op.onSet ∅

namespace node

mutual
/-- The keys stored in the nodes of a subtree, node by node. -/
def allKeys : node → List Int
  | mk _ ks cs => ks ++ allKeysList cs
/-- The keys stored in the nodes of a list of subtrees. -/
def allKeysList : List node → List Int
  | [] => []
  | c :: cs => allKeys c ++ allKeysList cs
end

end node

/-- The search path of `k` meets no child with exactly `t-1` keys, so that
`delete` has nothing to repair on its way down. -/
inductive NoRepair (t k : Int) : node → Prop
  | leaf (ks : List Int) (cs : List node) : NoRepair t k (node.mk true ks cs)
  | inner (ks : List Int) (cs : List node) (c : node) :
      getAt cs (searchInts ks k) = .ok c → (c.keys.length : Int) ≠ t - 1 →
      NoRepair t k c → NoRepair t k (node.mk false ks cs)

/-- The tree built by `New(2)` followed by `Insert` of `1, 2, 3, 4`: the root holds
key `2` over the leaves `[1]` and `[3, 4]`. -/
def tree1234 : BTree :=
  ⟨2, node.mk false [2] [node.mk true [1] [], node.mk true [3, 4] []]⟩

/-- The tree `tree1234` after `Delete(0)`: the left leaf has borrowed through the root. -/
def tree1234AfterDelete0 : BTree :=
  ⟨2, node.mk false [3] [node.mk true [1, 2] [], node.mk true [4] []]⟩

namespace node

mutual
/-- The nodes of a tree: the node itself, then the nodes of its subtrees. -/
def nodes : node → List node
  | mk l ks cs => mk l ks cs :: nodesList cs
/-- The nodes of a list of trees. -/
def nodesList : List node → List node
  | [] => []
  | c :: cs => nodes c ++ nodesList cs
end

mutual
/-- The depths, counted from this node, of the leaves of a tree. -/
def leafDepths : node → List Nat
  | mk true _ _ => [0]
  | mk false _ cs => (leafDepthsList cs).map (· + 1)
/-- The depths of the leaves of a list of trees. -/
def leafDepthsList : List node → List Nat
  | [] => []
  | c :: cs => leafDepths c ++ leafDepthsList cs
end

end node

/-- The invariants of the data model as the specification words them:
(1) the root has at most `2t-1` keys and every other node between `t-1` and `2t-1`;
(2) the keys of every node are strictly increasing;
(3) every key in the subtree of child `i` of a node lies strictly between keys `i-1`
and `i` of that node (no bound from the node itself where it has no such key);
(4) a leaf has no children and an internal node has `len(keys)+1` children;
(5) all leaves are at the same depth. -/
def SpecInvariants (t : Int) (root : node) : Prop :=
  ((root.keys.length : Int) ≤ 2 * t - 1 ∧
    ∀ n ∈ node.nodesList root.children,
      t - 1 ≤ (n.keys.length : Int) ∧ (n.keys.length : Int) ≤ 2 * t - 1) ∧
  (∀ n ∈ root.nodes, n.keys.Pairwise (· < ·)) ∧
  (∀ n ∈ root.nodes, ∀ (i : Nat) (c : node), n.children[i]? = some c → ∀ x ∈ c.allKeys,
    (∀ a, 0 < i → n.keys[i - 1]? = some a → a < x) ∧ (∀ b, n.keys[i]? = some b → x < b)) ∧
  (∀ n ∈ root.nodes, (n.leaf = true → n.children = []) ∧
    (n.leaf = false → n.children.length = n.keys.length + 1)) ∧
  (∀ d1 ∈ root.leafDepths, ∀ d2 ∈ root.leafDepths, d1 = d2)

/-- The tree of degree 2 with root key 2 over the leaves `[1]` and `[3]`; it is reached
from `New(2)` by inserting 1, 2, 3, 4 and deleting 4. -/
def tree123 : BTree :=
  ⟨2, node.mk false [2] [node.mk true [1] [], node.mk true [3] []]⟩

/-- A tree of degree 2 whose root is an internal node with no key and the single child
`[1]`; no sequence of calls from `New(2)` produces it. -/
def emptyInternalRootTree : BTree :=
  ⟨2, node.mk false [] [node.mk true [1] []]⟩

namespace node

/-- The traversal of `inorder` over an internal node, written on its lists of keys and
children: child 0, key 0, child 1, key 1, ..., and the child after the last key; `rec`
is the traversal of a child. -/
def inorderKC (rec : node → List Int → Res (List Int)) :
    List Int → List node → List Int → Res (List Int)
  | k :: ks, c :: cs, out => do
    let out1 ← rec c out
    inorderKC rec ks cs (out1 ++ [k])
  | [], c :: _, out => rec c out
  | _, [], out => .ok out

end node

/-- An internal node whose two children are of different kinds: an internal node with two
keys over three leaves, and a leaf. -/
def mixedChildrenNode : node :=
  node.mk false [60] [node.mk false [20, 40]
    [node.mk true [10] [], node.mk true [30] [], node.mk true [50] []], node.mk true [70] []]

/-- The node `mixedChildrenNode` after `borrowFromPrev(1)`. -/
def mixedChildrenNodeBorrowed : node :=
  node.mk false [40] [node.mk false [20]
    [node.mk true [10] [], node.mk true [30] [], node.mk true [50] []],
    node.mk true [60, 70] []]

/-- An internal node whose two children are of different kinds: a leaf with two keys, and
an internal node with one key over two leaves. -/
def leafSiblingNode : node :=
  node.mk false [60] [node.mk true [20, 40] [],
    node.mk false [70] [node.mk true [65] [], node.mk true [75] []]]

/-- Keys of an example parent: one separator. -/
def pairKeys : List Int := [60]

/-- An example left child: a leaf with two keys. -/
def pairLeft : node := node.mk true [20, 40] []

/-- An example right child: a leaf with two keys. -/
def pairRight : node := node.mk true [70, 80] []

/-- Children of an example parent: two leaves. -/
def pairChildren : List node := [pairLeft, pairRight]

/-- An example child holding a single key. -/
def repairChild : node := node.mk true [70] []

/-- Children of an example parent of degree 2: a leaf with two keys, then a leaf with
one key. -/
def repairChildren : List node := [pairLeft, repairChild]

/-- The smallest degree at which `2*t-1` overflows a 64-bit `int`: `2^62 + 1`. -/
def overflowDegree : Int := 4611686018427387905

/-- The largest 64-bit `int`: `2^63 - 1`. -/
def maxInt : Int := 9223372036854775807

/-- A tree of degree 2 whose root is an internal node with no key over the single leaf
`[1, 2]`; no sequence of calls from `New(2)` produces it. -/
def emptyInternalRootWideTree : BTree :=
  ⟨2, node.mk false [] [node.mk true [1, 2] []]⟩


/-! ## Outcomes and slices -/

@[simp] theorem Res.ok_bind {α β : Type} (a : α) (f : α → Res β) :
    (Res.ok a >>= f) = f a := rfl

@[simp] theorem Res.pure_bind {α β : Type} (a : α) (f : α → Res β) :
    ((pure a : Res α) >>= f) = f a := rfl

@[simp] theorem Res.panic_bind {α β : Type} (f : α → Res β) :
    ((Res.panic : Res α) >>= f) = Res.panic := rfl

@[simp] theorem Res.outOfFuel_bind {α β : Type} (f : α → Res β) :
    ((Res.outOfFuel : Res α) >>= f) = Res.outOfFuel := rfl

@[simp] theorem Res.pure_eq_ok {α : Type} (a : α) : (pure a : Res α) = Res.ok a := rfl

theorem getAt_append_cons {α : Type} (L : List α) (y : α) (R : List α) (i : Int)
    (h : i = L.length) : getAt (L ++ y :: R) i = .ok y := by
  subst h
  have h0 : ¬ ((L.length : Int) < 0) := by omega
  have h1 : (L ++ y :: R)[L.length]? = some y := by
    rw [List.getElem?_append_right (Nat.le_refl _)]
    simp
  simp only [getAt, h0, if_false, Int.toNat_ofNat, h1]

theorem getAt_of_lt {α : Type} (s : List α) (i : Int) (h0 : 0 ≤ i) (h1 : i < s.length) :
    ∃ L y R, s = L ++ y :: R ∧ (L.length : Int) = i ∧ getAt s i = .ok y := by
  have hlt : i.toNat < s.length := by omega
  refine ⟨s.take i.toNat, s[i.toNat], s.drop (i.toNat + 1), ?_, ?_, ?_⟩
  · simp
  · simp [List.length_take]; omega
  · simp [getAt, hlt]; omega

theorem getAt_eq_ok {α : Type} (s : List α) (i : Int) (y : α) (h : getAt s i = .ok y) :
    ∃ L R, s = L ++ y :: R ∧ (L.length : Int) = i := by
  unfold getAt at h
  split at h
  · cases h
  · rename_i hi
    split at h
    · rename_i a ha
      cases h
      have hlt : i.toNat < s.length := by
        rcases List.getElem?_eq_some_iff.mp ha with ⟨hl, _⟩
        exact hl
      have hy : s[i.toNat] = y := by
        rcases List.getElem?_eq_some_iff.mp ha with ⟨_, he⟩
        exact he
      refine ⟨s.take i.toNat, s.drop (i.toNat + 1), ?_, ?_⟩
      · rw [← hy]; simp
      · simp [List.length_take]; omega
    · cases h

theorem setAt_append_cons {α : Type} (L : List α) (y : α) (R : List α) (i : Int) (v : α)
    (h : i = L.length) : setAt (L ++ y :: R) i v = .ok (L ++ v :: R) := by
  subst h
  simp [setAt]

theorem insertAt_append {α : Type} (L R : List α) (i : Int) (v : α)
    (h : i = L.length) : insertAt (L ++ R) i v = .ok (L ++ v :: R) := by
  subst h
  simp [insertAt]

theorem removeAt_append_cons {α : Type} (L : List α) (y : α) (R : List α) (i : Int)
    (h : i = L.length) : removeAt (L ++ y :: R) i = .ok (L ++ R) := by
  subst h
  simp [removeAt]

theorem sliceFrom_append {α : Type} (L R : List α) (i : Int)
    (h : i = L.length) : sliceFrom (L ++ R) i = .ok R := by
  subst h
  simp [sliceFrom]

theorem sliceTo_append {α : Type} (L R : List α) (i : Int)
    (h : i = L.length) : sliceTo (L ++ R) i = .ok L := by
  subst h
  simp [sliceTo]

theorem getAt_append_cons_cons {α : Type} (L : List α) (x y : α) (R : List α) (i : Int)
    (h : i = L.length + 1) : getAt (L ++ x :: y :: R) i = .ok y := by
  have := getAt_append_cons (L ++ [x]) y R i (by simp [h])
  simpa using this

theorem setAt_append_cons_cons {α : Type} (L : List α) (x y : α) (R : List α) (i : Int) (v : α)
    (h : i = L.length + 1) : setAt (L ++ x :: y :: R) i v = .ok (L ++ x :: v :: R) := by
  have := setAt_append_cons (L ++ [x]) y R i v (by simp [h])
  simpa using this

theorem removeAt_append_cons_cons {α : Type} (L : List α) (x y : α) (R : List α) (i : Int)
    (h : i = L.length + 1) : removeAt (L ++ x :: y :: R) i = .ok (L ++ x :: R) := by
  have := removeAt_append_cons (L ++ [x]) y R i (by simp [h])
  simpa using this

theorem insertAt_append_cons {α : Type} (L : List α) (x : α) (R : List α) (i : Int) (v : α)
    (h : i = L.length + 1) : insertAt (L ++ x :: R) i v = .ok (L ++ x :: v :: R) := by
  have := insertAt_append (L ++ [x]) R i v (by simp [h])
  simpa using this

theorem sliceFrom_append_cons {α : Type} (L : List α) (x : α) (R : List α) (i : Int)
    (h : i = L.length + 1) : sliceFrom (L ++ x :: R) i = .ok R := by
  have := sliceFrom_append (L ++ [x]) R i (by simp [h])
  simpa using this

@[simp] theorem getAt_cons_zero {α : Type} (x : α) (R : List α) : getAt (x :: R) 0 = .ok x :=
  getAt_append_cons [] x R 0 rfl

@[simp] theorem sliceFrom_cons_one {α : Type} (x : α) (R : List α) :
    sliceFrom (x :: R) 1 = .ok R :=
  sliceFrom_append [x] R 1 rfl

@[simp] theorem getAt_concat {α : Type} (L : List α) (x : α) :
    getAt (L ++ [x]) (L.length : Int) = .ok x :=
  getAt_append_cons L x [] _ rfl

@[simp] theorem sliceTo_concat {α : Type} (L : List α) (x : α) :
    sliceTo (L ++ [x]) (L.length : Int) = .ok L :=
  sliceTo_append L [x] _ rfl

theorem getAt_natCast {α : Type} (s : List α) (j : Nat) :
    getAt s (j : Int) = (match s[j]? with
      | some a => Res.ok a
      | none => Res.panic) := by
  have h0 : ¬ ((j : Int) < 0) := by omega
  unfold getAt
  rw [if_neg h0]
  rfl


/-! ## Binary search on strictly increasing keys -/

theorem getD_lt_of_lt (a : List Int) (hs : a.Pairwise (· < ·)) (p q : Nat)
    (hpq : p < q) (hq : q < a.length) : a.getD p 0 < a.getD q 0 := by
  have hp : p < a.length := by omega
  rw [List.getD_eq_getElem _ _ hp, List.getD_eq_getElem _ _ hq]
  exact List.pairwise_iff_getElem.mp hs p q hp hq hpq

theorem searchLoop_spec (a : List Int) (x : Int) (hs : a.Pairwise (· < ·)) :
    ∀ fuel i j, i ≤ j → j ≤ a.length → j - i ≤ fuel →
      (∀ p, p < i → a.getD p 0 < x) →
      (∀ p, j ≤ p → p < a.length → x ≤ a.getD p 0) →
      searchLoop a x fuel i j ≤ a.length ∧
      (∀ p, p < searchLoop a x fuel i j → a.getD p 0 < x) ∧
      (∀ p, searchLoop a x fuel i j ≤ p → p < a.length → x ≤ a.getD p 0) := by
  intro fuel
  induction fuel with
  | zero =>
    intro i j hij hj hf hlo hhi
    have : i = j := by omega
    subst this
    simp only [searchLoop]
    exact ⟨hj, hlo, hhi⟩
  | succ f ih =>
    intro i j hij hj hf hlo hhi
    simp only [searchLoop]
    by_cases hlt : i < j
    · simp only [hlt, if_true]
      have hh1 : i ≤ (i + j) / 2 := by omega
      have hh2 : (i + j) / 2 < j := by omega
      by_cases hc : a.getD ((i + j) / 2) 0 < x
      · simp only [hc, if_true]
        apply ih ((i + j) / 2 + 1) j (by omega) hj (by omega) _ hhi
        intro p hp
        rcases Nat.lt_or_ge p ((i + j) / 2) with h | h
        · exact lt_trans (getD_lt_of_lt a hs p _ h (by omega)) hc
        · have : p = (i + j) / 2 := by omega
          subst this
          exact hc
      · simp only [hc, if_false]
        apply ih i ((i + j) / 2) hh1 (by omega) (by omega) hlo
        intro p hp hpl
        rcases Nat.lt_or_ge ((i + j) / 2) p with h | h
        · exact le_of_lt (lt_of_le_of_lt (not_lt.mp hc) (getD_lt_of_lt a hs _ p h hpl))
        · have : p = (i + j) / 2 := by omega
          subst this
          exact not_lt.mp hc
    · simp only [hlt, if_false]
      have : i = j := by omega
      subst this
      exact ⟨hj, hlo, hhi⟩

/-- On strictly increasing keys `sort.SearchInts` returns the number of keys below `x`. -/
theorem searchInts_split (ks : List Int) (x : Int) (hs : ks.Pairwise (· < ·)) :
    ∃ kl kr, ks = kl ++ kr ∧ searchInts ks x = (kl.length : Int) ∧
      (∀ a ∈ kl, a < x) ∧ (∀ b ∈ kr, x ≤ b) := by
  obtain ⟨hr, hlo, hhi⟩ := searchLoop_spec ks x hs ks.length 0 ks.length (Nat.zero_le _)
    (Nat.le_refl _) (by omega) (by intro p hp; omega) (by intro p h1 h2; omega)
  refine ⟨ks.take (searchLoop ks x ks.length 0 ks.length),
    ks.drop (searchLoop ks x ks.length 0 ks.length), (List.take_append_drop _ _).symm, ?_, ?_, ?_⟩
  · simp [searchInts, List.length_take, hr]
  · intro a ha
    obtain ⟨n, hn, rfl⟩ := List.mem_iff_getElem.mp ha
    have hn1 : n < searchLoop ks x ks.length 0 ks.length := by
      simp [List.length_take] at hn; omega
    have hn2 : n < ks.length := by omega
    have := hlo n hn1
    rw [List.getD_eq_getElem _ _ hn2] at this
    simpa [List.getElem_take] using this
  · intro b hb
    obtain ⟨n, hn, rfl⟩ := List.mem_iff_getElem.mp hb
    have hn2 : searchLoop ks x ks.length 0 ks.length + n < ks.length := by
      simp at hn; omega
    have := hhi (searchLoop ks x ks.length 0 ks.length + n) (by omega) hn2
    rw [List.getD_eq_getElem _ _ hn2] at this
    simpa [List.getElem_drop] using this


/-! ## Symmetric order -/

namespace node

@[simp] theorem leaf_mk (l : Bool) (ks : List Int) (cs : List node) : (mk l ks cs).leaf = l := rfl

@[simp] theorem keys_mk (l : Bool) (ks : List Int) (cs : List node) : (mk l ks cs).keys = ks := rfl

@[simp] theorem children_mk (l : Bool) (ks : List Int) (cs : List node) :
    (mk l ks cs).children = cs := rfl

@[simp] theorem flat_leaf (ks : List Int) (cs : List node) : flat (mk true ks cs) = ks := by
  simp [flat]

@[simp] theorem flat_inner (ks : List Int) (cs : List node) :
    flat (mk false ks cs) = flatKC ks cs := by
  simp [flat]

@[simp] theorem flatKC_nil (ks : List Int) : flatKC ks [] = [] := by
  cases ks <;> simp [flatKC]

@[simp] theorem flatKC_cons_cons (k : Int) (ks : List Int) (c : node) (cs : List node) :
    flatKC (k :: ks) (c :: cs) = flat c ++ k :: flatKC ks cs := by
  simp [flatKC]

@[simp] theorem flatKC_nil_cons (c : node) (cs : List node) :
    flatKC [] (c :: cs) = flat c ++ flatKC [] cs := by
  simp [flatKC]

/-- Children paired with the keys that follow them, then the rest. -/
theorem flatKC_append (kl kr : List Int) (L R : List node) (h : L.length = kl.length) :
    flatKC (kl ++ kr) (L ++ R) = flatKC kl L ++ flatKC kr R := by
  induction kl generalizing L with
  | nil =>
    cases L with
    | nil => simp
    | cons c L => simp at h
  | cons k kl ih =>
    cases L with
    | nil => simp at h
    | cons c L =>
      simp only [List.length_cons, Nat.add_right_cancel_iff] at h
      simp [ih L h]

/-- Splitting keys and children around a separator key. -/
theorem flatKC_split (a b : List Int) (m : Int) (ca cb : List node)
    (h : ca.length = a.length + 1) :
    flatKC (a ++ m :: b) (ca ++ cb) = flatKC a ca ++ m :: flatKC b cb := by
  induction a generalizing ca with
  | nil =>
    match ca, h with
    | [c], _ => simp
  | cons k a ih =>
    match ca, h with
    | c :: ca, h =>
      simp only [List.length_cons, Nat.add_right_cancel_iff] at h
      simp [ih ca h]

/-- The keys of a node occur, in order, in its symmetric order. -/
theorem keys_sublist_flatKC (ks : List Int) (cs : List node) (h : ks.length < cs.length) :
    ks.Sublist (flatKC ks cs) := by
  induction ks generalizing cs with
  | nil => simp
  | cons k ks ih =>
    cases cs with
    | nil => simp at h
    | cons c cs =>
      simp only [List.length_cons, Nat.add_lt_add_iff_right] at h
      rw [flatKC_cons_cons]
      exact List.Sublist.trans ((ih cs h).cons₂ k) (List.sublist_append_right _ _)

/-- Every key of a paired prefix is below `x` when the node keys of the prefix are. -/
theorem flatKC_lt (kl : List Int) (L : List node) (x : Int) (h : L.length = kl.length)
    (hs : (flatKC kl L).Pairwise (· < ·)) (hk : ∀ a ∈ kl, a < x) :
    ∀ e ∈ flatKC kl L, e < x := by
  induction kl generalizing L with
  | nil =>
    cases L with
    | nil => simp
    | cons c L => simp at h
  | cons k kl ih =>
    cases L with
    | nil => simp at h
    | cons c L =>
      simp only [List.length_cons, Nat.add_right_cancel_iff] at h
      rw [flatKC_cons_cons] at hs ⊢
      rw [List.pairwise_append] at hs
      obtain ⟨_, hs2, hs3⟩ := hs
      rw [List.pairwise_cons] at hs2
      intro e he
      rcases List.mem_append.mp he with he | he
      · exact lt_trans (hs3 e he k (List.mem_cons_self _ _)) (hk k (List.mem_cons_self _ _))
      · rcases List.mem_cons.mp he with he | he
        · subst he; exact hk _ (List.mem_cons_self _ _)
        · exact ih L h hs2.2 (fun a ha => hk a (List.mem_cons_of_mem _ ha)) e he

/-- What follows child `i` in the symmetric order: key `i`, child `i+1`, ... -/
theorem flatKC_cons_eq (kr : List Int) (c : node) (R : List node) :
    ∃ S, flatKC kr (c :: R) = flat c ++ S ∧
      (∀ kl L, L.length = kl.length →
        flatKC (kl ++ kr) (L ++ c :: R) = flatKC kl L ++ flat c ++ S) ∧
      (∀ x : Int, R.length = kr.length → S.Pairwise (· < ·) → (∀ b ∈ kr, x ≤ b) →
        ∀ e ∈ S, x ≤ e) ∧
      (∀ c1, flatKC kr (c1 :: R) = flat c1 ++ S) := by
  cases kr with
  | nil =>
    refine ⟨flatKC [] R, by simp, ?_, ?_, by simp⟩
    · intro kl L h
      rw [flatKC_append kl [] L (c :: R) h]; simp
    · intro x hR
      cases R with
      | nil => simp
      | cons r R => simp at hR
  | cons k kr =>
    refine ⟨k :: flatKC kr R, by simp, ?_, ?_, by simp⟩
    · intro kl L h
      rw [flatKC_append kl (k :: kr) L (c :: R) h]; simp
    · intro x _ hs hb e he
      rw [List.pairwise_cons] at hs
      have hk := hb k (List.mem_cons_self _ _)
      rcases List.mem_cons.mp he with he | he
      · subst he; exact hk
      · exact le_of_lt (lt_of_le_of_lt hk (hs.1 e he))

end node

/-! ## Shape -/

theorem Shaped.keys_le {t : Int} {h : Nat} {n : node} (hn : Shaped t h n) :
    (n.keys.length : Int) ≤ 2 * t - 1 := by
  cases hn <;> simpa [node.keys]

theorem Shaped.leaf_inv {t : Int} {h : Nat} {ks : List Int} {cs : List node}
    (hn : Shaped t h (node.mk true ks cs)) : h = 0 ∧ cs = [] := by
  cases hn; exact ⟨rfl, rfl⟩

theorem Shaped.inner_inv {t : Int} {h : Nat} {ks : List Int} {cs : List node}
    (hn : Shaped t h (node.mk false ks cs)) :
    ∃ h1, h = h1 + 1 ∧ cs.length = ks.length + 1 ∧
      (∀ c ∈ cs, t - 1 ≤ (c.keys.length : Int)) ∧ (∀ c ∈ cs, Shaped t h1 c) := by
  cases hn with
  | inner _ _ h1 _ hl hk hc => exact ⟨h1, rfl, hl, hk, hc⟩

theorem Shaped.height_eq {t : Int} {h : Nat} {n : node} (hn : Shaped t h n) :
    n.height = h + 1 := by
  induction hn with
  | leaf ks _ => simp [node.height, node.heightList]
  | inner ks cs h _ hl _ _ ih =>
    have key : ∀ l : List node, l ≠ [] → (∀ c ∈ l, c.height = h + 1) →
        node.heightList l = h + 1 := by
      intro l
      induction l with
      | nil => intro hne; exact absurd rfl hne
      | cons c l ihl =>
        intro _ hall
        cases l with
        | nil => simp [node.heightList, hall c (List.mem_cons_self _ _)]
        | cons d l =>
          have h1 := ihl (by simp) (fun x hx => hall x (List.mem_cons_of_mem _ hx))
          simp only [node.heightList] at h1 ⊢
          rw [h1, hall c (List.mem_cons_self _ _)]
          simp
    have hne : cs ≠ [] := by
      intro h0; subst h0; simp at hl
    simp [node.height, key cs hne ih]


/-! ## The node operations on a decomposed node -/

namespace node

theorem splitChild_eq_leaf (lf : Bool) (kl kr : List Int) (L R : List node)
    (a b : List Int) (m : Int) (ycs : List node) (i t : Int)
    (hi : i = L.length) (hk : L.length = kl.length) (ha : (a.length : Int) = t - 1) :
    splitChild (mk lf (kl ++ kr) (L ++ mk true (a ++ m :: b) ycs :: R)) i t =
      .ok (mk lf (kl ++ m :: kr) (L ++ mk true a ycs :: mk true b [] :: R)) := by
  simp [splitChild, children, keys, leaf, getAt_append_cons L _ R i hi,
    getAt_append_cons a m b (t - 1) ha.symm, sliceFrom_append_cons a m b t (by omega),
    sliceTo_append a (m :: b) (t - 1) ha.symm, setAt_append_cons L _ R i _ hi,
    insertAt_append_cons L _ R (i + 1) _ (by omega),
    insertAt_append kl kr i m (by omega)]

theorem splitChild_eq_inner (lf : Bool) (kl kr : List Int) (L R : List node)
    (a b : List Int) (m : Int) (ca cb : List node) (i t : Int)
    (hi : i = L.length) (hk : L.length = kl.length) (ha : (a.length : Int) = t - 1)
    (hca : (ca.length : Int) = t) :
    splitChild (mk lf (kl ++ kr) (L ++ mk false (a ++ m :: b) (ca ++ cb) :: R)) i t =
      .ok (mk lf (kl ++ m :: kr) (L ++ mk false a ca :: mk false b cb :: R)) := by
  simp [splitChild, children, keys, leaf, getAt_append_cons L _ R i hi,
    getAt_append_cons a m b (t - 1) ha.symm, sliceFrom_append_cons a m b t (by omega),
    sliceTo_append a (m :: b) (t - 1) ha.symm, setAt_append_cons L _ R i _ hi,
    insertAt_append_cons L _ R (i + 1) _ (by omega),
    insertAt_append kl kr i m (by omega), sliceFrom_append ca cb t hca.symm,
    sliceTo_append ca cb t hca.symm]

theorem mergeChildren_eq (lf : Bool) (kl kr : List Int) (s : Int) (L R : List node)
    (l r : node) (i : Int) (hi : i = L.length) (hk : L.length = kl.length) :
    mergeChildren (mk lf (kl ++ s :: kr) (L ++ l :: r :: R)) i =
      .ok (mk lf (kl ++ kr) (L ++ mk l.leaf (l.keys ++ [s] ++ r.keys)
        (if l.leaf then l.children else l.children ++ r.children) :: R)) := by
  simp [mergeChildren, children, keys, leaf, getAt_append_cons L _ _ i hi,
    getAt_append_cons_cons L _ _ R (i + 1) (by omega),
    getAt_append_cons kl s kr i (by omega), setAt_append_cons L _ _ i _ hi,
    removeAt_append_cons kl s kr i (by omega),
    removeAt_append_cons_cons L _ _ R (i + 1) (by omega)]

theorem borrowFromPrev_eq_leaf (lf : Bool) (kl kr : List Int) (s : Int) (L R : List node)
    (sl : Bool) (sk : List Int) (u : Int) (scs : List node) (ck : List Int) (ccs : List node)
    (idx : Int) (hi : idx = L.length + 1) (hk : L.length = kl.length) :
    borrowFromPrev (mk lf (kl ++ s :: kr)
        (L ++ mk sl (sk ++ [u]) scs :: mk true ck ccs :: R)) idx =
      .ok (mk lf (kl ++ u :: kr) (L ++ mk sl sk scs :: mk true (s :: ck) ccs :: R)) := by
  simp [borrowFromPrev, children, keys, leaf,
    getAt_append_cons_cons L _ _ R idx hi,
    getAt_append_cons L _ _ (idx - 1) (by omega),
    getAt_append_cons kl s kr (idx - 1) (by omega),
    setAt_append_cons kl s kr (idx - 1) u (by omega),
    setAt_append_cons_cons L _ _ R idx _ hi,
    setAt_append_cons L _ _ (idx - 1) _ (by omega)]

theorem borrowFromPrev_eq_inner (lf : Bool) (kl kr : List Int) (s : Int) (L R : List node)
    (sl : Bool) (sk : List Int) (u : Int) (sc : List node) (mv : node)
    (ck : List Int) (ccs : List node)
    (idx : Int) (hi : idx = L.length + 1) (hk : L.length = kl.length) :
    borrowFromPrev (mk lf (kl ++ s :: kr)
        (L ++ mk sl (sk ++ [u]) (sc ++ [mv]) :: mk false ck ccs :: R)) idx =
      .ok (mk lf (kl ++ u :: kr) (L ++ mk sl sk sc :: mk false (s :: ck) (mv :: ccs) :: R)) := by
  simp [borrowFromPrev, children, keys, leaf,
    getAt_append_cons_cons L _ _ R idx hi,
    getAt_append_cons L _ _ (idx - 1) (by omega),
    getAt_append_cons kl s kr (idx - 1) (by omega),
    setAt_append_cons kl s kr (idx - 1) u (by omega),
    setAt_append_cons_cons L _ _ R idx _ hi,
    setAt_append_cons L _ _ (idx - 1) _ (by omega)]

theorem borrowFromNext_eq_leaf (lf : Bool) (kl kr : List Int) (s : Int) (L R : List node)
    (sl : Bool) (sk : List Int) (u : Int) (scs : List node) (ck : List Int) (ccs : List node)
    (idx : Int) (hi : idx = L.length) (hk : L.length = kl.length) :
    borrowFromNext (mk lf (kl ++ s :: kr)
        (L ++ mk true ck ccs :: mk sl (u :: sk) scs :: R)) idx =
      .ok (mk lf (kl ++ u :: kr) (L ++ mk true (ck ++ [s]) ccs :: mk sl sk scs :: R)) := by
  simp [borrowFromNext, children, keys, leaf,
    getAt_append_cons L _ _ idx hi,
    getAt_append_cons_cons L _ _ R (idx + 1) (by omega),
    getAt_append_cons kl s kr idx (by omega),
    setAt_append_cons kl s kr idx u (by omega),
    setAt_append_cons L _ _ idx _ hi,
    setAt_append_cons_cons L _ _ R (idx + 1) _ (by omega)]

theorem borrowFromNext_eq_inner (lf : Bool) (kl kr : List Int) (s : Int) (L R : List node)
    (sl : Bool) (sk : List Int) (u : Int) (sc : List node) (mv : node)
    (ck : List Int) (ccs : List node)
    (idx : Int) (hi : idx = L.length) (hk : L.length = kl.length) :
    borrowFromNext (mk lf (kl ++ s :: kr)
        (L ++ mk false ck ccs :: mk sl (u :: sk) (mv :: sc) :: R)) idx =
      .ok (mk lf (kl ++ u :: kr) (L ++ mk false (ck ++ [s]) (ccs ++ [mv]) :: mk sl sk sc :: R)) := by
  simp [borrowFromNext, children, keys, leaf,
    getAt_append_cons L _ _ idx hi,
    getAt_append_cons_cons L _ _ R (idx + 1) (by omega),
    getAt_append_cons kl s kr idx (by omega),
    setAt_append_cons kl s kr idx u (by omega),
    setAt_append_cons L _ _ idx _ hi,
    setAt_append_cons_cons L _ _ R (idx + 1) _ (by omega)]

end node


/-! ## Locating a key in a node -/

/-- The test `i < len(n.keys) && n.keys[i] == k` after `i := sort.SearchInts(n.keys, k)`:
either it succeeds and `k` is the key at `i`, or it fails and `k` separates the keys. -/
theorem searchInts_cases (ks : List Int) (k : Int) (hs : ks.Pairwise (· < ·)) :
    (∃ kl kr, ks = kl ++ k :: kr ∧ searchInts ks k = (kl.length : Int) ∧
      (searchInts ks k < ks.length ∧ getAt ks (searchInts ks k) = .ok k)) ∨
    (∃ kl kr, ks = kl ++ kr ∧ searchInts ks k = (kl.length : Int) ∧
      (∀ a ∈ kl, a < k) ∧ (∀ b ∈ kr, k < b) ∧
      ¬ (searchInts ks k < ks.length ∧ getAt ks (searchInts ks k) = .ok k)) := by
  obtain ⟨kl, kr, hks, hi, hlt, hge⟩ := searchInts_split ks k hs
  cases kr with
  | nil =>
    right
    refine ⟨kl, [], hks, hi, hlt, by simp, ?_⟩
    rintro ⟨h1, _⟩
    rw [hi, hks] at h1
    simp at h1
  | cons b kr =>
    by_cases hb : b = k
    · left
      subst hb
      refine ⟨kl, kr, hks, hi, ?_, ?_⟩
      · rw [hi, hks]; simp
      · rw [hi, hks]; exact getAt_append_cons kl b kr _ rfl
    · right
      have hkb : k < b := lt_of_le_of_ne (hge b (List.mem_cons_self _ _)) (Ne.symm hb)
      have hs2 : (b :: kr).Pairwise (· < ·) := by
        rw [hks] at hs
        exact (List.pairwise_append.mp hs).2.1
      refine ⟨kl, b :: kr, hks, hi, hlt, ?_, ?_⟩
      · intro e he
        rcases List.mem_cons.mp he with he | he
        · subst he; exact hkb
        · exact lt_trans hkb ((List.pairwise_cons.mp hs2).1 e he)
      · rintro ⟨_, h2⟩
        rw [hi, hks, getAt_append_cons kl b kr _ rfl] at h2
        cases h2
        exact hb rfl

namespace node

/-- The child an absent key leads to, and what surrounds it in the symmetric order. -/
theorem descend (ks : List Int) (cs : List node) (k : Int)
    (hl : cs.length = ks.length + 1) (hs : (flatKC ks cs).Pairwise (· < ·))
    (kl kr : List Int) (hks : ks = kl ++ kr)
    (hlt : ∀ a ∈ kl, a < k) (hgt : ∀ b ∈ kr, k < b) :
    ∃ L c R P S, cs = L ++ c :: R ∧ L.length = kl.length ∧ R.length = kr.length ∧
      (∀ c1, flatKC ks (L ++ c1 :: R) = P ++ flat c1 ++ S) ∧
      (∀ e ∈ P, e < k) ∧ (∀ e ∈ S, k < e) ∧
      P = flatKC kl L ∧ (∀ c1, flatKC kr (c1 :: R) = flat c1 ++ S) := by
  subst hks
  have h0 : (0 : Int) ≤ (kl.length : Int) := by omega
  have h1 : ((kl.length : Nat) : Int) < (cs.length : Int) := by
    rw [hl]; simp; omega
  obtain ⟨L, c, R, hcs, hL, _⟩ := getAt_of_lt cs kl.length h0 h1
  have hL1 : L.length = kl.length := by omega
  have hR : R.length = kr.length := by
    have := congrArg List.length hcs
    simp at this hl; omega
  obtain ⟨S, hS0, hS1, hS2, hS3⟩ := flatKC_cons_eq kr c R
  subst hcs
  have hflat := hS1 kl L hL1
  rw [hflat] at hs
  have hsP : (flatKC kl L).Pairwise (· < ·) :=
    (List.pairwise_append.mp (List.pairwise_append.mp hs).1).1
  have hsS : S.Pairwise (· < ·) := (List.pairwise_append.mp hs).2.1
  refine ⟨L, c, R, flatKC kl L, S, rfl, hL1, hR, ?_, flatKC_lt kl L k hL1 hsP hlt, ?_, rfl, hS3⟩
  · intro c1
    rw [flatKC_append kl kr L (c1 :: R) hL1, hS3 c1, List.append_assoc]
  · cases kr with
    | nil =>
      cases R with
      | nil =>
        have : S = [] := by simpa using hS0
        subst this; simp
      | cons r R => simp at hR
    | cons b kr =>
      have hS : S = b :: flatKC kr R := by
        have := hS0
        rw [flatKC_cons_cons] at this
        exact (List.append_cancel_left this).symm
      have hb := hgt b (List.mem_cons_self _ _)
      intro e he
      rw [hS] at he hsS
      rcases List.mem_cons.mp he with he | he
      · subst he; exact hb
      · exact lt_trans hb ((List.pairwise_cons.mp hsS).1 e he)

theorem inorderLoop_eq (rec : node → List Int → Res (List Int)) (cs : List node)
    (hrec : ∀ c ∈ cs, ∀ o, rec c o = .ok (o ++ flat c)) :
    ∀ (ks : List Int) (L M R : List node) (out : List Int), cs = L ++ M ++ R →
      M.length = ks.length →
      inorderLoop rec cs ks L.length out = .ok (out ++ flatKC ks M) := by
  intro ks
  induction ks with
  | nil =>
    intro L M R out _ hM
    cases M with
    | nil => simp [inorderLoop]
    | cons c M => simp at hM
  | cons k ks ih =>
    intro L M R out hcs hM
    cases M with
    | nil => simp at hM
    | cons c M =>
      simp only [List.length_cons, Nat.add_right_cancel_iff] at hM
      have hc : c ∈ cs := by rw [hcs]; simp
      have hg : getAt cs (L.length : Int) = .ok c := by
        rw [hcs, List.append_assoc, List.cons_append]
        exact getAt_append_cons L c (M ++ R) _ rfl
      have := ih (L ++ [c]) M R (out ++ flat c ++ [k]) (by rw [hcs]; simp) hM
      simp only [List.length_append, List.length_singleton, Nat.cast_add, Nat.cast_one] at this
      simp only [inorderLoop, hg, hrec c hc, Res.ok_bind]
      simpa [List.append_assoc] using this

/-- On a well-shaped subtree `inorder` appends the symmetric order. -/
theorem inorder_eq (t : Int) : ∀ (fuel h : Nat) (n : node) (out : List Int),
    Shaped t h n → h < fuel → inorder fuel n out = .ok (out ++ flat n) := by
  intro fuel
  induction fuel with
  | zero => intro h n out _ hf; omega
  | succ f ih =>
    intro h n out hn hf
    cases hn with
    | leaf ks _ => simp [inorder, leaf, keys]
    | inner ks cs h1 _ hl _ hc =>
      have hrec : ∀ c ∈ cs, ∀ o, inorder f c o = .ok (o ++ flat c) :=
        fun c hcm o => ih h1 c o (hc c hcm) (by omega)
      have hne : cs ≠ [] := by intro h0; subst h0; simp at hl
      obtain ⟨M, last, hcs⟩ : ∃ M last, cs = M ++ [last] :=
        ⟨cs.dropLast, cs.getLast hne, (List.dropLast_append_getLast hne).symm⟩
      have hM : M.length = ks.length := by
        have := congrArg List.length hcs
        simp at this; omega
      have hloop := inorderLoop_eq (inorder f) cs hrec ks [] M [last] out (by simpa using hcs) hM
      simp only [List.length_nil, Nat.cast_zero] at hloop
      have hlast : getAt cs ((cs.length : Int) - 1) = .ok last := by
        rw [hcs]
        exact getAt_append_cons M last [] _ (by simp)
      have hfl : flatKC ks cs = flatKC ks M ++ flat last := by
        have := flatKC_append ks [] M [last] hM
        rw [hcs]
        simpa using this
      simp [inorder, leaf, keys, children, hloop, hlast, hrec last (by rw [hcs]; simp), hfl]

/-- On a well-shaped, ordered subtree `search` decides membership. -/
theorem search_spec (t : Int) : ∀ (fuel h : Nat) (n : node) (k : Int),
    Shaped t h n → (flat n).Pairwise (· < ·) → h < fuel →
    ∃ i, search fuel n k = .ok (i, decide (k ∈ flat n)) := by
  intro fuel
  induction fuel with
  | zero => intro h n k _ _ hf; omega
  | succ f ih =>
    intro h n k hn hs hf
    cases hn with
    | leaf ks _ =>
      simp only [flat_leaf] at hs
      rcases searchInts_cases ks k hs with ⟨kl, kr, hks, _, hc⟩ | ⟨kl, kr, hks, _, hlt, hgt, hc⟩
      · refine ⟨searchInts ks k, ?_⟩
        have hmem : k ∈ ks := by rw [hks]; simp
        simp [search, keys, hc, hmem]
      · refine ⟨searchInts ks k, ?_⟩
        have hmem : k ∉ ks := by
          rw [hks]
          intro hm
          rcases List.mem_append.mp hm with hm | hm
          · exact lt_irrefl _ (hlt k hm)
          · exact lt_irrefl _ (hgt k hm)
        simp only [search, keys, leaf, hc, if_false, if_true, flat_leaf, hmem, decide_False]
    | inner ks cs h1 _ hl _ hcs =>
      simp only [flat_inner] at hs
      have hsk : ks.Pairwise (· < ·) :=
        List.Pairwise.sublist (keys_sublist_flatKC ks cs (by omega)) hs
      rcases searchInts_cases ks k hsk with ⟨kl, kr, hks, _, hc⟩ | ⟨kl, kr, hks, hi, hlt, hgt, hc⟩
      · refine ⟨searchInts ks k, ?_⟩
        have hmem : k ∈ flatKC ks cs :=
          (keys_sublist_flatKC ks cs (by omega)).subset (by rw [hks]; simp)
        simp [search, keys, hc, hmem]
      · obtain ⟨L, c, R, P, S, hcs1, hL, _, hfl, hP, hS, _, _⟩ :=
          descend ks cs k hl hs kl kr hks hlt hgt
        have hflc := hfl c
        rw [← hcs1] at hflc
        have hcm : c ∈ cs := by rw [hcs1]; simp
        have hsc : (flat c).Pairwise (· < ·) := by
          rw [hflc] at hs
          exact (List.pairwise_append.mp (List.pairwise_append.mp hs).1).2.1
        obtain ⟨j, hj⟩ := ih h1 c k (hcs c hcm) hsc (by omega)
        have hg : getAt cs (searchInts ks k) = .ok c := by
          rw [hi, hcs1]
          exact getAt_append_cons L c R _ (by omega)
        have hiff : (k ∈ flatKC ks cs) = (k ∈ flat c) := by
          rw [hflc]
          apply propext
          constructor
          · intro hm
            rcases List.mem_append.mp hm with hm | hm
            · rcases List.mem_append.mp hm with hm | hm
              · exact absurd (hP k hm) (lt_irrefl _)
              · exact hm
            · exact absurd (hS k hm) (lt_irrefl _)
          · intro hm
            exact List.mem_append_left _ (List.mem_append_right _ hm)
        refine ⟨j, ?_⟩
        simp only [search, keys, leaf, children, hc, if_false, hg, Res.ok_bind, hj, flat_inner]
        simp only [hiff]
        simp

end node


/-! ## Insertion -/

theorem forall_mem_replace {α : Type} (p : α → Prop) (L R : List α) (c c1 : α)
    (h : ∀ x ∈ L ++ c :: R, p x) (hc : p c1) : ∀ x ∈ L ++ c1 :: R, p x := by
  intro x hx
  rcases List.mem_append.mp hx with hx | hx
  · exact h x (List.mem_append_left _ hx)
  · rcases List.mem_cons.mp hx with hx | hx
    · subst hx; exact hc
    · exact h x (List.mem_append_right _ (List.mem_cons_of_mem _ hx))

theorem forall_mem_split {α : Type} (p : α → Prop) (L R : List α) (c y z : α)
    (h : ∀ x ∈ L ++ c :: R, p x) (hy : p y) (hz : p z) : ∀ x ∈ L ++ y :: z :: R, p x := by
  intro x hx
  rcases List.mem_append.mp hx with hx | hx
  · exact h x (List.mem_append_left _ hx)
  · rcases List.mem_cons.mp hx with hx | hx
    · subst hx; exact hy
    · rcases List.mem_cons.mp hx with hx | hx
      · subst hx; exact hz
      · exact h x (List.mem_append_right _ (List.mem_cons_of_mem _ hx))

theorem forall_mem_merge {α : Type} (p : α → Prop) (L R : List α) (l r m : α)
    (h : ∀ x ∈ L ++ l :: r :: R, p x) (hm : p m) : ∀ x ∈ L ++ m :: R, p x := by
  intro x hx
  rcases List.mem_append.mp hx with hx | hx
  · exact h x (List.mem_append_left _ hx)
  · rcases List.mem_cons.mp hx with hx | hx
    · subst hx; exact hm
    · exact h x (List.mem_append_right _
        (List.mem_cons_of_mem _ (List.mem_cons_of_mem _ hx)))

namespace node

/-- Splitting a full, well-shaped child: the two halves and the promoted key. -/
theorem splitChild_shaped (t : Int) (h : Nat) (c : node) (ht : 2 ≤ t) (hc : Shaped t h c)
    (hfull : (c.keys.length : Int) = 2 * t - 1) :
    ∃ y1 m z,
      (∀ (lf : Bool) (kl kr : List Int) (L R : List node) (i : Int),
        i = (L.length : Int) → L.length = kl.length →
        splitChild (mk lf (kl ++ kr) (L ++ c :: R)) i t =
          .ok (mk lf (kl ++ m :: kr) (L ++ y1 :: z :: R))) ∧
      flat c = flat y1 ++ m :: flat z ∧ Shaped t h y1 ∧ Shaped t h z ∧
      (y1.keys.length : Int) = t - 1 ∧ (z.keys.length : Int) = t - 1 ∧
      y1.leaf = c.leaf ∧ z.leaf = c.leaf := by
  cases hc with
  | leaf ks hk =>
    simp only [keys] at hfull
    obtain ⟨a, m, b, hks, ha, _⟩ := getAt_of_lt ks (t - 1) (by omega) (by omega)
    subst hks
    have hb : (b.length : Int) = t - 1 := by
      simp at hfull; omega
    refine ⟨mk true a [], m, mk true b [], ?_, by simp, ?_, ?_, by simpa [keys] using ha,
      by simpa [keys] using hb, rfl, rfl⟩
    · intro lf kl kr L R i hi hL
      exact splitChild_eq_leaf lf kl kr L R a b m [] i t hi hL ha
    · exact Shaped.leaf a (by omega)
    · exact Shaped.leaf b (by omega)
  | inner ks cs h1 hk hl hmin hsh =>
    simp only [keys] at hfull
    obtain ⟨a, m, b, hks, ha, _⟩ := getAt_of_lt ks (t - 1) (by omega) (by omega)
    subst hks
    have hb : (b.length : Int) = t - 1 := by
      simp at hfull; omega
    have hcl : (cs.length : Int) = 2 * t := by
      rw [hl]; push_cast; omega
    obtain ⟨ca, cb, hcs, hca⟩ : ∃ ca cb, cs = ca ++ cb ∧ (ca.length : Int) = t := by
      refine ⟨cs.take t.toNat, cs.drop t.toNat, (List.take_append_drop _ _).symm, ?_⟩
      simp [List.length_take]; omega
    subst hcs
    have hcb : (cb.length : Int) = t := by
      simp at hcl; omega
    refine ⟨mk false a ca, m, mk false b cb, ?_, ?_, ?_, ?_, by simpa [keys] using ha,
      by simpa [keys] using hb, rfl, rfl⟩
    · intro lf kl kr L R i hi hL
      exact splitChild_eq_inner lf kl kr L R a b m ca cb i t hi hL ha hca
    · simp only [flat_inner]
      exact flatKC_split a b m ca cb (by omega)
    · exact Shaped.inner a ca h1 (by omega) (by omega)
        (fun c hc => hmin c (List.mem_append_left _ hc))
        (fun c hc => hsh c (List.mem_append_left _ hc))
    · exact Shaped.inner b cb h1 (by omega) (by omega)
        (fun c hc => hmin c (List.mem_append_right _ hc))
        (fun c hc => hsh c (List.mem_append_right _ hc))

end node


namespace node

/-- Descending insertion into a node that is not full: the key lands at its sorted
position of the symmetric order and the shape is kept. -/
theorem insertNonFull_spec (t : Int) (ht : 2 ≤ t) : ∀ (fuel h : Nat) (n : node) (k : Int),
    Shaped t h n → (n.keys.length : Int) < 2 * t - 1 → (flat n).Pairwise (· < ·) →
    k ∉ flat n → h < fuel →
    ∃ n1, insertNonFull fuel n k t = .ok n1 ∧ Shaped t h n1 ∧
      n.keys.length ≤ n1.keys.length ∧ n1.leaf = n.leaf ∧
      (n.leaf = true → n1.keys.length = n.keys.length + 1) ∧
      ∃ A B, flat n = A ++ B ∧ flat n1 = A ++ k :: B ∧
        (∀ a ∈ A, a < k) ∧ (∀ b ∈ B, k < b) := by
  intro fuel
  induction fuel with
  | zero => intro h n k _ _ _ _ hf; omega
  | succ f ih =>
    intro h n k hn hnf hs hk hf
    cases hn with
    | leaf ks hle =>
      simp only [flat_leaf] at hs hk
      simp only [keys_mk] at hnf
      obtain ⟨kl, kr, hks, hi, hlt, hge⟩ := searchInts_split ks k hs
      have hgt : ∀ b ∈ kr, k < b := by
        intro b hb
        refine lt_of_le_of_ne (hge b hb) ?_
        intro hkb
        subst hkb
        exact hk (by rw [hks]; simp [hb])
      refine ⟨mk true (kl ++ k :: kr) [], ?_, ?_, ?_, rfl, ?_, kl, kr, by simpa using hks,
        by simp, hlt, hgt⟩
      · have : insertAt ks (searchInts ks k) k = .ok (kl ++ k :: kr) := by
          rw [hi, hks]; exact insertAt_append kl kr _ k rfl
        simp [insertNonFull, this]
      · refine Shaped.leaf _ ?_
        subst hks
        simp at hnf ⊢; omega
      · subst hks; simp
      · intro _; subst hks; simp; omega
    | inner ks cs h1 hle hl hmin hsh =>
      simp only [flat_inner] at hs hk
      simp only [keys_mk] at hnf
      have hsk : ks.Pairwise (· < ·) :=
        List.Pairwise.sublist (keys_sublist_flatKC ks cs (by omega)) hs
      obtain ⟨kl, kr, hks, hi, hlt, hge⟩ := searchInts_split ks k hsk
      have hgt : ∀ b ∈ kr, k < b := by
        intro b hb
        refine lt_of_le_of_ne (hge b hb) ?_
        intro hkb
        subst hkb
        exact hk ((keys_sublist_flatKC ks cs (by omega)).subset (by rw [hks]; simp [hb]))
      obtain ⟨L, c, R, P, S, hcs, hL, hR, hfl, hP, hS, hPeq, hSeq⟩ :=
        descend ks cs k hl hs kl kr hks hlt hgt
      have hflc := hfl c
      rw [← hcs] at hflc
      have hcm : c ∈ cs := by rw [hcs]; simp
      have hsc : (flat c).Pairwise (· < ·) := by
        rw [hflc] at hs
        exact (List.pairwise_append.mp (List.pairwise_append.mp hs).1).2.1
      have hkc : k ∉ flat c := by
        intro hm; apply hk; rw [hflc]
        exact List.mem_append_left _ (List.mem_append_right _ hm)
      have hg : getAt cs (searchInts ks k) = .ok c := by
        rw [hi, hcs]; exact getAt_append_cons L c R _ (by omega)
      have hiL : searchInts ks k = (L.length : Int) := by rw [hi]; omega
      by_cases hfull : (c.keys.length : Int) = 2 * t - 1
      · -- the child is full: split it first
        obtain ⟨y1, m, z, hsplit, hfc, hy, hz, hyk, hzk, _, _⟩ :=
          splitChild_shaped t h1 c ht (hsh c hcm) hfull
        have hsp := hsplit false kl kr L R (searchInts ks k) hiL hL
        rw [← hks, ← hcs] at hsp
        rw [hfc] at hsc hkc hflc
        have hmk : m ≠ k := by
          intro hmk; apply hkc; rw [hmk]; simp
        have hylt : ∀ e ∈ flat y1, e < m := by
          intro e he
          exact (List.pairwise_append.mp hsc).2.2 e he m (List.mem_cons_self _ _)
        have hzgt : ∀ e ∈ flat z, m < e :=
          (List.pairwise_cons.mp (List.pairwise_append.mp hsc).2.1).1
        have hgm : getAt (kl ++ m :: kr) (searchInts ks k) = .ok m :=
          getAt_append_cons kl m kr _ hi
        have hnewflat : ∀ y2 z2, flatKC (kl ++ m :: kr) (L ++ y2 :: z2 :: R) =
            P ++ flat y2 ++ m :: (flat z2 ++ S) := by
          intro y2 z2
          rw [flatKC_append kl (m :: kr) L (y2 :: z2 :: R) hL, flatKC_cons_cons, hSeq z2, hPeq]
          simp
        have hlen1 : ((kl ++ m :: kr).length : Int) ≤ 2 * t - 1 := by
          rw [hks] at hnf; simp at hnf ⊢; omega
        have hlen2 : (L ++ y1 :: z :: R).length = (kl ++ m :: kr).length + 1 := by
          simp; omega
        rw [hcs] at hmin hsh
        by_cases hkm : k > m
        · have hsz : (flat z).Pairwise (· < ·) :=
            (List.pairwise_cons.mp (List.pairwise_append.mp hsc).2.1).2
          have hkz : k ∉ flat z := fun hm => hkc (by simp [hm])
          obtain ⟨z1, hz1, hz1s, hz1k, _, _, A, B, hAB, hAB1, hA, hB⟩ :=
            ih h1 z k hz (by omega) hsz hkz (by omega)
          refine ⟨mk false (kl ++ m :: kr) (L ++ y1 :: z1 :: R), ?_, ?_, ?_, rfl, ?_,
            P ++ flat y1 ++ m :: A, B ++ S, ?_, ?_, ?_, ?_⟩
          · have hg1 : getAt (L ++ y1 :: z :: R) (searchInts ks k + 1) = .ok z :=
              getAt_append_cons_cons L y1 z R _ (by omega)
            have hs1 : setAt (L ++ y1 :: z :: R) (searchInts ks k + 1) z1
                = .ok (L ++ y1 :: z1 :: R) :=
              setAt_append_cons_cons L y1 z R _ z1 (by omega)
            simp [insertNonFull, hg, hfull, hsp, hgm, hkm, hg1, hz1, hs1]
          · refine Shaped.inner _ _ h1 hlen1 (by simpa using hlen2) ?_ ?_
            · exact forall_mem_split _ L R c y1 z1 hmin (by omega) (by omega)
            · exact forall_mem_split _ L R c y1 z1 hsh hy hz1s
          · rw [hks]; simp
          · intro hlf; simp at hlf
          · rw [flat_inner, hflc, hAB]; simp
          · rw [flat_inner, hnewflat, hAB1]; simp
          · intro e he
            simp only [List.mem_append, List.mem_cons] at he
            rcases he with (he | he) | he | he
            · exact hP e he
            · exact lt_trans (hylt e he) hkm
            · subst he; exact hkm
            · exact hA e he
          · intro e he
            rcases List.mem_append.mp he with he | he
            · exact hB e he
            · exact hS e he
        · have hkm1 : k < m := lt_of_le_of_ne (not_lt.mp hkm) (Ne.symm hmk)
          have hsy : (flat y1).Pairwise (· < ·) := (List.pairwise_append.mp hsc).1
          have hky : k ∉ flat y1 := fun hm => hkc (by simp [hm])
          obtain ⟨y2, hy2, hy2s, hy2k, _, _, A, B, hAB, hAB1, hA, hB⟩ :=
            ih h1 y1 k hy (by omega) hsy hky (by omega)
          refine ⟨mk false (kl ++ m :: kr) (L ++ y2 :: z :: R), ?_, ?_, ?_, rfl, ?_,
            P ++ A, B ++ m :: (flat z ++ S), ?_, ?_, ?_, ?_⟩
          · have hg1 : getAt (L ++ y1 :: z :: R) (searchInts ks k) = .ok y1 :=
              getAt_append_cons L y1 (z :: R) _ hiL
            have hs1 : setAt (L ++ y1 :: z :: R) (searchInts ks k) y2
                = .ok (L ++ y2 :: z :: R) :=
              setAt_append_cons L y1 (z :: R) _ y2 hiL
            simp [insertNonFull, hg, hfull, hsp, hgm, hkm, hg1, hy2, hs1]
          · refine Shaped.inner _ _ h1 hlen1 (by simpa using hlen2) ?_ ?_
            · exact forall_mem_split _ L R c y2 z hmin (by omega) (by omega)
            · exact forall_mem_split _ L R c y2 z hsh hy2s hz
          · rw [hks]; simp
          · intro hlf; simp at hlf
          · rw [flat_inner, hflc, hAB]; simp
          · rw [flat_inner, hnewflat, hAB1]; simp
          · intro e he
            rcases List.mem_append.mp he with he | he
            · exact hP e he
            · exact hA e he
          · intro e he
            simp only [List.mem_append, List.mem_cons] at he
            rcases he with he | he | he | he
            · exact hB e he
            · subst he; exact hkm1
            · exact lt_trans hkm1 (hzgt e he)
            · exact hS e he
      · -- the child has room
        have hcle := (hsh c hcm).keys_le
        obtain ⟨c1, hc1, hc1s, hc1k, _, _, A, B, hAB, hAB1, hA, hB⟩ :=
          ih h1 c k (hsh c hcm) (by omega) hsc hkc (by omega)
        have hcmin := hmin c hcm
        rw [hcs] at hmin hsh
        refine ⟨mk false ks (L ++ c1 :: R), ?_, ?_, le_refl _, rfl, ?_,
          P ++ A, B ++ S, ?_, ?_, ?_, ?_⟩
        · have hs1 : setAt cs (searchInts ks k) c1 = .ok (L ++ c1 :: R) := by
            rw [hcs]; exact setAt_append_cons L c R _ c1 hiL
          simp [insertNonFull, hg, hfull, hc1, hs1]
        · refine Shaped.inner _ _ h1 hle (by rw [hcs] at hl; simpa using hl) ?_ ?_
          · exact forall_mem_replace _ L R c c1 hmin (by omega)
          · exact forall_mem_replace _ L R c c1 hsh hc1s
        · intro hlf; simp at hlf
        · rw [flat_inner, hflc, hAB]; simp
        · rw [flat_inner, hfl c1, hAB1]; simp
        · intro e he
          rcases List.mem_append.mp he with he | he
          · exact hP e he
          · exact hA e he
        · intro e he
          rcases List.mem_append.mp he with he | he
          · exact hB e he
          · exact hS e he

end node


/-! ## Deletion: the repairs -/

namespace node

/-- The symmetric order around any child position. -/
theorem flatKC_context (ks : List Int) (L R : List node) (h : L.length ≤ ks.length) :
    ∃ P S, ∀ c, flatKC ks (L ++ c :: R) = P ++ flat c ++ S := by
  obtain ⟨S, _, _, _, hS⟩ := flatKC_cons_eq (ks.drop L.length) (mk true [] []) R
  refine ⟨flatKC (ks.take L.length) L, S, ?_⟩
  intro c
  have h1 : L.length = (ks.take L.length).length := by simp [List.length_take]; omega
  have := flatKC_append (ks.take L.length) (ks.drop L.length) L (c :: R) h1
  rw [List.take_append_drop] at this
  rw [this, hS c, List.append_assoc]

/-- Merging two minimal siblings around their separator. -/
theorem merge_shaped (t : Int) (h : Nat) (l r : node) (s : Int)
    (hl : Shaped t h l) (hr : Shaped t h r)
    (hlk : (l.keys.length : Int) = t - 1) (hrk : (r.keys.length : Int) = t - 1) :
    Shaped t h (mk l.leaf (l.keys ++ [s] ++ r.keys)
        (if l.leaf then l.children else l.children ++ r.children)) ∧
      flat (mk l.leaf (l.keys ++ [s] ++ r.keys)
        (if l.leaf then l.children else l.children ++ r.children)) = flat l ++ s :: flat r := by
  cases hl with
  | leaf lk _ =>
    cases hr with
    | leaf rk _ =>
      simp only [keys_mk] at hlk hrk
      refine ⟨?_, by simp⟩
      simp only [leaf_mk, keys_mk, children_mk, if_true]
      exact Shaped.leaf _ (by simp; omega)
  | inner lk lc h1 _ hll hlmin hlsh =>
    cases hr with
    | inner rk rc _ _ hrl hrmin hrsh =>
      simp only [keys_mk] at hlk hrk
      constructor
      · simp only [leaf_mk, keys_mk, children_mk, Bool.false_eq_true, if_false]
        refine Shaped.inner _ _ h1 (by simp; omega) (by simp; omega) ?_ ?_
        · intro c hc
          rcases List.mem_append.mp hc with hc | hc
          · exact hlmin c hc
          · exact hrmin c hc
        · intro c hc
          rcases List.mem_append.mp hc with hc | hc
          · exact hlsh c hc
          · exact hrsh c hc
      · simp only [leaf_mk, keys_mk, children_mk, Bool.false_eq_true, if_false, flat_inner]
        have := flatKC_split lk rk s lc rc hll
        simpa using this

/-- Borrowing from the left sibling: a rotation through the separator `s`. -/
theorem borrowFromPrev_shaped (t : Int) (h : Nat) (sib c : node) (s : Int) (ht : 2 ≤ t)
    (hs : Shaped t h sib) (hc : Shaped t h c)
    (hsk : t ≤ (sib.keys.length : Int)) (hck : (c.keys.length : Int) = t - 1) :
    ∃ sib1 u c1,
      (∀ (lf : Bool) (kl kr : List Int) (L R : List node) (idx : Int),
        idx = (L.length : Int) + 1 → L.length = kl.length →
        borrowFromPrev (mk lf (kl ++ s :: kr) (L ++ sib :: c :: R)) idx =
          .ok (mk lf (kl ++ u :: kr) (L ++ sib1 :: c1 :: R))) ∧
      flat sib1 ++ u :: flat c1 = flat sib ++ s :: flat c ∧
      Shaped t h sib1 ∧ Shaped t h c1 ∧
      t - 1 ≤ (sib1.keys.length : Int) ∧ (c1.keys.length : Int) = t ∧
      (∀ x ∈ flat c, x ∈ flat c1) := by
  cases hs with
  | leaf sk0 hsle =>
    cases hc with
    | leaf ck _ =>
      simp only [keys_mk] at hsk hck
      have hne : sk0 ≠ [] := by
        intro h0; subst h0; simp at hsk; omega
      obtain ⟨sk, u, hsk0⟩ : ∃ sk u, sk0 = sk ++ [u] :=
        ⟨sk0.dropLast, sk0.getLast hne, (List.dropLast_append_getLast hne).symm⟩
      subst hsk0
      simp only [List.length_append, List.length_singleton, Nat.cast_add, Nat.cast_one]
        at hsk hsle
      refine ⟨mk true sk [], u, mk true (s :: ck) [], ?_, by simp, ?_, ?_, by simp; omega,
        by simp; omega, by simp +contextual⟩
      · intro lf kl kr L R idx hi hL
        exact borrowFromPrev_eq_leaf lf kl kr s L R true sk u [] ck [] idx hi hL
      · exact Shaped.leaf _ (by omega)
      · exact Shaped.leaf _ (by simp; omega)
  | inner sk0 sc0 h1 hsle hsl hsmin hssh =>
    cases hc with
    | inner ck cc _ _ hcl hcmin hcsh =>
      simp only [keys_mk] at hsk hck
      have hne : sk0 ≠ [] := by
        intro h0; subst h0; simp at hsk; omega
      obtain ⟨sk, u, hsk0⟩ : ∃ sk u, sk0 = sk ++ [u] :=
        ⟨sk0.dropLast, sk0.getLast hne, (List.dropLast_append_getLast hne).symm⟩
      subst hsk0
      have hne2 : sc0 ≠ [] := by
        intro h0; subst h0; simp at hsl
      obtain ⟨sc, mv, hsc0⟩ : ∃ sc mv, sc0 = sc ++ [mv] :=
        ⟨sc0.dropLast, sc0.getLast hne2, (List.dropLast_append_getLast hne2).symm⟩
      subst hsc0
      simp only [List.length_append, List.length_singleton, Nat.cast_add, Nat.cast_one]
        at hsk hsle hsl
      refine ⟨mk false sk sc, u, mk false (s :: ck) (mv :: cc), ?_, ?_, ?_, ?_, by simp; omega,
        by simp; omega, ?_⟩
      · intro lf kl kr L R idx hi hL
        exact borrowFromPrev_eq_inner lf kl kr s L R false sk u sc mv ck cc idx hi hL
      · have := flatKC_split sk [] u sc [mv] (by omega)
        simp only [flat_inner, flatKC_cons_cons, this]
        simp
      · exact Shaped.inner _ _ h1 (by omega) (by omega)
          (fun x hx => hsmin x (List.mem_append_left _ hx))
          (fun x hx => hssh x (List.mem_append_left _ hx))
      · refine Shaped.inner _ _ h1 (by simp; omega) (by simp; omega) ?_ ?_
        · intro x hx
          rcases List.mem_cons.mp hx with hx | hx
          · subst hx; exact hsmin _ (by simp)
          · exact hcmin x hx
        · intro x hx
          rcases List.mem_cons.mp hx with hx | hx
          · subst hx; exact hssh _ (by simp)
          · exact hcsh x hx
      · intro x hx
        simp only [flat_inner] at hx
        simp [hx]

/-- Borrowing from the right sibling: a rotation through the separator `s`. -/
theorem borrowFromNext_shaped (t : Int) (h : Nat) (c sib : node) (s : Int) (ht : 2 ≤ t)
    (hc : Shaped t h c) (hs : Shaped t h sib)
    (hsk : t ≤ (sib.keys.length : Int)) (hck : (c.keys.length : Int) = t - 1) :
    ∃ c1 u sib1,
      (∀ (lf : Bool) (kl kr : List Int) (L R : List node) (idx : Int),
        idx = (L.length : Int) → L.length = kl.length →
        borrowFromNext (mk lf (kl ++ s :: kr) (L ++ c :: sib :: R)) idx =
          .ok (mk lf (kl ++ u :: kr) (L ++ c1 :: sib1 :: R))) ∧
      flat c1 ++ u :: flat sib1 = flat c ++ s :: flat sib ∧
      Shaped t h sib1 ∧ Shaped t h c1 ∧
      t - 1 ≤ (sib1.keys.length : Int) ∧ (c1.keys.length : Int) = t ∧
      (∀ x ∈ flat c, x ∈ flat c1) := by
  cases hs with
  | leaf sk0 hsle =>
    cases hc with
    | leaf ck _ =>
      simp only [keys_mk] at hsk hck
      cases sk0 with
      | nil => simp at hsk; omega
      | cons u sk =>
        simp only [List.length_cons, Nat.cast_add, Nat.cast_one] at hsk hsle
        refine ⟨mk true (ck ++ [s]) [], u, mk true sk [], ?_, by simp, ?_, ?_, by simp; omega,
          by simp; omega, by simp +contextual⟩
        · intro lf kl kr L R idx hi hL
          exact borrowFromNext_eq_leaf lf kl kr s L R true sk u [] ck [] idx hi hL
        · exact Shaped.leaf _ (by omega)
        · exact Shaped.leaf _ (by simp; omega)
  | inner sk0 sc0 h1 hsle hsl hsmin hssh =>
    cases hc with
    | inner ck cc _ _ hcl hcmin hcsh =>
      simp only [keys_mk] at hsk hck
      cases sk0 with
      | nil => simp at hsk; omega
      | cons u sk =>
        cases sc0 with
        | nil => simp at hsl
        | cons mv sc =>
          simp only [List.length_cons, Nat.cast_add, Nat.cast_one] at hsk hsle hsl
          refine ⟨mk false (ck ++ [s]) (cc ++ [mv]), u, mk false sk sc, ?_, ?_, ?_, ?_,
            by simp; omega, by simp; omega, ?_⟩
          · intro lf kl kr L R idx hi hL
            exact borrowFromNext_eq_inner lf kl kr s L R false sk u sc mv ck cc idx hi hL
          · have := flatKC_split ck [] s cc [mv] hcl
            simp only [flat_inner, flatKC_cons_cons, this]
            simp
          · exact Shaped.inner _ _ h1 (by omega) (by omega)
              (fun x hx => hsmin x (List.mem_cons_of_mem _ hx))
              (fun x hx => hssh x (List.mem_cons_of_mem _ hx))
          · refine Shaped.inner _ _ h1 (by simp; omega) (by simp; omega) ?_ ?_
            · intro x hx
              rcases List.mem_append.mp hx with hx | hx
              · exact hcmin x hx
              · simp at hx; subst hx; exact hsmin _ (by simp)
            · intro x hx
              rcases List.mem_append.mp hx with hx | hx
              · exact hcsh x hx
              · simp at hx; subst hx; exact hssh _ (by simp)
          · intro x hx
            have := flatKC_split ck [] s cc [mv] hcl
            simp only [flat_inner] at hx ⊢
            rw [this]
            simp [hx]

end node


/-! ## Removing one key from a duplicate-free list -/

theorem filter_ne_self (l : List Int) (k : Int) (h : k ∉ l) :
    l.filter (fun x => decide (x ≠ k)) = l := by
  rw [List.filter_eq_self]
  intro a ha
  simp only [ne_eq, decide_not, Bool.not_eq_true', decide_eq_false_iff_not]
  intro hak; subst hak; exact h ha

theorem filter_ne_middle (X Y : List Int) (k : Int) (h : (X ++ k :: Y).Nodup) :
    (X ++ k :: Y).filter (fun x => decide (x ≠ k)) = X ++ Y := by
  have hX : k ∉ X := by
    intro hk
    exact (List.nodup_append.mp h).2.2 hk (List.mem_cons_self _ _)
  have hY : k ∉ Y := (List.nodup_cons.mp (List.nodup_append.mp h).2.1).1
  rw [List.filter_append, List.filter_cons, filter_ne_self X k hX, filter_ne_self Y k hY]
  simp

theorem filter_ne_context (P C S : List Int) (k : Int) (h : (P ++ C ++ S).Nodup)
    (hk : k ∈ P ++ C ++ S → k ∈ C) :
    (P ++ C ++ S).filter (fun x => decide (x ≠ k)) =
      P ++ C.filter (fun x => decide (x ≠ k)) ++ S := by
  have hP : k ∉ P := by
    intro hm
    have hC := hk (List.mem_append_left _ (List.mem_append_left _ hm))
    exact (List.nodup_append.mp (List.nodup_append.mp h).1).2.2 hm hC
  have hS : k ∉ S := by
    intro hm
    have hC := hk (List.mem_append_right _ hm)
    exact (List.nodup_append.mp h).2.2 (List.mem_append_right _ hC) hm
  rw [List.filter_append, List.filter_append, filter_ne_self P k hP, filter_ne_self S k hS]

theorem nodup_of_sorted (l : List Int) (h : l.Pairwise (· < ·)) : l.Nodup :=
  List.Pairwise.imp (fun hab => ne_of_lt hab) h

namespace node

/-! ## Predecessor and successor -/

theorem maxKey_spec (t : Int) (ht : 2 ≤ t) : ∀ (fuel h : Nat) (c : node),
    Shaped t h c → 1 ≤ c.keys.length → h < fuel →
    ∃ C0 p, maxKey fuel c = .ok p ∧ flat c = C0 ++ [p] := by
  intro fuel
  induction fuel with
  | zero => intro h c _ _ hf; omega
  | succ f ih =>
    intro h c hc hk hf
    cases hc with
    | leaf ks _ =>
      simp only [keys_mk] at hk
      have hne : ks ≠ [] := by intro h0; subst h0; simp at hk
      obtain ⟨C0, p, hks⟩ : ∃ C0 p, ks = C0 ++ [p] :=
        ⟨ks.dropLast, ks.getLast hne, (List.dropLast_append_getLast hne).symm⟩
      subst hks
      exact ⟨C0, p, by simp [maxKey], by simp⟩
    | inner ks cs h1 _ hl hmin hsh =>
      have hne : cs ≠ [] := by intro h0; subst h0; simp at hl
      obtain ⟨M, last, hcs⟩ : ∃ M last, cs = M ++ [last] :=
        ⟨cs.dropLast, cs.getLast hne, (List.dropLast_append_getLast hne).symm⟩
      subst hcs
      have hM : M.length = ks.length := by simp at hl; omega
      have hlast : last ∈ M ++ [last] := by simp
      obtain ⟨C0, p, hp, hfl⟩ := ih h1 last (hsh last hlast)
        (by have := hmin last hlast; omega) (by omega)
      refine ⟨flatKC ks M ++ C0, p, ?_, ?_⟩
      · simp [maxKey, hp]
      · have := flatKC_append ks [] M [last] hM
        simp only [List.append_nil] at this
        rw [flat_inner, this]
        simp [hfl]

theorem minKey_spec (t : Int) (ht : 2 ≤ t) : ∀ (fuel h : Nat) (c : node),
    Shaped t h c → 1 ≤ c.keys.length → h < fuel →
    ∃ p C0, minKey fuel c = .ok p ∧ flat c = p :: C0 := by
  intro fuel
  induction fuel with
  | zero => intro h c _ _ hf; omega
  | succ f ih =>
    intro h c hc hk hf
    cases hc with
    | leaf ks _ =>
      simp only [keys_mk] at hk
      cases ks with
      | nil => simp at hk
      | cons p C0 => exact ⟨p, C0, by simp [minKey], by simp⟩
    | inner ks cs h1 _ hl hmin hsh =>
      cases cs with
      | nil => simp at hl
      | cons first rest =>
        have hfirst : first ∈ first :: rest := by simp
        obtain ⟨p, C0, hp, hfl⟩ := ih h1 first (hsh first hfirst)
          (by have := hmin first hfirst; omega) (by omega)
        obtain ⟨S, hS, _, _, _⟩ := flatKC_cons_eq ks first rest
        refine ⟨p, C0 ++ S, ?_, ?_⟩
        · simp [minKey, hp]
        · rw [flat_inner, hS, hfl]; simp

/-! ## The choice of the repair -/

theorem ensure_prev (n : node) (idx t : Int) (s : node) (hp : idx > 0)
    (hg : getAt n.children (idx - 1) = .ok s) (hs : t ≤ (s.keys.length : Int)) :
    ensureChildHasAtLeastTKeys n idx t =
      (do let n1 ← borrowFromPrev n idx; pure (n1, idx)) := by
  simp [ensureChildHasAtLeastTKeys, hp, hg, hs]

theorem ensure_next (n : node) (idx t : Int) (s : node)
    (hprev : idx > 0 → ∃ p, getAt n.children (idx - 1) = .ok p ∧ (p.keys.length : Int) < t)
    (hlt : idx < (n.children.length : Int) - 1)
    (hg : getAt n.children (idx + 1) = .ok s) (hs : t ≤ (s.keys.length : Int)) :
    ensureChildHasAtLeastTKeys n idx t =
      (do let n1 ← borrowFromNext n idx; pure (n1, idx)) := by
  have hs1 := hs
  by_cases hp : idx > 0
  · obtain ⟨p, hgp, hpl⟩ := hprev hp
    have hpl1 : ¬ t ≤ (p.keys.length : Int) := not_le.mpr hpl
    simp [ensureChildHasAtLeastTKeys, hp, hgp, hpl1, hlt, hg, hs1]
  · simp [ensureChildHasAtLeastTKeys, hp, hlt, hg, hs1]

theorem ensure_mergeNext (n : node) (idx t : Int) (s : node)
    (hprev : idx > 0 → ∃ p, getAt n.children (idx - 1) = .ok p ∧ (p.keys.length : Int) < t)
    (hlt : idx < (n.children.length : Int) - 1)
    (hg : getAt n.children (idx + 1) = .ok s) (hs : (s.keys.length : Int) < t) :
    ensureChildHasAtLeastTKeys n idx t =
      (do let n1 ← mergeChildren n idx; pure (n1, idx)) := by
  have hs1 : ¬ t ≤ (s.keys.length : Int) := not_le.mpr hs
  by_cases hp : idx > 0
  · obtain ⟨p, hgp, hpl⟩ := hprev hp
    have hpl1 : ¬ t ≤ (p.keys.length : Int) := not_le.mpr hpl
    simp [ensureChildHasAtLeastTKeys, hp, hgp, hpl1, hlt, hg, hs1]
  · simp [ensureChildHasAtLeastTKeys, hp, hlt, hg, hs1]

theorem ensure_mergePrev (n : node) (idx t : Int)
    (hprev : idx > 0 → ∃ p, getAt n.children (idx - 1) = .ok p ∧ (p.keys.length : Int) < t)
    (hlt : ¬ idx < (n.children.length : Int) - 1) :
    ensureChildHasAtLeastTKeys n idx t =
      (do let n1 ← mergeChildren n (idx - 1); pure (n1, idx - 1)) := by
  by_cases hp : idx > 0
  · obtain ⟨p, hgp, hpl⟩ := hprev hp
    have hpl1 : ¬ t ≤ (p.keys.length : Int) := not_le.mpr hpl
    simp [ensureChildHasAtLeastTKeys, hp, hgp, hpl1, hlt]
  · simp [ensureChildHasAtLeastTKeys, hp, hlt]

end node


theorem forall_mem_replace2 {α : Type} (p : α → Prop) (L R : List α) (a b a1 b1 : α)
    (h : ∀ x ∈ L ++ a :: b :: R, p x) (ha : p a1) (hb : p b1) :
    ∀ x ∈ L ++ a1 :: b1 :: R, p x := by
  intro x hx
  rcases List.mem_append.mp hx with hx | hx
  · exact h x (List.mem_append_left _ hx)
  · rcases List.mem_cons.mp hx with hx | hx
    · subst hx; exact ha
    · rcases List.mem_cons.mp hx with hx | hx
      · subst hx; exact hb
      · exact h x (List.mem_append_right _
          (List.mem_cons_of_mem _ (List.mem_cons_of_mem _ hx)))

namespace node

/-- The symmetric order around two adjacent children and their separator, and around
the single child that replaces them. -/
theorem flatKC_pair (kl kr : List Int) (L R : List node) (hL : L.length = kl.length) :
    ∃ S, (∀ s a b, flatKC (kl ++ s :: kr) (L ++ a :: b :: R) =
        flatKC kl L ++ (flat a ++ s :: flat b) ++ S) ∧
      (∀ m, flatKC (kl ++ kr) (L ++ m :: R) = flatKC kl L ++ flat m ++ S) := by
  obtain ⟨S, _, _, _, hS⟩ := flatKC_cons_eq kr (mk true [] []) R
  refine ⟨S, ?_, ?_⟩
  · intro s a b
    rw [flatKC_append kl (s :: kr) L (a :: b :: R) hL, flatKC_cons_cons, hS b]
    simp
  · intro m
    rw [flatKC_append kl kr L (m :: R) hL, hS m]
    simp

/-- The repair before a descent into a minimal child: the child to descend into has
at least `t` keys afterwards and the symmetric order of the node is unchanged. -/
theorem ensure_spec (t : Int) (ht : 2 ≤ t) (h1 : Nat) (ks : List Int) (L : List node)
    (c : node) (R : List node) (idx : Int)
    (hn : Shaped t (h1 + 1) (mk false ks (L ++ c :: R))) (hk1 : 1 ≤ ks.length)
    (hidx : idx = L.length) (hc : (c.keys.length : Int) = t - 1) :
    ∃ ks1 L1 c1 R1,
      ensureChildHasAtLeastTKeys (mk false ks (L ++ c :: R)) idx t =
        .ok (mk false ks1 (L1 ++ c1 :: R1), (L1.length : Int)) ∧
      Shaped t (h1 + 1) (mk false ks1 (L1 ++ c1 :: R1)) ∧
      ks.length ≤ ks1.length + 1 ∧ t ≤ (c1.keys.length : Int) ∧
      flatKC ks1 (L1 ++ c1 :: R1) = flatKC ks (L ++ c :: R) ∧
      (∀ x ∈ flat c, x ∈ flat c1) := by
  obtain ⟨h2, heq, hl, hmin, hsh⟩ := hn.inner_inv
  have hle := hn.keys_le
  simp only [keys_mk] at hle
  have heq1 : h2 = h1 := by omega
  subst heq1
  simp only [List.length_append, List.length_cons] at hl
  by_cases hA : ∃ L0 sib, L = L0 ++ [sib] ∧ t ≤ (sib.keys.length : Int)
  · -- borrow from the left sibling
    obtain ⟨L0, sib, hL, hbig⟩ := hA
    subst hL
    simp only [List.length_append, List.length_singleton] at hl hidx
    have e : (L0 ++ [sib]) ++ c :: R = L0 ++ sib :: c :: R := by simp
    rw [e] at hmin hsh ⊢
    obtain ⟨kl, s, kr, hks, hkl, _⟩ := getAt_of_lt ks (L0.length : Int) (by omega) (by omega)
    subst hks
    have hkl1 : L0.length = kl.length := by omega
    obtain ⟨sib1, u, c1, hbor, hfl, hs1, hc1, hs1k, hc1k, hsub⟩ :=
      borrowFromPrev_shaped t h2 sib c s ht (hsh sib (by simp)) (hsh c (by simp)) hbig hc
    obtain ⟨S, hS, _⟩ := flatKC_pair kl kr L0 R hkl1
    refine ⟨kl ++ u :: kr, L0 ++ [sib1], c1, R, ?_, ?_, by simp, by omega, ?_, hsub⟩
    · rw [ensure_prev _ idx t sib (by omega)
        (by simpa using getAt_append_cons L0 sib (c :: R) (idx - 1) (by push_cast at hidx; omega))
        hbig, hbor false kl kr L0 R idx (by push_cast at hidx; omega) hkl1]
      simp [hidx]
    · have e1 : (L0 ++ [sib1]) ++ c1 :: R = L0 ++ sib1 :: c1 :: R := by simp
      rw [e1]
      refine Shaped.inner _ _ h2 (by simp at hle ⊢; omega) (by simp at hl ⊢; omega) ?_ ?_
      · exact forall_mem_replace2 _ L0 R sib c sib1 c1 hmin hs1k (by omega)
      · exact forall_mem_replace2 _ L0 R sib c sib1 c1 hsh hs1 hc1
    · have e1 : (L0 ++ [sib1]) ++ c1 :: R = L0 ++ sib1 :: c1 :: R := by simp
      rw [e1, hS u sib1 c1, hS s sib c, hfl]
  · have hprev : idx > 0 → ∃ p, getAt (mk false ks (L ++ c :: R)).children (idx - 1) = .ok p ∧
        (p.keys.length : Int) < t := by
      intro hpos
      have hne : L ≠ [] := by intro h0; subst h0; simp at hidx; omega
      refine ⟨L.getLast hne, ?_, ?_⟩
      · have e2 : L ++ c :: R = L.dropLast ++ L.getLast hne :: c :: R := by
          conv_lhs => rw [← List.dropLast_append_getLast hne]
          simp
        rw [children_mk, e2]
        exact getAt_append_cons _ _ _ _ (by simp; omega)
      · by_contra hcon
        exact hA ⟨L.dropLast, L.getLast hne, (List.dropLast_append_getLast hne).symm,
          not_lt.mp hcon⟩
    cases R with
    | cons sib R0 =>
      simp only [List.length_cons] at hl
      obtain ⟨kl, s, kr, hks, hkl, _⟩ := getAt_of_lt ks (L.length : Int) (by omega) (by omega)
      subst hks
      have hkl1 : L.length = kl.length := by omega
      obtain ⟨S, hS, hS1⟩ := flatKC_pair kl kr L R0 hkl1
      have hlt : idx < ((mk false (kl ++ s :: kr) (L ++ c :: sib :: R0)).children.length : Int) - 1 := by
        simp; omega
      have hg : getAt (mk false (kl ++ s :: kr) (L ++ c :: sib :: R0)).children (idx + 1)
          = .ok sib := by
        rw [children_mk]; exact getAt_append_cons_cons L c sib R0 _ (by omega)
      by_cases hbig : t ≤ (sib.keys.length : Int)
      · -- borrow from the right sibling
        obtain ⟨c1, u, sib1, hbor, hfl, hs1, hc1, hs1k, hc1k, hsub⟩ :=
          borrowFromNext_shaped t h2 c sib s ht (hsh c (by simp)) (hsh sib (by simp)) hbig hc
        refine ⟨kl ++ u :: kr, L, c1, sib1 :: R0, ?_, ?_, by simp, by omega, ?_, hsub⟩
        · rw [ensure_next _ idx t sib hprev hlt hg hbig, hbor false kl kr L R0 idx hidx hkl1]
          simp [hidx]
        · refine Shaped.inner _ _ h2 (by simp at hle ⊢; omega) (by simp at hl ⊢; omega) ?_ ?_
          · exact forall_mem_replace2 _ L R0 c sib c1 sib1 hmin (by omega) hs1k
          · exact forall_mem_replace2 _ L R0 c sib c1 sib1 hsh hc1 hs1
        · rw [hS u c1 sib1, hS s c sib, hfl]
      · -- merge with the right sibling
        have hsk : (sib.keys.length : Int) = t - 1 := by
          have := hmin sib (by simp); omega
        obtain ⟨hm, hmf⟩ := merge_shaped t h2 c sib s (hsh c (by simp)) (hsh sib (by simp)) hc hsk
        refine ⟨kl ++ kr, L, mk c.leaf (c.keys ++ [s] ++ sib.keys)
          (if c.leaf then c.children else c.children ++ sib.children), R0,
          ?_, ?_, by simp; omega, ?_, ?_, ?_⟩
        · rw [ensure_mergeNext _ idx t sib hprev hlt hg (by omega),
            mergeChildren_eq false kl kr s L R0 c sib idx hidx hkl1]
          simp [hidx]
        · refine Shaped.inner _ _ h2 (by simp at hle ⊢; omega) (by simp at hl ⊢; omega) ?_ ?_
          · exact forall_mem_merge _ L R0 c sib _ hmin (by simp; omega)
          · exact forall_mem_merge _ L R0 c sib _ hsh hm
        · simp; omega
        · rw [hS1, hS s c sib, hmf]
        · intro x hx; rw [hmf]; simp [hx]
    | nil =>
      -- last child: merge with the left sibling
      simp only [List.length_nil] at hl
      have hne : L ≠ [] := by
        intro h0; subst h0; simp only [List.length_nil] at hl; omega
      obtain ⟨L0, sib, hL⟩ : ∃ L0 sib, L = L0 ++ [sib] :=
        ⟨L.dropLast, L.getLast hne, (List.dropLast_append_getLast hne).symm⟩
      subst hL
      simp only [List.length_append, List.length_singleton] at hl hidx
      have hsmall : ¬ t ≤ (sib.keys.length : Int) := fun hb => hA ⟨L0, sib, rfl, hb⟩
      have hlt : ¬ idx < ((mk false ks ((L0 ++ [sib]) ++ [c])).children.length : Int) - 1 := by
        simp; omega
      have hrw := ensure_mergePrev _ idx t hprev hlt
      have e : (L0 ++ [sib]) ++ [c] = L0 ++ sib :: c :: [] := by simp
      rw [e] at hmin hsh hrw ⊢
      obtain ⟨kl, s, kr, hks, hkl, _⟩ := getAt_of_lt ks (L0.length : Int) (by omega) (by omega)
      subst hks
      have hkl1 : L0.length = kl.length := by omega
      obtain ⟨S, hS, hS1⟩ := flatKC_pair kl kr L0 [] hkl1
      have hsk : (sib.keys.length : Int) = t - 1 := by
        have := hmin sib (by simp); omega
      obtain ⟨hm, hmf⟩ := merge_shaped t h2 sib c s (hsh sib (by simp)) (hsh c (by simp)) hsk hc
      refine ⟨kl ++ kr, L0, mk sib.leaf (sib.keys ++ [s] ++ c.keys)
        (if sib.leaf then sib.children else sib.children ++ c.children), [],
        ?_, ?_, by simp; omega, ?_, ?_, ?_⟩
      · rw [hrw, mergeChildren_eq false kl kr s L0 [] sib c (idx - 1)
          (by push_cast at hidx; omega) hkl1]
        simp [hidx]
      · refine Shaped.inner _ _ h2 (by simp at hle ⊢; omega) (by simp at hl ⊢; omega) ?_ ?_
        · exact forall_mem_merge _ L0 [] sib c _ hmin (by simp; omega)
        · exact forall_mem_merge _ L0 [] sib c _ hsh hm
      · simp; omega
      · rw [hS1, hS s sib c, hmf]
      · intro x hx; rw [hmf]; simp [hx]

end node


namespace node

/-- Deletion from a subtree whose top node is a leaf or has a key to spare: the key
leaves the symmetric order, nothing else changes, and the shape is kept. -/
theorem delete_spec (t : Int) (ht : 2 ≤ t) : ∀ (fuel h : Nat) (n : node) (k : Int),
    Shaped t h n → (flat n).Pairwise (· < ·) → (n.leaf = true ∨ 1 ≤ n.keys.length) →
    h < fuel →
    ∃ n1, delete fuel n k t = .ok n1 ∧ Shaped t h n1 ∧
      n.keys.length ≤ n1.keys.length + 1 ∧
      flat n1 = (flat n).filter (fun x => decide (x ≠ k)) := by
  intro fuel
  induction fuel with
  | zero => intro h n k _ _ _ hf; omega
  | succ f ih =>
    intro h n k hn hs hroot hf
    cases hn with
    | leaf ks hle =>
      simp only [flat_leaf] at hs
      rcases searchInts_cases ks k hs with ⟨kl, kr, hks, hi, hc⟩ | ⟨kl, kr, hks, _, hlt, hgt, hc⟩
      · refine ⟨mk true (kl ++ kr) [], ?_, ?_, ?_, ?_⟩
        · have hr : removeAt ks (searchInts ks k) = .ok (kl ++ kr) := by
            rw [hi, hks]; exact removeAt_append_cons kl k kr _ rfl
          simp [delete, hc, hr]
        · refine Shaped.leaf _ ?_
          subst hks; simp at hle ⊢; omega
        · subst hks; simp; omega
        · subst hks
          simp only [flat_leaf]
          exact (filter_ne_middle kl kr k (nodup_of_sorted _ hs)).symm
      · have hmem : k ∉ ks := by
          rw [hks]
          intro hm
          rcases List.mem_append.mp hm with hm | hm
          · exact lt_irrefl _ (hlt k hm)
          · exact lt_irrefl _ (hgt k hm)
        refine ⟨mk true ks [], ?_, Shaped.leaf ks hle, by simp, ?_⟩
        · simp [delete, hc]
        · simp only [flat_leaf]
          exact (filter_ne_self ks k hmem).symm
    | inner ks cs h1 hle hl hmin hsh =>
      simp only [flat_inner] at hs
      have hk1 : 1 ≤ ks.length := by
        rcases hroot with hr | hr
        · simp at hr
        · simpa using hr
      have hsk : ks.Pairwise (· < ·) :=
        List.Pairwise.sublist (keys_sublist_flatKC ks cs (by omega)) hs
      rcases searchInts_cases ks k hsk with ⟨kl, kr, hks, hi, hc⟩ | ⟨kl, kr, hks, hi, hlt, hgt, hc⟩
      · -- the key is in this internal node
        have hlen : cs.length = kl.length + kr.length + 2 := by
          rw [hl, hks]; simp; omega
        obtain ⟨L, c, R1, hcs, hL, _⟩ := getAt_of_lt cs (kl.length : Int) (by omega) (by omega)
        have hL1 : L.length = kl.length := by omega
        cases R1 with
        | nil =>
          have := congrArg List.length hcs
          simp at this; omega
        | cons d R =>
          obtain ⟨S, hS, hS1⟩ := flatKC_pair kl kr L R hL1
          have hfl : flatKC ks cs = flatKC kl L ++ (flat c ++ k :: flat d) ++ S := by
            rw [hks, hcs]; exact hS k c d
          have hcm : c ∈ cs := by rw [hcs]; simp
          have hdm : d ∈ cs := by rw [hcs]; simp
          have hg : getAt cs (searchInts ks k) = .ok c := by
            rw [hi, hcs]; exact getAt_append_cons L c (d :: R) _ (by omega)
          have hg1 : getAt cs (searchInts ks k + 1) = .ok d := by
            rw [hi, hcs]; exact getAt_append_cons_cons L c d R _ (by omega)
          have hiL : searchInts ks k = (L.length : Int) := by rw [hi]; omega
          have hnd := nodup_of_sorted _ hs
          rw [hfl] at hs hnd
          have hsm : (flat c ++ k :: flat d).Pairwise (· < ·) :=
            (List.pairwise_append.mp (List.pairwise_append.mp hs).1).2.1
          have hfin : (flatKC ks cs).filter (fun x => decide (x ≠ k)) =
              flatKC kl L ++ (flat c ++ flat d) ++ S := by
            have e : flatKC kl L ++ (flat c ++ k :: flat d) ++ S =
                (flatKC kl L ++ flat c) ++ k :: (flat d ++ S) := by simp
            rw [hfl, e, filter_ne_middle _ _ k (by rw [← e]; exact hnd)]
            simp
          have hlenK : ks.length = kl.length + kr.length + 1 := by rw [hks]; simp; omega
          have hLR : L.length + R.length = kl.length + kr.length := by
            have := congrArg List.length hcs
            simp at this; omega
          rw [hcs] at hmin hsh
          by_cases hcbig : (c.keys.length : Int) ≥ t
          · -- replace by the predecessor
            obtain ⟨C0, pred, hmax, hC0⟩ :=
              maxKey_spec t ht f h1 c (hsh c (by simp)) (by omega) (by omega)
            have hsc : (flat c).Pairwise (· < ·) := (List.pairwise_append.mp hsm).1
            obtain ⟨c1, hc1, hc1s, hc1k, hc1f⟩ :=
              ih h1 c pred (hsh c (by simp)) hsc (Or.inr (by omega)) (by omega)
            have hc1f1 : flat c1 = C0 := by
              rw [hc1f, hC0]
              have := filter_ne_middle C0 [] pred (by rw [← hC0]; exact nodup_of_sorted _ hsc)
              simpa using this
            refine ⟨mk false (kl ++ pred :: kr) (L ++ c1 :: d :: R), ?_, ?_, ?_, ?_⟩
            · have hsa : setAt ks (searchInts ks k) pred = .ok (kl ++ pred :: kr) := by
                rw [hi, hks]; exact setAt_append_cons kl k kr _ pred rfl
              have hsc1 : setAt cs (searchInts ks k) c1 = .ok (L ++ c1 :: d :: R) := by
                rw [hcs]; exact setAt_append_cons L c (d :: R) _ c1 hiL
              simp [delete, hc, hg, hcbig, hmax, hsa, hc1, hsc1]
            · refine Shaped.inner _ _ h1 (by simp; omega) (by simp; omega) ?_ ?_
              · exact forall_mem_replace _ L (d :: R) c c1 hmin (by omega)
              · exact forall_mem_replace _ L (d :: R) c c1 hsh hc1s
            · simp; try omega
            · rw [flat_inner, flat_inner, hfin, hS pred c1 d, hc1f1, hC0]; simp
          · by_cases hdbig : (d.keys.length : Int) ≥ t
            · -- replace by the successor
              obtain ⟨succ, D0, hminK, hD0⟩ :=
                minKey_spec t ht f h1 d (hsh d (by simp)) (by omega) (by omega)
              have hsd : (flat d).Pairwise (· < ·) :=
                (List.pairwise_cons.mp (List.pairwise_append.mp hsm).2.1).2
              obtain ⟨d1, hd1, hd1s, hd1k, hd1f⟩ :=
                ih h1 d succ (hsh d (by simp)) hsd (Or.inr (by omega)) (by omega)
              have hd1f1 : flat d1 = D0 := by
                rw [hd1f, hD0]
                have := filter_ne_middle [] D0 succ (by rw [← hD0]; exact nodup_of_sorted _ hsd)
                simpa using this
              refine ⟨mk false (kl ++ succ :: kr) (L ++ c :: d1 :: R), ?_, ?_, ?_, ?_⟩
              · have hsa : setAt ks (searchInts ks k) succ = .ok (kl ++ succ :: kr) := by
                  rw [hi, hks]; exact setAt_append_cons kl k kr _ succ rfl
                have hsd1 : setAt cs (searchInts ks k + 1) d1 = .ok (L ++ c :: d1 :: R) := by
                  rw [hcs]; exact setAt_append_cons_cons L c d R _ d1 (by omega)
                simp [delete, hc, hg, hcbig, hg1, hdbig, hminK, hsa, hd1, hsd1]
              · refine Shaped.inner _ _ h1 (by simp; omega) (by simp; omega) ?_ ?_
                · exact forall_mem_replace2 _ L R c d c d1 hmin (hmin c (by simp)) (by omega)
                · exact forall_mem_replace2 _ L R c d c d1 hsh (hsh c (by simp)) hd1s
              · simp; try omega
              · rw [flat_inner, flat_inner, hfin, hS succ c d1, hd1f1, hD0]
            · -- both children are minimal: merge them and delete below
              have hck : (c.keys.length : Int) = t - 1 := by
                have := hmin c (by simp); omega
              have hdk : (d.keys.length : Int) = t - 1 := by
                have := hmin d (by simp); omega
              obtain ⟨hm, hmf⟩ := merge_shaped t h1 c d k (hsh c (by simp)) (hsh d (by simp))
                hck hdk
              have hmerge := mergeChildren_eq false kl kr k L R c d (searchInts ks k) hiL hL1
              rw [← hks, ← hcs] at hmerge
              have hmk : ((mk c.leaf (c.keys ++ [k] ++ d.keys)
                  (if c.leaf then c.children else c.children ++ d.children)).keys.length : Int)
                  = 2 * t - 1 := by simp; omega
              generalize mk c.leaf (c.keys ++ [k] ++ d.keys)
                  (if c.leaf then c.children else c.children ++ d.children) = m
                at hm hmf hmerge hmk
              have hsmm : (flat m).Pairwise (· < ·) := by rw [hmf]; exact hsm
              obtain ⟨m1, hm1, hm1s, hm1k, hm1f⟩ :=
                ih h1 m k hm hsmm (Or.inr (by omega)) (by omega)
              refine ⟨mk false (kl ++ kr) (L ++ m1 :: R), ?_, ?_, ?_, ?_⟩
              · have hgm := getAt_append_cons L m R (searchInts ks k) hiL
                have hsm1 := setAt_append_cons L m R (searchInts ks k) m1 hiL
                simp [delete, hc, hg, hcbig, hg1, hdbig, hmerge, hgm, hm1, hsm1]
              · refine Shaped.inner _ _ h1 (by simp; omega) (by simp; omega) ?_ ?_
                · exact forall_mem_merge _ L R c d m1 hmin (by omega)
                · exact forall_mem_merge _ L R c d m1 hsh hm1s
              · simp; try omega
              · rw [flat_inner, flat_inner, hfin, hS1 m1, hm1f, hmf]
                have := filter_ne_middle (flat c) (flat d) k (nodup_of_sorted _ hsm)
                rw [this]
      · -- the key is not in this node: descend
        obtain ⟨L, c, R, P, S, hcs, hL, hR, hfl, hP, hS, _, _⟩ :=
          descend ks cs k hl hs kl kr hks hlt hgt
        have hiL : searchInts ks k = (L.length : Int) := by rw [hi]; omega
        have hg : getAt cs (searchInts ks k) = .ok c := by
          rw [hcs]; exact getAt_append_cons L c R _ hiL
        have hnsh : Shaped t (h1 + 1) (mk false ks cs) := Shaped.inner ks cs h1 hle hl hmin hsh
        have hkc : k ∈ flatKC ks cs → k ∈ flat c := by
          have := hfl c
          rw [← hcs] at this
          rw [this]
          intro hm
          rcases List.mem_append.mp hm with hm | hm
          · rcases List.mem_append.mp hm with hm | hm
            · exact absurd (hP k hm) (lt_irrefl _)
            · exact hm
          · exact absurd (hS k hm) (lt_irrefl _)
        have hrep : ∃ ks1 L1 c1 R1,
            (if (c.keys.length : Int) = t - 1 then
                ensureChildHasAtLeastTKeys (mk false ks cs) (searchInts ks k) t
              else pure (mk false ks cs, searchInts ks k) : Res (node × Int)) =
              .ok (mk false ks1 (L1 ++ c1 :: R1), (L1.length : Int)) ∧
            Shaped t (h1 + 1) (mk false ks1 (L1 ++ c1 :: R1)) ∧
            ks.length ≤ ks1.length + 1 ∧ t ≤ (c1.keys.length : Int) ∧
            flatKC ks1 (L1 ++ c1 :: R1) = flatKC ks cs ∧
            (∀ x ∈ flat c, x ∈ flat c1) := by
          by_cases hck : (c.keys.length : Int) = t - 1
          · rw [hcs] at hnsh ⊢
            obtain ⟨ks1, L1, c1, R1, h1e, h2e, h3e, h4e, h5e, h6e⟩ :=
              ensure_spec t ht h1 ks L c R (searchInts ks k) hnsh hk1 hiL hck
            exact ⟨ks1, L1, c1, R1, by simp [hck, h1e], h2e, h3e, h4e, h5e, h6e⟩
          · refine ⟨ks, L, c, R, ?_, ?_, by omega, ?_, by rw [hcs], fun x hx => hx⟩
            · simp [hck, hcs, hiL]
            · rw [← hcs]; exact hnsh
            · have := hmin c (by rw [hcs]; simp); omega
        obtain ⟨ks1, L1, c1, R1, hre, hsh1, hlen1, hc1big, hfl1, hsub⟩ := hrep
        obtain ⟨h2, heq, hl1, hmin1, hsh1c⟩ := hsh1.inner_inv
        have heq1 : h2 = h1 := by omega
        subst heq1
        have hle1 := hsh1.keys_le
        simp only [keys_mk] at hle1
        obtain ⟨P1, S1, hctx⟩ := flatKC_context ks1 L1 R1 (by simp at hl1; omega)
        have hs1 : (P1 ++ flat c1 ++ S1).Pairwise (· < ·) := by
          rw [← hctx c1, hfl1]; exact hs
        have hsc1 : (flat c1).Pairwise (· < ·) :=
          (List.pairwise_append.mp (List.pairwise_append.mp hs1).1).2.1
        obtain ⟨c2, hc2, hc2s, hc2k, hc2f⟩ :=
          ih h2 c1 k (hsh1c c1 (by simp)) hsc1 (Or.inr (by omega)) (by omega)
        refine ⟨mk false ks1 (L1 ++ c2 :: R1), ?_, ?_, by simpa using hlen1, ?_⟩
        · have hg2 := getAt_append_cons L1 c1 R1 (L1.length : Int) rfl
          have hs2 := setAt_append_cons L1 c1 R1 (L1.length : Int) c2 rfl
          simp only [delete, keys_mk, leaf_mk, children_mk, hc, if_false, hg, Res.ok_bind,
            Bool.false_eq_true]
          rw [hre]
          simp [hg2, hc2, hs2]
        · refine Shaped.inner _ _ h2 hle1 (by simpa using hl1) ?_ ?_
          · exact forall_mem_replace _ L1 R1 c1 c2 hmin1 (by omega)
          · exact forall_mem_replace _ L1 R1 c1 c2 hsh1c hc2s
        · rw [flat_inner, flat_inner, hctx c2, hc2f, ← hfl1, hctx c1]
          refine (filter_ne_context P1 (flat c1) S1 k (nodup_of_sorted _ hs1) ?_).symm
          intro hm
          apply hsub
          apply hkc
          rw [← hfl1, hctx c1]
          exact hm

end node


/-! ## Bracketing of the children by the keys of their parent -/

theorem childMin_succ (lo : Option Int) (k : Int) (ks : List Int) (i : Nat) :
    childMin lo (k :: ks) (i + 1) = childMin (some k) ks i := by
  cases i <;> simp [childMin]

theorem childMax_succ (hi : Option Int) (k : Int) (ks : List Int) (i : Nat) :
    childMax hi (k :: ks) (i + 1) = childMax hi ks i := by
  simp [childMax]

namespace node

/-- Children that are ordered and bracketed by the keys give an ordered node. -/
theorem flatKC_sorted_of_children (ks : List Int) : ∀ (cs : List node) (lo hi : Option Int),
    cs.length = ks.length + 1 → ks.Pairwise (· < ·) → Within lo hi ks →
    (∀ i c, cs[i]? = some c →
      (flat c).Pairwise (· < ·) ∧ Within (childMin lo ks i) (childMax hi ks i) (flat c)) →
    (flatKC ks cs).Pairwise (· < ·) ∧ Within lo hi (flatKC ks cs) := by
  induction ks with
  | nil =>
    intro cs lo hi hl _ _ hc
    match cs, hl with
    | [c], _ =>
      have := hc 0 c (by simp)
      simpa [childMin, childMax] using this
  | cons k ks ih =>
    intro cs lo hi hl hks hkw hc
    match cs, hl with
    | c :: cs, hl =>
      simp only [List.length_cons, Nat.add_right_cancel_iff] at hl
      obtain ⟨hcs, hcw⟩ := hc 0 c (by simp)
      simp only [childMin, childMax, if_true, List.getElem?_cons_zero] at hcw
      rw [List.pairwise_cons] at hks
      have hkw1 : Within (some k) hi ks := by
        refine ⟨?_, ?_⟩
        · intro a ha x hx
          cases ha
          exact hks.1 x hx
        · intro b hb x hx
          exact hkw.2 b hb x (List.mem_cons_of_mem _ hx)
      obtain ⟨hrs, hrw⟩ := ih cs (some k) hi hl hks.2 hkw1 (by
        intro i c1 hi1
        have := hc (i + 1) c1 (by simpa using hi1)
        rw [childMin_succ, childMax_succ] at this
        exact this)
      rw [flatKC_cons_cons]
      refine ⟨?_, ?_, ?_⟩
      · rw [List.pairwise_append, List.pairwise_cons]
        refine ⟨hcs, ⟨hrw.1 k rfl, hrs⟩, ?_⟩
        intro a ha b hb
        have hak : a < k := hcw.2 k rfl a ha
        rcases List.mem_cons.mp hb with hb | hb
        · subst hb; exact hak
        · exact lt_trans hak (hrw.1 k rfl b hb)
      · intro a ha x hx
        have hk : a < k := hkw.1 a ha k (List.mem_cons_self _ _)
        rcases List.mem_append.mp hx with hx | hx
        · exact hcw.1 a ha x hx
        · rcases List.mem_cons.mp hx with hx | hx
          · subst hx; exact hk
          · exact lt_trans hk (hrw.1 k rfl x hx)
      · intro b hb x hx
        have hk : k < b := hkw.2 b hb k (List.mem_cons_self _ _)
        rcases List.mem_append.mp hx with hx | hx
        · exact lt_trans (hcw.2 k rfl x hx) hk
        · rcases List.mem_cons.mp hx with hx | hx
          · subst hx; exact hk
          · exact hrw.2 b hb x hx

/-- In an ordered node every child is ordered and bracketed by the keys around it. -/
theorem children_of_flatKC_sorted (ks : List Int) : ∀ (cs : List node) (lo hi : Option Int),
    cs.length = ks.length + 1 → (flatKC ks cs).Pairwise (· < ·) →
    Within lo hi (flatKC ks cs) →
    ∀ i c, cs[i]? = some c →
      (flat c).Pairwise (· < ·) ∧ Within (childMin lo ks i) (childMax hi ks i) (flat c) := by
  induction ks with
  | nil =>
    intro cs lo hi hl hs hw i c hi1
    match cs, hl with
    | [c0], _ =>
      cases i with
      | zero =>
        simp at hi1; subst hi1
        simpa [childMin, childMax] using And.intro hs hw
      | succ i => simp at hi1
  | cons k ks ih =>
    intro cs lo hi hl hs hw i c hi1
    match cs, hl with
    | c0 :: cs, hl =>
      simp only [List.length_cons, Nat.add_right_cancel_iff] at hl
      rw [flatKC_cons_cons] at hs hw
      rw [List.pairwise_append, List.pairwise_cons] at hs
      obtain ⟨hs1, ⟨hs2, hs3⟩, hs4⟩ := hs
      cases i with
      | zero =>
        simp at hi1; subst hi1
        refine ⟨hs1, ?_, ?_⟩
        · intro a ha x hx
          simp only [childMin, if_true] at ha
          exact hw.1 a ha x (List.mem_append_left _ hx)
        · intro b hb x hx
          simp only [childMax, List.getElem?_cons_zero, Option.some.injEq] at hb
          subst hb
          exact hs4 x hx k (List.mem_cons_self _ _)
      | succ i =>
        rw [childMin_succ, childMax_succ]
        refine ih cs (some k) hi hl hs3 ⟨?_, ?_⟩ i c (by simpa using hi1)
        · intro a ha x hx
          cases ha
          exact hs2 x hx
        · intro b hb x hx
          exact hw.2 b hb x (List.mem_append_right _ (List.mem_cons_of_mem _ hx))

theorem within_keys_of_flatKC (ks : List Int) (cs : List node) (lo hi : Option Int)
    (hl : ks.length < cs.length) (hw : Within lo hi (flatKC ks cs)) : Within lo hi ks := by
  have hsub := (keys_sublist_flatKC ks cs hl).subset
  exact ⟨fun a ha x hx => hw.1 a ha x (hsub hx), fun b hb x hx => hw.2 b hb x (hsub hx)⟩

end node


/-! ## The bound `2*t-1` on 64-bit integers -/

/-- Up to the degree `2^62` the Go value of `2*t-1` is the mathematical one. -/
theorem maxKeys_eq (t : Int) (h2 : 2 ≤ t) (h62 : t ≤ 4611686018427387904) :
    maxKeys t = 2 * t - 1 := by
  unfold maxKeys wrapInt
  omega

/-- The Go value of `2*t-1` never exceeds the mathematical one. -/
theorem maxKeys_le (t : Int) (h2 : 2 ≤ t) : maxKeys t ≤ 2 * t - 1 := by
  unfold maxKeys wrapInt
  omega

/-- For a 64-bit degree above `2^62` the Go value of `2*t-1` is negative. -/
theorem maxKeys_neg (t : Int) (h62 : 4611686018427387904 < t)
    (h63 : t ≤ 9223372036854775807) : maxKeys t < 0 := by
  unfold maxKeys wrapInt
  omega

/-- When the Go value of `2*t-1` is at least `t-1`, the degree is at most `2^62`. -/
theorem maxKeys_small (t : Int) (h : t - 1 ≤ maxKeys t) : t ≤ 4611686018427387904 := by
  unfold maxKeys wrapInt at h
  omega

/-! ## The validator -/

theorem keysIncreasing_iff (ks : List Int) : keysIncreasing ks = true ↔ ks.Pairwise (· < ·) := by
  rw [← List.chain'_iff_pairwise]
  induction ks with
  | nil => simp [keysIncreasing]
  | cons a ks ih =>
    cases ks with
    | nil => simp [keysIncreasing]
    | cons b ks =>
      simp only [keysIncreasing, List.chain'_cons]
      by_cases hab : a ≥ b
      · simp [hab]
      · simp only [hab, if_false]
        rw [ih]
        simp only [ge_iff_le, not_le] at hab
        simp [hab]

theorem minCheck_iff (lo : Option Int) (ks : List Int) :
    lo.any (fun l => ks.any (fun k => decide (k ≤ l))) = false ↔
      ∀ a, lo = some a → ∀ x ∈ ks, a < x := by
  cases lo with
  | none => simp
  | some l =>
    simp only [Option.any_some, Option.some.injEq]
    constructor
    · intro h a ha x hx
      subst ha
      by_contra hcon
      have : ks.any (fun k => decide (k ≤ l)) = true :=
        List.any_eq_true.mpr ⟨x, hx, by simpa using not_lt.mp hcon⟩
      rw [h] at this
      cases this
    · intro h
      rw [Bool.eq_false_iff]
      intro hany
      obtain ⟨x, hx, hxl⟩ := List.any_eq_true.mp hany
      have := h l rfl x hx
      simp at hxl
      omega

theorem maxCheck_iff (hi : Option Int) (ks : List Int) :
    hi.any (fun u => ks.any (fun k => decide (k ≥ u))) = false ↔
      ∀ b, hi = some b → ∀ x ∈ ks, x < b := by
  cases hi with
  | none => simp
  | some u =>
    simp only [Option.any_some, Option.some.injEq]
    constructor
    · intro h b hb x hx
      subst hb
      by_contra hcon
      have : ks.any (fun k => decide (k ≥ u)) = true :=
        List.any_eq_true.mpr ⟨x, hx, by simpa using not_lt.mp hcon⟩
      rw [h] at this
      cases this
    · intro h
      rw [Bool.eq_false_iff]
      intro hany
      obtain ⟨x, hx, hxl⟩ := List.any_eq_true.mp hany
      have := h u rfl x hx
      simp at hxl
      omega

namespace node

theorem childBounds_eq (n : node) (lo hi : Option Int) (i : Nat) (hi1 : i ≤ n.keys.length) :
    childBounds n lo hi (i : Int) = .ok (childMin lo n.keys i, childMax hi n.keys i) := by
  unfold childBounds childMin childMax
  cases i with
  | zero =>
    cases hk : n.keys with
    | nil => simp
    | cons k ks => simp
  | succ j =>
    have h0 : ¬ (((j + 1 : Nat) : Int) = 0) := by omega
    have e : ((j + 1 : Nat) : Int) - 1 = (j : Int) := by omega
    have hj : j < n.keys.length := by omega
    simp only [h0, if_false, e, getAt_natCast, Nat.add_sub_cancel,
      List.getElem?_eq_getElem hj, Res.ok_bind]
    by_cases hlast : j + 1 = n.keys.length
    · have hnone : n.keys[j + 1]? = none := by
        rw [List.getElem?_eq_none_iff]; omega
      have hl2 : ((j + 1 : Nat) : Int) = (n.keys.length : Int) := by omega
      simp [hl2, hnone]
    · have hj1 : j + 1 < n.keys.length := by omega
      have hl2 : ¬ ((j : Int) + 1 = (n.keys.length : Int)) := by omega
      simp [hl2, List.getElem?_eq_getElem hj1]

end node


namespace node

theorem validateLoop_sound
    (rec : node → Option Int → Option Int → Int → Res (Option VErr × Int))
    (n : node) (lo hi : Option Int) (dd : Int) (hdd : 0 ≤ dd)
    (Q : Nat → Option Int → Option Int → node → Prop)
    (hl : n.children.length = n.keys.length + 1)
    (hrec : ∀ c lo1 hi1 l l1, rec c lo1 hi1 l = .ok (none, l1) →
      ∃ h, Q h lo1 hi1 c ∧ (l = -1 ∨ l = dd + h) ∧ l1 = dd + h) :
    ∀ (turns i : Nat) (ld ld1 : Int), i + turns = n.children.length → 0 < turns →
      validateLoop rec n lo hi turns (i : Int) ld = .ok (none, ld1) →
      ∃ h, (∀ j c, i ≤ j → n.children[j]? = some c →
          Q h (childMin lo n.keys j) (childMax hi n.keys j) c) ∧
        (ld = -1 ∨ ld = dd + h) ∧ ld1 = dd + h := by
  intro turns
  induction turns with
  | zero => intro i ld ld1 _ h0; omega
  | succ turns ih =>
    intro i ld ld1 hit _ hv
    have hik : i ≤ n.keys.length := by omega
    have hic : i < n.children.length := by omega
    have hcast : ((i : Int) + 1) = ((i + 1 : Nat) : Int) := by push_cast; rfl
    simp only [validateLoop, childBounds_eq n lo hi i hik, Res.ok_bind, getAt_natCast,
      List.getElem?_eq_getElem hic, hcast] at hv
    cases hr : rec n.children[i] (childMin lo n.keys i) (childMax hi n.keys i) ld with
    | panic => rw [hr] at hv; cases hv
    | outOfFuel => rw [hr] at hv; cases hv
    | ok r =>
      obtain ⟨e, l2⟩ := r
      rw [hr] at hv
      simp only [Res.ok_bind] at hv
      cases e with
      | some e => simp at hv
      | none =>
        simp only at hv
        obtain ⟨h, hQ, hld, hl2⟩ := hrec _ _ _ _ _ hr
        by_cases ht : turns = 0
        · subst ht
          simp only [validateLoop, Res.ok.injEq, Prod.mk.injEq, true_and] at hv
          refine ⟨h, ?_, hld, by rw [← hv, hl2]⟩
          intro j c hij hjc
          have hjl : j < n.children.length := by
            rcases List.getElem?_eq_some_iff.mp hjc with ⟨hlt, _⟩
            exact hlt
          have hji : j = i := by omega
          subst hji
          rw [List.getElem?_eq_getElem hic] at hjc
          cases hjc
          exact hQ
        · obtain ⟨h2, hall, hld2, hld1⟩ := ih (i + 1) l2 ld1 (by omega) (by omega) hv
          have hh : h2 = h := by omega
          subst hh
          refine ⟨h2, ?_, hld, hld1⟩
          intro j c hij hjc
          by_cases hji : j = i
          · subst hji
            rw [List.getElem?_eq_getElem hic] at hjc
            cases hjc
            exact hQ
          · exact hall j c (by omega) hjc

theorem validateLoop_complete
    (rec : node → Option Int → Option Int → Int → Res (Option VErr × Int))
    (n : node) (lo hi : Option Int) (D : Int)
    (hl : n.children.length = n.keys.length + 1)
    (hrec : ∀ j c, n.children[j]? = some c → ∀ l, (l = -1 ∨ l = D) →
      rec c (childMin lo n.keys j) (childMax hi n.keys j) l = .ok (none, D)) :
    ∀ (turns i : Nat) (ld : Int), i + turns = n.children.length →
      (ld = -1 ∨ ld = D) → (0 < turns ∨ ld = D) →
      validateLoop rec n lo hi turns (i : Int) ld = .ok (none, D) := by
  intro turns
  induction turns with
  | zero =>
    intro i ld _ _ h0
    rcases h0 with h0 | h0
    · omega
    · simp [validateLoop, h0]
  | succ turns ih =>
    intro i ld hit hld _
    have hik : i ≤ n.keys.length := by omega
    have hic : i < n.children.length := by omega
    have hcast : ((i : Int) + 1) = ((i + 1 : Nat) : Int) := by push_cast; rfl
    have hr := hrec i n.children[i] (List.getElem?_eq_getElem hic) ld hld
    simp only [validateLoop, childBounds_eq n lo hi i hik, Res.ok_bind, getAt_natCast,
      List.getElem?_eq_getElem hic, hcast, hr]
    exact ih (i + 1) D (by omega) (Or.inr rfl) (Or.inr rfl)

end node


namespace node

/-- When `validateRec` reports no error the subtree is well-shaped, ordered, within
the inherited bounds, and its leaves are at the recorded depth. -/
theorem validateRec_sound (t : Int) : ∀ (fuel : Nat) (n : node) (isRoot : Bool)
    (lo hi : Option Int) (depth ld ld1 : Int), 0 ≤ depth →
    validateRec fuel n t isRoot lo hi depth ld = .ok (none, ld1) →
    ∃ h, Shaped t h n ∧ (isRoot = false → t - 1 ≤ (n.keys.length : Int)) ∧
      (flat n).Pairwise (· < ·) ∧ Within lo hi (flat n) ∧
      (ld = -1 ∨ ld = depth + h) ∧ ld1 = depth + h ∧
      (n.keys.length : Int) ≤ maxKeys t ∧ (n.leaf = false → t - 1 ≤ maxKeys t) := by
  intro fuel
  induction fuel with
  | zero => intro n isRoot lo hi depth ld ld1 _ hv; simp [validateRec] at hv
  | succ f ih =>
    intro n isRoot lo hi depth ld ld1 hd hv
    obtain ⟨lf, ks, cs⟩ := n
    simp only [validateRec, keys_mk, leaf_mk, children_mk] at hv
    by_cases h1 : t < 2
    · rw [if_pos h1] at hv; cases hv
    rw [if_neg h1] at hv
    by_cases h2 : isRoot = true ∧ (ks.length : Int) > maxKeys t
    · rw [if_pos h2] at hv; cases hv
    rw [if_neg h2] at hv
    by_cases h3 : ¬ isRoot = true ∧ ((ks.length : Int) < t - 1 ∨ (ks.length : Int) > maxKeys t)
    · rw [if_pos h3] at hv; cases hv
    rw [if_neg h3] at hv
    by_cases h4 : ¬ keysIncreasing ks = true
    · rw [if_pos h4] at hv; cases hv
    rw [if_neg h4] at hv
    by_cases h5 : Option.any (fun lo => ks.any fun k => decide (k ≤ lo)) lo = true
    · rw [if_pos h5] at hv; cases hv
    rw [if_neg h5] at hv
    by_cases h6 : Option.any (fun hi => ks.any fun k => decide (k ≥ hi)) hi = true
    · rw [if_pos h6] at hv; cases hv
    rw [if_neg h6] at hv
    have hks := (keysIncreasing_iff ks).mp (by simpa using h4)
    have hlo := (minCheck_iff lo ks).mp (by simpa using h5)
    have hhi := (maxCheck_iff hi ks).mp (by simpa using h6)
    have hmk := maxKeys_le t (by omega)
    have hcountW : (ks.length : Int) ≤ maxKeys t := by
      cases isRoot <;> simp at h2 h3 <;> omega
    have hcount : (ks.length : Int) ≤ 2 * t - 1 := by omega
    have hnonroot : isRoot = false → t - 1 ≤ (ks.length : Int) := by
      intro hr; subst hr; simp at h3; omega
    by_cases h7 : lf = true
    · rw [if_pos h7] at hv
      subst h7
      by_cases h8 : cs.length ≠ 0
      · rw [if_pos h8] at hv; cases hv
      rw [if_neg h8] at hv
      have hcs : cs = [] := by
        cases cs with
        | nil => rfl
        | cons c cs => simp at h8
      subst hcs
      by_cases h9 : ld = -1
      · rw [if_pos h9] at hv
        simp only [Res.ok.injEq, Prod.mk.injEq, true_and] at hv
        exact ⟨0, Shaped.leaf ks hcount, hnonroot, by simpa using hks,
          ⟨by simpa using hlo, by simpa using hhi⟩, Or.inl h9, by simp [hv], hcountW,
          by simp⟩
      · rw [if_neg h9] at hv
        by_cases h10 : ld ≠ depth
        · rw [if_pos h10] at hv; cases hv
        rw [if_neg h10] at hv
        simp only [Res.ok.injEq, Prod.mk.injEq, true_and] at hv
        have hld : ld = depth := by simpa using h10
        exact ⟨0, Shaped.leaf ks hcount, hnonroot, by simpa using hks,
          ⟨by simpa using hlo, by simpa using hhi⟩, Or.inr (by simp [hld]),
          by simp [← hv, hld], hcountW, by simp⟩
    · rw [if_neg h7] at hv
      by_cases h8 : cs.length ≠ ks.length + 1
      · rw [if_pos h8] at hv; cases hv
      rw [if_neg h8] at hv
      have hlf : lf = false := by simpa using h7
      subst hlf
      have hl : cs.length = ks.length + 1 := by simpa using h8
      obtain ⟨h, hall, hld, hld1⟩ := validateLoop_sound
        (fun c lo hi ld => validateRec f c t false lo hi (depth + 1) ld)
        (mk false ks cs) lo hi (depth + 1) (by omega)
        (fun h lo1 hi1 c => Shaped t h c ∧ t - 1 ≤ (c.keys.length : Int) ∧
          (flat c).Pairwise (· < ·) ∧ Within lo1 hi1 (flat c) ∧
          (c.keys.length : Int) ≤ maxKeys t)
        (by simpa using hl)
        (by
          intro c lo1 hi1 l l1 hc
          obtain ⟨h, a1, a2, a3, a4, a5, a6, a7, _⟩ :=
            ih c false lo1 hi1 (depth + 1) l l1 (by omega) hc
          exact ⟨h, ⟨a1, a2 rfl, a3, a4, a7⟩, a5, a6⟩)
        cs.length 0 ld ld1 (by simp) (by omega) (by simpa using hv)
      simp only [keys_mk, children_mk] at hall
      have hmem : ∀ c ∈ cs, ∃ j : Nat, cs[j]? = some c := by
        intro c hc
        obtain ⟨j, hj, hjc⟩ := List.mem_iff_getElem.mp hc
        exact ⟨j, by rw [List.getElem?_eq_getElem hj, hjc]⟩
      have hfl := flatKC_sorted_of_children ks cs lo hi hl hks ⟨hlo, hhi⟩
        (fun j c hjc => ⟨(hall j c (Nat.zero_le _) hjc).2.2.1,
          (hall j c (Nat.zero_le _) hjc).2.2.2.1⟩)
      have hbig : t - 1 ≤ maxKeys t := by
        have h0 : 0 < cs.length := by omega
        have hc0 := hall 0 cs[0] (Nat.zero_le _) (List.getElem?_eq_getElem h0)
        have := hc0.2.1
        have := hc0.2.2.2.2
        omega
      refine ⟨h + 1, Shaped.inner ks cs h hcount hl ?_ ?_, hnonroot, by simpa using hfl.1,
        by simpa using hfl.2, ?_, ?_, hcountW, fun _ => hbig⟩
      · intro c hc
        obtain ⟨j, hj⟩ := hmem c hc
        exact (hall j c (Nat.zero_le _) hj).2.1
      · intro c hc
        obtain ⟨j, hj⟩ := hmem c hc
        exact (hall j c (Nat.zero_le _) hj).1
      · rcases hld with hld | hld
        · exact Or.inl hld
        · right; push_cast; omega
      · push_cast; omega

end node


namespace node

/-- On a well-shaped, ordered subtree within the inherited bounds `validateRec`
reports no error and records the depth of the leaves. -/
theorem validateRec_complete (t : Int) (ht : 2 ≤ t) (h62 : t ≤ 4611686018427387904) :
    ∀ (fuel h : Nat) (n : node)
    (isRoot : Bool) (lo hi : Option Int) (depth ld : Int),
    Shaped t h n → (isRoot = false → t - 1 ≤ (n.keys.length : Int)) →
    (flat n).Pairwise (· < ·) → Within lo hi (flat n) → h < fuel →
    (ld = -1 ∨ ld = depth + h) →
    validateRec fuel n t isRoot lo hi depth ld = .ok (none, depth + h) := by
  intro fuel
  induction fuel with
  | zero => intro h n isRoot lo hi depth ld _ _ _ _ hf; omega
  | succ f ih =>
    intro h n isRoot lo hi depth ld hn hnr hs hw hf hld
    have ht2 : ¬ t < 2 := by omega
    have hmk := maxKeys_eq t ht h62
    cases hn with
    | leaf ks hle =>
      simp only [flat_leaf] at hs hw
      simp only [keys_mk] at hnr
      have h2 : ¬ (isRoot = true ∧ (ks.length : Int) > maxKeys t) := by
        rintro ⟨_, hgt⟩; omega
      have h3 : ¬ (¬ isRoot = true ∧
          ((ks.length : Int) < t - 1 ∨ (ks.length : Int) > maxKeys t)) := by
        rintro ⟨hr, hor⟩
        have := hnr (by simpa using hr)
        omega
      have h4 : ¬ ¬ keysIncreasing ks = true := by
        simpa using (keysIncreasing_iff ks).mpr hs
      have h5 : ¬ Option.any (fun lo => ks.any fun k => decide (k ≤ lo)) lo = true := by
        simpa using (minCheck_iff lo ks).mpr hw.1
      have h6 : ¬ Option.any (fun hi => ks.any fun k => decide (k ≥ hi)) hi = true := by
        simpa using (maxCheck_iff hi ks).mpr hw.2
      simp only [validateRec, keys_mk, leaf_mk, children_mk]
      rw [if_neg ht2, if_neg h2, if_neg h3, if_neg h4, if_neg h5, if_neg h6]
      simp only [if_true, List.length_nil, ne_eq, not_true_eq_false, if_false]
      rcases hld with hld | hld
      · simp [hld]
      · have hld1 : ld = depth := by simpa using hld
        by_cases h9 : ld = -1
        · rw [if_pos h9]; simp
        · rw [if_neg h9]; simp [hld1]
    | inner ks cs h1 hle hl hmin hsh =>
      simp only [flat_inner] at hs hw
      simp only [keys_mk] at hnr
      have hsk : ks.Pairwise (· < ·) :=
        List.Pairwise.sublist (keys_sublist_flatKC ks cs (by omega)) hs
      have hwk := within_keys_of_flatKC ks cs lo hi (by omega) hw
      have h2 : ¬ (isRoot = true ∧ (ks.length : Int) > maxKeys t) := by
        rintro ⟨_, hgt⟩; omega
      have h3 : ¬ (¬ isRoot = true ∧
          ((ks.length : Int) < t - 1 ∨ (ks.length : Int) > maxKeys t)) := by
        rintro ⟨hr, hor⟩
        have := hnr (by simpa using hr)
        omega
      have h4 : ¬ ¬ keysIncreasing ks = true := by
        simpa using (keysIncreasing_iff ks).mpr hsk
      have h5 : ¬ Option.any (fun lo => ks.any fun k => decide (k ≤ lo)) lo = true := by
        simpa using (minCheck_iff lo ks).mpr hwk.1
      have h6 : ¬ Option.any (fun hi => ks.any fun k => decide (k ≥ hi)) hi = true := by
        simpa using (maxCheck_iff hi ks).mpr hwk.2
      have h8 : ¬ cs.length ≠ ks.length + 1 := by simpa using hl
      simp only [validateRec, keys_mk, leaf_mk, children_mk]
      rw [if_neg ht2, if_neg h2, if_neg h3, if_neg h4, if_neg h5, if_neg h6]
      simp only [Bool.false_eq_true, if_false]
      rw [if_neg h8]
      have hD : depth + ((h1 + 1 : Nat) : Int) = depth + 1 + (h1 : Int) := by push_cast; omega
      rw [hD]
      have hch := children_of_flatKC_sorted ks cs lo hi hl hs hw
      have := validateLoop_complete
        (fun c lo hi ld => validateRec f c t false lo hi (depth + 1) ld)
        (mk false ks cs) lo hi (depth + 1 + (h1 : Int)) (by simpa using hl)
        (by
          intro j c hjc l hl1
          simp only [children_mk] at hjc
          have hcm : c ∈ cs := by
            rcases List.getElem?_eq_some_iff.mp hjc with ⟨hlt, he⟩
            rw [← he]; exact List.getElem_mem hlt
          obtain ⟨hcs1, hcw1⟩ := hch j c hjc
          exact ih h1 c false _ _ (depth + 1) l (hsh c hcm) (fun _ => hmin c hcm) hcs1 hcw1
            (by omega) hl1)
        cs.length 0 ld (by simp) (by rw [← hD]; exact hld) (Or.inl (by omega))
      simpa using this

end node


/-! ## The public operations on trees that satisfy the invariant -/

theorem pairwise_insert_middle (A B : List Int) (k : Int) (hs : (A ++ B).Pairwise (· < ·))
    (hA : ∀ a ∈ A, a < k) (hB : ∀ b ∈ B, k < b) : (A ++ k :: B).Pairwise (· < ·) := by
  rw [List.pairwise_append] at hs ⊢
  refine ⟨hs.1, List.pairwise_cons.mpr ⟨hB, hs.2.1⟩, ?_⟩
  intro a ha b hb
  rcases List.mem_cons.mp hb with hb | hb
  · subst hb; exact hA a ha
  · exact hs.2.2 a ha b hb

namespace BTree

theorem Validate_of_shaped (tr : BTree) (h : Nat) (ht : 2 ≤ tr.t)
    (h62 : tr.t ≤ 4611686018427387904) (hn : Shaped tr.t h tr.root)
    (hs : (tr.root.flat).Pairwise (· < ·)) : tr.Validate = .ok none := by
  have h1 : ¬ tr.t < 2 := by omega
  have hv := node.validateRec_complete tr.t ht h62 tr.root.height h tr.root true none none 0
    (-1) hn (by simp) hs ⟨by simp, by simp⟩ (by rw [hn.height_eq]; omega) (Or.inl rfl)
  simp [Validate, h1, node.validate, hv]

/-- A tree whose root is a leaf with strictly increasing keys, at most as many as the Go
value of `2*t-1`, passes `Validate()`. -/
theorem Validate_leaf (t : Int) (ks : List Int) (ht : 2 ≤ t)
    (hk : (ks.length : Int) ≤ maxKeys t) (hs : ks.Pairwise (· < ·)) :
    (BTree.mk t (node.mk true ks [])).Validate = .ok none := by
  have h1 : ¬ t < 2 := by omega
  have h2 : ¬ (ks.length : Int) > maxKeys t := by omega
  have h4 : keysIncreasing ks = true := (keysIncreasing_iff ks).mpr hs
  simp [Validate, h1, node.validate, node.height, node.heightList, node.validateRec, h2, h4]

/-- For a 64-bit degree above `2^62`, `Validate()` rejects every tree whose root is a
leaf: the root has more keys than the Go value of `2*t-1`, which is negative. -/
theorem Validate_leaf_large (t : Int) (ks : List Int) (cs : List node)
    (h62 : 4611686018427387904 < t) (h63 : t ≤ 9223372036854775807) :
    (BTree.mk t (node.mk true ks cs)).Validate = .ok (some .rootTooManyKeys) := by
  have h1 : ¬ t < 2 := by omega
  have h2 := maxKeys_neg t h62 h63
  have h3 : maxKeys t < (ks.length : Int) := by omega
  simp [Validate, h1, node.validate, node.height, node.validateRec, h3]

/-- On a tree that passes `Validate()` the root holds at most as many keys as the Go
value of `2*t-1`, and if the root is internal the degree is at most `2^62`. -/
theorem bound_of_Validate (tr : BTree) (hv : tr.Validate = .ok none) :
    (tr.root.keys.length : Int) ≤ maxKeys tr.t ∧
      (tr.root.leaf = false → tr.t ≤ 4611686018427387904) := by
  unfold Validate at hv
  by_cases h1 : tr.t < 2
  · rw [if_pos h1] at hv; cases hv
  rw [if_neg h1] at hv
  unfold node.validate at hv
  cases hr : node.validateRec tr.root.height tr.root tr.t true none none 0 (-1) with
  | panic => rw [hr] at hv; cases hv
  | outOfFuel => rw [hr] at hv; cases hv
  | ok r =>
    obtain ⟨e, l⟩ := r
    rw [hr] at hv
    simp only [Res.ok_bind, Res.pure_eq_ok, Res.ok.injEq] at hv
    subst hv
    obtain ⟨h, _, _, _, _, _, _, hb, hbig⟩ :=
      node.validateRec_sound tr.t tr.root.height tr.root true none none 0 (-1) l (le_refl _) hr
    exact ⟨hb, fun hl => maxKeys_small tr.t (hbig hl)⟩

theorem shaped_of_Validate (tr : BTree) (hv : tr.Validate = .ok none) :
    2 ≤ tr.t ∧ ∃ h, Shaped tr.t h tr.root ∧ (tr.root.flat).Pairwise (· < ·) := by
  unfold Validate at hv
  by_cases h1 : tr.t < 2
  · rw [if_pos h1] at hv; cases hv
  rw [if_neg h1] at hv
  unfold node.validate at hv
  cases hr : node.validateRec tr.root.height tr.root tr.t true none none 0 (-1) with
  | panic => rw [hr] at hv; cases hv
  | outOfFuel => rw [hr] at hv; cases hv
  | ok r =>
    obtain ⟨e, l⟩ := r
    rw [hr] at hv
    simp only [Res.ok_bind, Res.pure_eq_ok, Res.ok.injEq] at hv
    subst hv
    obtain ⟨h, hn, _, hs, _, _, _⟩ :=
      node.validateRec_sound tr.t tr.root.height tr.root true none none 0 (-1) l (le_refl _) hr
    exact ⟨by omega, h, hn, hs⟩

theorem Keys_of_shaped (tr : BTree) (h : Nat) (hn : Shaped tr.t h tr.root) :
    tr.Keys = .ok tr.root.flat := by
  have := node.inorder_eq tr.t tr.root.height h tr.root [] hn (by rw [hn.height_eq]; omega)
  simpa [Keys] using this

theorem Search_of_shaped (tr : BTree) (h : Nat) (k : Int) (hn : Shaped tr.t h tr.root)
    (hs : (tr.root.flat).Pairwise (· < ·)) :
    tr.Search k = .ok (decide (k ∈ tr.root.flat)) := by
  obtain ⟨i, hi⟩ := node.search_spec tr.t tr.root.height h tr.root k hn hs
    (by rw [hn.height_eq]; omega)
  simp [Search, hi]

theorem New_inv (t : Int) (ht : 2 ≤ t) : TreeInv ⟨t, newLeaf⟩ := by
  refine ⟨ht, 0, ?_, ?_, Or.inl rfl⟩
  · exact Shaped.leaf [] (by simp; omega)
  · simp [newLeaf]

/-- Inserting a key that is already stored returns the tree unchanged. -/
theorem Insert_present (tr : BTree) (k : Int) (hinv : TreeInv tr) (hk : k ∈ tr.root.flat) :
    tr.Insert k = .ok tr := by
  obtain ⟨_, h, hn, hs, _⟩ := hinv
  simp [Insert, Search_of_shaped tr h k hn hs, hk]

/-- Inserting an absent key: the invariant is kept and the key enters the symmetric
order at its sorted position. -/
theorem Insert_absent (tr : BTree) (k : Int) (hinv : TreeInv tr) (hk : k ∉ tr.root.flat) :
    ∃ tr1, tr.Insert k = .ok tr1 ∧ TreeInv tr1 ∧ tr1.t = tr.t ∧
      ∃ A B, tr.root.flat = A ++ B ∧ tr1.root.flat = A ++ k :: B ∧
        (∀ a ∈ A, a < k) ∧ (∀ b ∈ B, k < b) := by
  obtain ⟨ht, h, hn, hs, hroot⟩ := hinv
  have hsearch := Search_of_shaped tr h k hn hs
  by_cases hfull : (tr.root.keys.length : Int) = 2 * tr.t - 1
  · obtain ⟨y1, m, z, hsplit, hfl, hy, hz, hyk, hzk, _, _⟩ :=
      node.splitChild_shaped tr.t h tr.root ht hn hfull
    have hsp := hsplit false [] [] [] [] 0 rfl rfl
    simp only [List.nil_append] at hsp
    have hnr : Shaped tr.t (h + 1) (node.mk false [m] [y1, z]) := by
      refine Shaped.inner _ _ h (by simp; omega) (by simp) ?_ ?_
      · intro c hc
        simp only [List.mem_cons, List.mem_singleton, List.not_mem_nil, or_false] at hc
        rcases hc with hc | hc <;> subst hc <;> omega
      · intro c hc
        simp only [List.mem_cons, List.mem_singleton, List.not_mem_nil, or_false] at hc
        rcases hc with hc | hc <;> subst hc <;> assumption
    have hflr : (node.mk false [m] [y1, z]).flat = tr.root.flat := by
      rw [hfl]; simp
    obtain ⟨n1, hn1, hn1s, hn1k, hn1l, _, A, B, hAB, hAB1, hA, hB⟩ :=
      node.insertNonFull_spec tr.t ht (node.mk false [m] [y1, z]).height (h + 1)
        (node.mk false [m] [y1, z]) k hnr (by simp; omega) (by rw [hflr]; exact hs)
        (by rw [hflr]; exact hk) (by rw [hnr.height_eq]; omega)
    refine ⟨⟨tr.t, n1⟩, ?_, ⟨ht, h + 1, hn1s, ?_, Or.inr ?_⟩, rfl, A, B, ?_, hAB1, hA, hB⟩
    · simp [Insert, hsearch, hk, hfull, newInternal, hsp, hn1]
    · simp only
      rw [hAB1]
      exact pairwise_insert_middle A B k (by rw [← hAB, hflr]; exact hs) hA hB
    · simp at hn1k; simpa using hn1k
    · rw [← hflr]; exact hAB
  · have hle := hn.keys_le
    obtain ⟨n1, hn1, hn1s, hn1k, hn1l, hn1leaf, A, B, hAB, hAB1, hA, hB⟩ :=
      node.insertNonFull_spec tr.t ht tr.root.height h tr.root k hn (by omega) hs hk
        (by rw [hn.height_eq]; omega)
    refine ⟨⟨tr.t, n1⟩, ?_, ⟨ht, h, hn1s, ?_, ?_⟩, rfl, A, B, hAB, hAB1, hA, hB⟩
    · simp [Insert, hsearch, hk, hfull, hn1]
    · simp only
      rw [hAB1]
      exact pairwise_insert_middle A B k (by rw [← hAB]; exact hs) hA hB
    · simp only
      rcases hroot with hr | hr
      · right; rw [hn1leaf hr]; omega
      · right; omega

/-- Deleting a key: the invariant is kept and exactly that key leaves the symmetric order. -/
theorem Delete_inv (tr : BTree) (k : Int) (hinv : TreeInv tr) :
    ∃ tr1, tr.Delete k = .ok tr1 ∧ TreeInv tr1 ∧ tr1.t = tr.t ∧
      tr1.root.flat = tr.root.flat.filter (fun x => decide (x ≠ k)) := by
  obtain ⟨ht, h, hn, hs, hroot⟩ := hinv
  obtain ⟨n1, hn1, hn1s, hn1k, hn1f⟩ :=
    node.delete_spec tr.t ht tr.root.height h tr.root k hn hs hroot (by rw [hn.height_eq]; omega)
  have hs1 : (n1.flat).Pairwise (· < ·) := by
    rw [hn1f]; exact List.Pairwise.filter _ hs
  by_cases hshrink : n1.keys.length = 0 ∧ ¬ n1.leaf = true
  · obtain ⟨lf, ks, cs⟩ := n1
    simp only [node.keys_mk, node.leaf_mk] at hshrink
    obtain ⟨hks, hlf⟩ := hshrink
    have hks0 : ks = [] := List.length_eq_zero.mp hks
    have hlf0 : lf = false := by simpa using hlf
    subst hks0; subst hlf0
    obtain ⟨h1, heq, hl, hmin, hsh⟩ := hn1s.inner_inv
    match cs, hl with
    | [c], _ =>
      refine ⟨⟨tr.t, c⟩, ?_, ⟨ht, h1, hsh c (by simp), ?_, Or.inr ?_⟩, rfl, ?_⟩
      · simp [Delete, hn1]
      · simpa using hs1
      · have := hmin c (by simp); simp only; omega
      · rw [← hn1f]; simp
  · refine ⟨⟨tr.t, n1⟩, ?_, ⟨ht, h, hn1s, hs1, ?_⟩, rfl, hn1f⟩
    · simp only [Delete, hn1, Res.ok_bind]
      rw [if_neg (by simpa using hshrink)]
      rfl
    · simp only
      by_cases hl : n1.leaf = true
      · exact Or.inl hl
      · right
        by_contra hcon
        exact hshrink ⟨by omega, hl⟩

end BTree


/-! ## Stored keys, runs and reachable trees -/

namespace node

theorem mem_allKeysList (x : Int) (cs : List node) :
    x ∈ allKeysList cs ↔ ∃ c ∈ cs, x ∈ allKeys c := by
  induction cs with
  | nil => simp [allKeysList]
  | cons c cs ih => simp [allKeysList, ih]

theorem mem_flatKC (x : Int) (ks : List Int) : ∀ (cs : List node),
    cs.length = ks.length + 1 →
    (x ∈ flatKC ks cs ↔ x ∈ ks ∨ ∃ c ∈ cs, x ∈ flat c) := by
  induction ks with
  | nil =>
    intro cs hl
    match cs, hl with
    | [c], _ => simp
  | cons k ks ih =>
    intro cs hl
    match cs, hl with
    | c :: cs, hl =>
      simp only [List.length_cons, Nat.add_right_cancel_iff] at hl
      rw [flatKC_cons_cons]
      simp only [List.mem_append, List.mem_cons, ih cs hl, exists_eq_or_imp]
      tauto

/-- On a well-shaped subtree the symmetric order lists exactly the stored keys. -/
theorem mem_flat_iff_mem_allKeys (t : Int) (h : Nat) (n : node) (hn : Shaped t h n) (x : Int) :
    x ∈ flat n ↔ x ∈ allKeys n := by
  induction hn with
  | leaf ks _ => simp [allKeys, allKeysList]
  | inner ks cs h _ hl _ _ ih =>
    rw [flat_inner, mem_flatKC x ks cs hl]
    simp only [allKeys, List.mem_append, mem_allKeysList]
    constructor
    · rintro (hx | ⟨c, hc, hx⟩)
      · exact Or.inl hx
      · exact Or.inr ⟨c, hc, (ih c hc).mp hx⟩
    · rintro (hx | ⟨c, hc, hx⟩)
      · exact Or.inl hx
      · exact Or.inr ⟨c, hc, (ih c hc).mpr hx⟩

/-- Deleting an absent key along a search path that needs no repair changes nothing. -/
theorem delete_absent_noRepair (t : Int) : ∀ (fuel h : Nat) (n : node) (k : Int),
    Shaped t h n → (flat n).Pairwise (· < ·) → k ∉ flat n → NoRepair t k n → h < fuel →
    delete fuel n k t = .ok n := by
  intro fuel
  induction fuel with
  | zero => intro h n k _ _ _ _ hf; omega
  | succ f ih =>
    intro h n k hn hs hk hnr hf
    cases hn with
    | leaf ks _ =>
      simp only [flat_leaf] at hs hk
      rcases searchInts_cases ks k hs with ⟨kl, kr, hks, _, _⟩ | ⟨kl, kr, _, _, _, _, hc⟩
      · exact absurd (by rw [hks]; simp) hk
      · simp [delete, hc]
    | inner ks cs h1 _ hl _ hsh =>
      simp only [flat_inner] at hs hk
      have hsk : ks.Pairwise (· < ·) :=
        List.Pairwise.sublist (keys_sublist_flatKC ks cs (by omega)) hs
      rcases searchInts_cases ks k hsk with ⟨kl, kr, hks, _, _⟩ | ⟨kl, kr, hks, hi, hlt, hgt, hc⟩
      · exact absurd ((keys_sublist_flatKC ks cs (by omega)).subset (by rw [hks]; simp)) hk
      · cases hnr with
        | inner _ _ c hg hck hnrc =>
          obtain ⟨L, R, hcs, hL⟩ := getAt_eq_ok cs _ c hg
          have hcm : c ∈ cs := by rw [hcs]; simp
          obtain ⟨P, S, hctx⟩ := flatKC_context ks L R (by
            have := congrArg List.length hcs
            simp at this; omega)
          have hflc : flatKC ks cs = P ++ flat c ++ S := by
            rw [hcs]; exact hctx c
          have hsc : (flat c).Pairwise (· < ·) := by
            rw [hflc] at hs
            exact (List.pairwise_append.mp (List.pairwise_append.mp hs).1).2.1
          have hkc : k ∉ flat c := by
            intro hm; apply hk; rw [hflc]
            exact List.mem_append_left _ (List.mem_append_right _ hm)
          have hdel := ih h1 c k (hsh c hcm) hsc hkc hnrc (by omega)
          have hset : setAt cs (searchInts ks k) c = .ok cs := by
            rw [hcs]; exact setAt_append_cons L c R _ c hL.symm
          simp [delete, hc, hg, hck, hdel, hset]

end node

namespace BTree

theorem run_inv (ops : List Op) : ∀ (tr : BTree) (S : Finset Int), TreeInv tr →
    (∀ x, x ∈ tr.root.flat ↔ x ∈ S) →
    ∃ tr1, tr.run ops = .ok tr1 ∧ TreeInv tr1 ∧ tr1.t = tr.t ∧
      (∀ x, x ∈ tr1.root.flat ↔ x ∈ ops.foldl Op.onSet S) := by
  induction ops with
  | nil => intro tr S hinv hS; exact ⟨tr, rfl, hinv, rfl, hS⟩
  | cons op ops ih =>
    intro tr S hinv hS
    cases op with
    | insert k =>
      by_cases hk : k ∈ tr.root.flat
      · obtain ⟨tr2, h1, h2, h3, h4⟩ := ih tr (Op.onSet S (Op.insert k)) hinv (by
          intro x
          simp only [Op.onSet, Finset.mem_union, Finset.mem_singleton, ← hS]
          constructor
          · exact Or.inl
          · rintro (hx | hx)
            · exact hx
            · subst hx; exact hk)
        refine ⟨tr2, ?_, h2, h3, h4⟩
        simp [run, step, Insert_present tr k hinv hk, h1]
      · obtain ⟨tr1, hi1, hi2, hi3, A, B, hAB, hAB1, _, _⟩ := Insert_absent tr k hinv hk
        obtain ⟨tr2, h1, h2, h3, h4⟩ := ih tr1 (Op.onSet S (Op.insert k)) hi2 (by
          intro x
          simp only [Op.onSet, Finset.mem_union, Finset.mem_singleton, ← hS, hAB, hAB1,
            List.mem_append, List.mem_cons]
          tauto)
        refine ⟨tr2, ?_, h2, by rw [h3, hi3], h4⟩
        simp [run, step, hi1, h1]
    | delete k =>
      obtain ⟨tr1, hd1, hd2, hd3, hd4⟩ := Delete_inv tr k hinv
      obtain ⟨tr2, h1, h2, h3, h4⟩ := ih tr1 (Op.onSet S (Op.delete k)) hd2 (by
        intro x
        simp only [Op.onSet, Finset.mem_sdiff, Finset.mem_singleton, ← hS, hd4,
          List.mem_filter, ne_eq, decide_not, Bool.not_eq_true', decide_eq_false_iff_not])
      refine ⟨tr2, ?_, h2, by rw [h3, hd3], h4⟩
      simp [run, step, hd1, h1]

theorem New_eq (t : Int) (tr0 : BTree) (h : New t = some tr0) : 2 ≤ t ∧ tr0 = ⟨t, newLeaf⟩ := by
  unfold New at h
  by_cases h1 : t < 2
  · rw [if_pos h1] at h; cases h
  · rw [if_neg h1] at h
    cases h
    exact ⟨by omega, rfl⟩

theorem run_from_New (t : Int) (ht : 2 ≤ t) (ops : List Op) :
    ∃ tr, (BTree.mk t newLeaf).run ops = .ok tr ∧ TreeInv tr ∧ tr.t = t ∧
      (∀ x, x ∈ tr.root.flat ↔ x ∈ setAfter ops) := by
  obtain ⟨tr, h1, h2, h3, h4⟩ := run_inv ops ⟨t, newLeaf⟩ ∅ (New_inv t ht) (by simp [newLeaf])
  exact ⟨tr, h1, h2, h3, h4⟩

theorem inv_of_reachable (t : Int) (tr : BTree) (hr : Reachable t tr) :
    TreeInv tr ∧ tr.t = t := by
  obtain ⟨tr0, ops, hnew, hrun⟩ := hr
  obtain ⟨ht, h0⟩ := New_eq t tr0 hnew
  subst h0
  obtain ⟨tr1, h1, h2, h3, _⟩ := run_from_New t ht ops
  rw [hrun] at h1
  cases h1
  exact ⟨h2, h3⟩

end BTree


/-! ## The contract of the public operations -/

theorem sorted_eq_sort (l : List Int) (S : Finset Int) (hs : l.Pairwise (· < ·))
    (hm : ∀ x, x ∈ l ↔ x ∈ S) : l = S.sort (· ≤ ·) := by
  apply List.eq_of_perm_of_sorted (r := (· ≤ ·))
  · rw [List.perm_ext_iff_of_nodup (nodup_of_sorted l hs) (Finset.sort_nodup _ _)]
    intro x
    rw [hm x, Finset.mem_sort]
  · exact List.Pairwise.imp (fun hab => le_of_lt hab) hs
  · exact Finset.sort_sorted _ _

/-- Structural health up to the degree `2^62`. For every minimum degree `t` with
`2 ≤ t ≤ 2^62`, every finite sequence `ops` of `Insert`/`Delete` calls with arbitrary
integer keys and every `n`, the first `n` calls applied to the tree returned by `New(t)`
run to completion and `Validate()` returns no error on the tree they leave; `n` ranges
over every prefix, so the validator succeeds after every call of the sequence. -/
theorem validate_after_every_call (t : Int) (ht : 2 ≤ t) (h62 : t ≤ 4611686018427387904)
    (ops : List Op) (n : Nat) :
    ∃ tr0 tr, BTree.New t = some tr0 ∧ tr0.run (ops.take n) = .ok tr ∧
      tr.Validate = .ok none := by
  obtain ⟨tr, h1, ⟨ht1, h, hn, hs, _⟩, htt, _⟩ := BTree.run_from_New t ht (ops.take n)
  have hnew : BTree.New t = some ⟨t, newLeaf⟩ := by
    have : ¬ t < 2 := by omega
    simp [BTree.New, this]
  exact ⟨⟨t, newLeaf⟩, tr, hnew, h1,
    BTree.Validate_of_shaped tr h ht1 (by rw [htt]; exact h62) hn hs⟩

/-- Instance: `New(2)`, then the first two of the calls insert 5, insert 7, delete 5. -/
theorem validate_after_every_call_witness :
    (2 : Int) ≤ 2 ∧ (2 : Int) ≤ 4611686018427387904 ∧ ∃ tr0 tr, BTree.New 2 = some tr0 ∧
      tr0.run ([Op.insert 5, Op.insert 7, Op.delete 5].take 2) = .ok tr ∧
      tr.Validate = .ok none :=
  ⟨by decide, by decide, validate_after_every_call 2 (by decide) (by decide)
    [Op.insert 5, Op.insert 7, Op.delete 5] 2⟩

/-- C2 (refinement of a finite-set model). For every `t ≥ 2`, every finite sequence of
`Insert`/`Delete` calls applied to `New(t)` and every prefix of it, `Keys()` returns the
strictly ascending list of the elements of the reference set, which starts empty and
is mapped by `Insert(k)` to `S ∪ {k}` and by `Delete(k)` to `S \ {k}`. -/
theorem keys_refine_set (t : Int) (ht : 2 ≤ t) (ops : List Op) (n : Nat) :
    ∃ tr0 tr l, BTree.New t = some tr0 ∧ tr0.run (ops.take n) = .ok tr ∧
      tr.Keys = .ok l ∧ l.Pairwise (· < ·) ∧ (∀ x, x ∈ l ↔ x ∈ setAfter (ops.take n)) ∧
      l = (setAfter (ops.take n)).sort (· ≤ ·) := by
  obtain ⟨tr, h1, ⟨_, h, hn, hs, _⟩, _, hmem⟩ := BTree.run_from_New t ht (ops.take n)
  have hnew : BTree.New t = some ⟨t, newLeaf⟩ := by
    have : ¬ t < 2 := by omega
    simp [BTree.New, this]
  exact ⟨⟨t, newLeaf⟩, tr, tr.root.flat, hnew, h1, BTree.Keys_of_shaped tr h hn, hs, hmem,
    sorted_eq_sort _ _ hs hmem⟩

/-- Instance of C2: `New(2)`, then the calls insert 5, insert 7, delete 5. -/
theorem keys_refine_set_witness :
    (2 : Int) ≤ 2 ∧ ∃ tr0 tr l, BTree.New 2 = some tr0 ∧
      tr0.run ([Op.insert 5, Op.insert 7, Op.delete 5].take 3) = .ok tr ∧
      tr.Keys = .ok l ∧ l.Pairwise (· < ·) ∧
      (∀ x, x ∈ l ↔ x ∈ setAfter ([Op.insert 5, Op.insert 7, Op.delete 5].take 3)) ∧
      l = (setAfter ([Op.insert 5, Op.insert 7, Op.delete 5].take 3)).sort (· ≤ ·) :=
  ⟨by decide, keys_refine_set 2 (by decide) [Op.insert 5, Op.insert 7, Op.delete 5] 3⟩

/-- C3 (membership correctness of `Search`). On every tree on which `Validate()`
returns no error (so its degree is at least 2) and for every integer `k`, `Search(k)`
returns true if and only if `k` occurs in `Keys()`, that is, if and only if `k` is
stored in some node of the tree. -/
theorem search_iff_stored (tr : BTree) (k : Int) (hv : tr.Validate = .ok none) :
    ∃ l, tr.Keys = .ok l ∧ tr.Search k = .ok (decide (k ∈ l)) ∧
      (k ∈ l ↔ k ∈ tr.root.allKeys) := by
  obtain ⟨_, h, hn, hs⟩ := BTree.shaped_of_Validate tr hv
  exact ⟨tr.root.flat, BTree.Keys_of_shaped tr h hn, BTree.Search_of_shaped tr h k hn hs,
    node.mem_flat_iff_mem_allKeys tr.t h tr.root hn k⟩

/-- Instance of C3: `Search(3)` on the valid tree `tree1234`. -/
theorem search_iff_stored_witness :
    tree1234.Validate = .ok none ∧ ∃ l, tree1234.Keys = .ok l ∧
      tree1234.Search 3 = .ok (decide ((3 : Int) ∈ l)) ∧
      ((3 : Int) ∈ l ↔ (3 : Int) ∈ tree1234.root.allKeys) :=
  ⟨by decide, search_iff_stored tree1234 3 (by decide)⟩

/-- C4 (postcondition of `Insert`). On every tree reachable from `New(t)` by
`Insert`/`Delete` calls (which forces `t ≥ 2`) and for every integer `k` that is not in
`Keys()`, `Insert(k)` completes, the new `Keys()` is the old list with `k` put at its
sorted position (every other key kept in place, nothing else added) and `Search(k)`
returns true afterwards. -/
theorem insert_absent_post (t : Int) (tr : BTree) (k : Int) (l : List Int)
    (hr : Reachable t tr) (hl : tr.Keys = .ok l) (hk : k ∉ l) :
    ∃ tr1 A B, tr.Insert k = .ok tr1 ∧ l = A ++ B ∧ tr1.Keys = .ok (A ++ k :: B) ∧
      (∀ a ∈ A, a < k) ∧ (∀ b ∈ B, k < b) ∧ tr1.Search k = .ok true := by
  obtain ⟨hinv, _⟩ := BTree.inv_of_reachable t tr hr
  obtain ⟨_, h, hn, _, _⟩ := id hinv
  have hkeys := BTree.Keys_of_shaped tr h hn
  rw [hl] at hkeys
  cases hkeys
  obtain ⟨tr1, h1, ⟨_, h2, hn2, hs2, _⟩, _, A, B, hAB, hAB1, hA, hB⟩ :=
    BTree.Insert_absent tr k hinv hk
  refine ⟨tr1, A, B, h1, hAB, ?_, hA, hB, ?_⟩
  · rw [BTree.Keys_of_shaped tr1 h2 hn2, hAB1]
  · rw [BTree.Search_of_shaped tr1 h2 k hn2 hs2, hAB1]
    simp

/-- Instance of C4: `Insert(3)` on the leaf `[1, 5]` reached from `New(2)`. -/
theorem insert_absent_post_witness :
    ∃ tr1 A B, (BTree.mk 2 (node.mk true [1, 5] [])).Insert 3 = .ok tr1 ∧
      [1, 5] = A ++ B ∧ tr1.Keys = .ok (A ++ 3 :: B) ∧
      (∀ a ∈ A, a < 3) ∧ (∀ b ∈ B, 3 < b) ∧ tr1.Search 3 = .ok true :=
  insert_absent_post 2 ⟨2, node.mk true [1, 5] []⟩ 3 [1, 5]
    ⟨⟨2, newLeaf⟩, [Op.insert 1, Op.insert 5], rfl, rfl⟩ rfl (by decide)

/-- C5 (postcondition of `Delete`). On every tree reachable from `New(t)` by
`Insert`/`Delete` calls and for every integer `k` that occurs in `Keys()`, `Delete(k)`
completes, the new `Keys()` is the old list with `k` removed (every other key kept, in
the same order), `k` is no longer in it and `Search(k)` returns false afterwards. -/
theorem delete_present_post (t : Int) (tr : BTree) (k : Int) (l : List Int)
    (hr : Reachable t tr) (hl : tr.Keys = .ok l) (hk : k ∈ l) :
    ∃ tr1 A B, tr.Delete k = .ok tr1 ∧ l = A ++ k :: B ∧ tr1.Keys = .ok (A ++ B) ∧
      k ∉ A ++ B ∧ tr1.Search k = .ok false := by
  obtain ⟨hinv, _⟩ := BTree.inv_of_reachable t tr hr
  obtain ⟨_, h, hn, hs, _⟩ := id hinv
  have hkeys := BTree.Keys_of_shaped tr h hn
  rw [hl] at hkeys
  cases hkeys
  obtain ⟨A, B, hAB⟩ := List.append_of_mem hk
  obtain ⟨tr1, h1, ⟨_, h2, hn2, hs2, _⟩, _, hfl⟩ := BTree.Delete_inv tr k hinv
  have hnd := nodup_of_sorted _ hs
  rw [hAB] at hfl hnd
  rw [filter_ne_middle A B k hnd] at hfl
  have hk2 : k ∉ A ++ B := by
    intro hm
    rcases List.mem_append.mp hm with hm | hm
    · exact (List.nodup_append.mp hnd).2.2 hm (List.mem_cons_self _ _)
    · exact (List.nodup_cons.mp (List.nodup_append.mp hnd).2.1).1 hm
  refine ⟨tr1, A, B, h1, hAB, ?_, hk2, ?_⟩
  · rw [BTree.Keys_of_shaped tr1 h2 hn2, hfl]
  · rw [BTree.Search_of_shaped tr1 h2 k hn2 hs2, hfl]
    simp [hk2]

/-- Instance of C5: `Delete(3)` on `tree1234`, reached from `New(2)` by four inserts. -/
theorem delete_present_post_witness :
    ∃ tr1 A B, tree1234.Delete 3 = .ok tr1 ∧ [1, 2, 3, 4] = A ++ 3 :: B ∧
      tr1.Keys = .ok (A ++ B) ∧ (3 : Int) ∉ A ++ B ∧ tr1.Search 3 = .ok false :=
  delete_present_post 2 tree1234 3 [1, 2, 3, 4]
    ⟨⟨2, newLeaf⟩, [Op.insert 1, Op.insert 2, Op.insert 3, Op.insert 4], rfl, rfl⟩ rfl
    (by decide)

/-- C6 (`Insert` is idempotent on duplicates). On every tree reachable from `New(t)` and
for every integer `k`, `Insert(k)` followed by a second `Insert(k)` yields exactly the
tree that the first call returned (same node structure); equivalently, `Insert(k)` on a
tree whose `Keys()` already contains `k` returns the tree unchanged. -/
theorem insert_idempotent (t : Int) (tr : BTree) (k : Int) (hr : Reachable t tr) :
    (∃ tr1, tr.Insert k = .ok tr1 ∧ tr1.Insert k = .ok tr1) ∧
    (∀ l, tr.Keys = .ok l → k ∈ l → tr.Insert k = .ok tr) := by
  obtain ⟨hinv, _⟩ := BTree.inv_of_reachable t tr hr
  obtain ⟨_, h, hn, _, _⟩ := id hinv
  constructor
  · by_cases hk : k ∈ tr.root.flat
    · exact ⟨tr, BTree.Insert_present tr k hinv hk, BTree.Insert_present tr k hinv hk⟩
    · obtain ⟨tr1, h1, hinv1, _, A, B, _, hAB1, _, _⟩ := BTree.Insert_absent tr k hinv hk
      exact ⟨tr1, h1, BTree.Insert_present tr1 k hinv1 (by rw [hAB1]; simp)⟩
  · intro l hl hk
    have hkeys := BTree.Keys_of_shaped tr h hn
    rw [hl] at hkeys
    cases hkeys
    exact BTree.Insert_present tr k hinv hk

/-- Instance of C6: `Insert(5)` twice on `tree1234`. -/
theorem insert_idempotent_witness :
    (∃ tr1, tree1234.Insert 5 = .ok tr1 ∧ tr1.Insert 5 = .ok tr1) ∧
    (∀ l, tree1234.Keys = .ok l → (5 : Int) ∈ l → tree1234.Insert 5 = .ok tree1234) :=
  insert_idempotent 2 tree1234 5
    ⟨⟨2, newLeaf⟩, [Op.insert 1, Op.insert 2, Op.insert 3, Op.insert 4], rfl, rfl⟩

/-- C7 (deleting an absent key preserves the contents). On every tree reachable from
`New(t)` by `Insert`/`Delete` calls and for every integer `k` that is not in `Keys()`,
`Delete(k)` completes and `Keys()` afterwards equals `Keys()` before, whatever the
descent borrowed or merged on its way down. -/
theorem delete_absent_keys (t : Int) (tr : BTree) (k : Int) (l : List Int)
    (hr : Reachable t tr) (hl : tr.Keys = .ok l) (hk : k ∉ l) :
    ∃ tr1, tr.Delete k = .ok tr1 ∧ tr1.Keys = .ok l := by
  obtain ⟨hinv, _⟩ := BTree.inv_of_reachable t tr hr
  obtain ⟨_, h, hn, _, _⟩ := id hinv
  have hkeys := BTree.Keys_of_shaped tr h hn
  rw [hl] at hkeys
  cases hkeys
  obtain ⟨tr1, h1, ⟨_, h2, hn2, _, _⟩, _, hfl⟩ := BTree.Delete_inv tr k hinv
  rw [filter_ne_self _ k hk] at hfl
  exact ⟨tr1, h1, by rw [BTree.Keys_of_shaped tr1 h2 hn2, hfl]⟩

/-- Instance of C7: `Delete(0)` on `tree1234`, where the descent borrows. -/
theorem delete_absent_keys_witness :
    ∃ tr1, tree1234.Delete 0 = .ok tr1 ∧ tr1.Keys = .ok [1, 2, 3, 4] :=
  delete_absent_keys 2 tree1234 0 [1, 2, 3, 4]
    ⟨⟨2, newLeaf⟩, [Op.insert 1, Op.insert 2, Op.insert 3, Op.insert 4], rfl, rfl⟩ rfl
    (by decide)


/-- C8 fails on the code: `tree1234` is reachable from `New(2)` (insert `1, 2, 3, 4`),
the key `0` is not in it, and `Delete(0)` returns a different tree: on the way down the
left leaf `[1]` holds `t-1` keys and borrows from its right sibling, which moves key `2`
down, key `3` up, and leaves the root `[3]` over the leaves `[1, 2]` and `[4]`. The
comment on `Delete` says that nothing is done when the key does not exist. -/
theorem delete_absent_changes_tree :
    Reachable 2 tree1234 ∧ tree1234.Keys = .ok [1, 2, 3, 4] ∧ (0 : Int) ∉ [1, 2, 3, 4] ∧
      tree1234.Delete 0 = .ok tree1234AfterDelete0 ∧ tree1234AfterDelete0 ≠ tree1234 := by
  refine ⟨⟨⟨2, newLeaf⟩, [Op.insert 1, Op.insert 2, Op.insert 3, Op.insert 4], rfl, rfl⟩,
    rfl, by decide, rfl, ?_⟩
  intro h
  have h1 := congrArg (fun tr : BTree => tr.root.keys) h
  simp [tree1234, tree1234AfterDelete0] at h1

/-- What `Delete` of an absent key does keep. On every tree reachable from `New(t)` by
`Insert`/`Delete` calls and for every integer `k` that is not in `Keys()`, `Delete(k)`
completes and leaves the minimum degree and `Keys()` unchanged, and the tree valid when
`t ≤ 2^62`; the tree itself is identical to the tree before whenever the search path of
`k` meets no child with exactly `t-1` keys (in particular when the root is a leaf). -/
theorem delete_absent_frame (t : Int) (tr : BTree) (k : Int) (l : List Int)
    (hr : Reachable t tr) (hl : tr.Keys = .ok l) (hk : k ∉ l) :
    ∃ tr1, tr.Delete k = .ok tr1 ∧ tr1.MinDegree = tr.MinDegree ∧ tr1.Keys = .ok l ∧
      (tr.t ≤ 4611686018427387904 → tr1.Validate = .ok none) ∧
      (NoRepair tr.t k tr.root → tr1 = tr) := by
  obtain ⟨hinv, _⟩ := BTree.inv_of_reachable t tr hr
  obtain ⟨ht, h, hn, hs, hroot⟩ := id hinv
  have hkeys := BTree.Keys_of_shaped tr h hn
  rw [hl] at hkeys
  cases hkeys
  obtain ⟨tr1, h1, ⟨ht2, h2, hn2, hs2, _⟩, hdeg, hfl⟩ := BTree.Delete_inv tr k hinv
  rw [filter_ne_self _ k hk] at hfl
  refine ⟨tr1, h1, hdeg, by rw [BTree.Keys_of_shaped tr1 h2 hn2, hfl],
    fun h62 => BTree.Validate_of_shaped tr1 h2 ht2 (by rw [hdeg]; exact h62) hn2 hs2, ?_⟩
  intro hnr
  have hdel := node.delete_absent_noRepair tr.t tr.root.height h tr.root k hn hs hk hnr
    (by rw [hn.height_eq]; omega)
  have hno : ¬ (tr.root.keys.length = 0 ∧ ¬ tr.root.leaf = true) := by
    rintro ⟨h0, hl0⟩
    rcases hroot with hr1 | hr1
    · exact hl0 hr1
    · omega
  have : tr.Delete k = .ok tr := by
    simp only [BTree.Delete, hdel, Res.ok_bind]
    rw [if_neg hno]
    rfl
  rw [this] at h1
  cases h1
  rfl

/-- Instance: `Delete(3)` on the leaf `[1, 5]` reached from `New(2)`. -/
theorem delete_absent_frame_witness :
    ∃ tr1, (BTree.mk 2 (node.mk true [1, 5] [])).Delete 3 = .ok tr1 ∧
      tr1.MinDegree = (BTree.mk 2 (node.mk true [1, 5] [])).MinDegree ∧
      tr1.Keys = .ok [1, 5] ∧
      ((BTree.mk 2 (node.mk true [1, 5] [])).t ≤ 4611686018427387904 →
        tr1.Validate = .ok none) ∧
      (NoRepair 2 3 (node.mk true [1, 5] []) → tr1 = BTree.mk 2 (node.mk true [1, 5] [])) :=
  delete_absent_frame 2 ⟨2, node.mk true [1, 5] []⟩ 3 [1, 5]
    ⟨⟨2, newLeaf⟩, [Op.insert 1, Op.insert 5], rfl, rfl⟩ rfl (by decide)

/-- Construction. `New(t)` returns an error and no tree if and only if `t < 2`; for
every `t ≥ 2` it returns a tree whose `MinDegree()` is `t` and whose root is an empty
leaf (`Keys()` is empty and `Search(k)` is false for every `k`); `Validate()` returns no
error on it when `t ≤ 2^62`, and the error of a root with too many keys for every larger
64-bit `t`. -/
theorem new_spec (t : Int) :
    (BTree.New t = none ↔ t < 2) ∧
    (2 ≤ t → ∃ tr, BTree.New t = some tr ∧ tr.MinDegree = t ∧
      tr.root = node.mk true [] [] ∧ tr.Keys = .ok [] ∧
      (∀ k, tr.Search k = .ok false) ∧
      (t ≤ 4611686018427387904 → tr.Validate = .ok none) ∧
      (4611686018427387904 < t → t ≤ 9223372036854775807 →
        tr.Validate = .ok (some .rootTooManyKeys))) := by
  constructor
  · unfold BTree.New
    by_cases h : t < 2
    · simp [h]
    · simp [h]
  · intro ht
    have hnew : BTree.New t = some ⟨t, newLeaf⟩ := by
      have : ¬ t < 2 := by omega
      simp [BTree.New, this]
    obtain ⟨_, h, hn, hs, _⟩ := BTree.New_inv t ht
    refine ⟨⟨t, newLeaf⟩, hnew, rfl, rfl, ?_, ?_, ?_, ?_⟩
    · rfl
    · intro k
      rw [BTree.Search_of_shaped _ h k hn hs]
      simp [newLeaf]
    · intro h62
      exact BTree.Validate_of_shaped _ h ht h62 hn hs
    · intro h62 h63
      exact BTree.Validate_leaf_large t [] [] h62 h63


/-! ## The validator and the invariants of the data model -/

namespace node

theorem mem_nodesList (m : node) (cs : List node) :
    m ∈ nodesList cs ↔ ∃ c ∈ cs, m ∈ nodes c := by
  induction cs with
  | nil => simp [nodesList]
  | cons c cs ih => simp [nodesList, ih]

theorem mem_leafDepthsList (d : Nat) (cs : List node) :
    d ∈ leafDepthsList cs ↔ ∃ c ∈ cs, d ∈ leafDepths c := by
  induction cs with
  | nil => simp [leafDepthsList]
  | cons c cs ih => simp [leafDepthsList, ih]

theorem self_mem_nodes (n : node) : n ∈ nodes n := by
  obtain ⟨l, ks, cs⟩ := n
  simp [nodes]

theorem mem_nodes_of_child (n c m : node) (hc : c ∈ n.children) (hm : m ∈ nodes c) :
    m ∈ nodes n := by
  obtain ⟨l, ks, cs⟩ := n
  simp only [nodes, List.mem_cons]
  exact Or.inr ((mem_nodesList m cs).mpr ⟨c, hc, hm⟩)

theorem mem_nodes_iff (n m : node) : m ∈ nodes n ↔ m = n ∨ ∃ c ∈ n.children, m ∈ nodes c := by
  obtain ⟨l, ks, cs⟩ := n
  simp [nodes, mem_nodesList]

theorem height_lt_of_child (n c : node) (hc : c ∈ n.children) : c.height < n.height := by
  obtain ⟨l, ks, cs⟩ := n
  simp only [children_mk] at hc
  have key : ∀ l : List node, c ∈ l → c.height ≤ heightList l := by
    intro l
    induction l with
    | nil => intro h; simp at h
    | cons d l ih =>
      intro h
      simp only [heightList]
      rcases List.mem_cons.mp h with h | h
      · subst h; exact le_max_left _ _
      · exact le_trans (ih h) (le_max_right _ _)
  have := key cs hc
  simp only [height]
  omega

/-- A property of the nodes of a well-shaped tree that follows from a condition
inherited by the children holds at every node. -/
theorem forall_nodes_of_shaped (t : Int) (Q P : node → Prop)
    (hstep : ∀ h n, Shaped t h n → Q n → P n ∧ ∀ c ∈ n.children, Q c) :
    ∀ h n, Shaped t h n → Q n → ∀ m ∈ nodes n, P m := by
  intro h n hn
  induction hn with
  | leaf ks hle =>
    intro hq m hm
    simp only [nodes, nodesList, List.mem_singleton] at hm
    subst hm
    exact (hstep 0 _ (Shaped.leaf ks hle) hq).1
  | inner ks cs h hle hl hmin hsh ih =>
    intro hq m hm
    have hs := hstep (h + 1) _ (Shaped.inner ks cs h hle hl hmin hsh) hq
    rcases (mem_nodes_iff _ m).mp hm with hm | ⟨c, hc, hm⟩
    · subst hm; exact hs.1
    · exact ih c hc (hs.2 c hc) m hm

theorem leafDepths_of_shaped (t : Int) (h : Nat) (n : node) (hn : Shaped t h n) :
    (∀ d ∈ leafDepths n, d = h) ∧ leafDepths n ≠ [] := by
  induction hn with
  | leaf ks _ => simp [leafDepths]
  | inner ks cs h _ hl _ _ ih =>
    constructor
    · intro d hd
      simp only [leafDepths, List.mem_map, mem_leafDepthsList] at hd
      obtain ⟨d0, ⟨c, hc, hd0⟩, rfl⟩ := hd
      rw [(ih c hc).1 d0 hd0]
    · cases cs with
      | nil => simp at hl
      | cons c cs =>
        have := (ih c (List.mem_cons_self _ _)).2
        simp only [leafDepths, leafDepthsList, ne_eq, List.map_eq_nil_iff, List.append_eq_nil,
          not_and]
        intro h0
        exact absurd h0 this

end node


namespace node

theorem child_sorted_of_shaped (t : Int) (h : Nat) (n : node) (hn : Shaped t h n)
    (hs : (flat n).Pairwise (· < ·)) :
    ∀ (i : Nat) (c : node), n.children[i]? = some c →
      (flat c).Pairwise (· < ·) ∧ Within (childMin none n.keys i) (childMax none n.keys i) (flat c) := by
  cases hn with
  | leaf ks _ => intro i c hc; simp at hc
  | inner ks cs h1 _ hl _ _ =>
    intro i c hc
    simp only [flat_inner] at hs
    exact children_of_flatKC_sorted ks cs none none hl hs ⟨by simp, by simp⟩ i c hc

theorem exists_index_of_mem {α : Type} (l : List α) (c : α) (hc : c ∈ l) :
    ∃ i : Nat, l[i]? = some c := by
  obtain ⟨j, hj, hjc⟩ := List.mem_iff_getElem.mp hc
  exact ⟨j, by rw [List.getElem?_eq_getElem hj, hjc]⟩

theorem mem_of_index {α : Type} (l : List α) (c : α) (i : Nat) (hc : l[i]? = some c) :
    c ∈ l := by
  rcases List.getElem?_eq_some_iff.mp hc with ⟨hlt, he⟩
  rw [← he]; exact List.getElem_mem hlt

/-- A well-shaped tree in strictly increasing symmetric order has the five invariants. -/
theorem spec_of_shaped (t : Int) (h : Nat) (n : node) (hn : Shaped t h n)
    (hs : (flat n).Pairwise (· < ·)) : SpecInvariants t n := by
  have hQ : ∀ h n, Shaped t h n → (flat n).Pairwise (· < ·) →
      ∀ c ∈ n.children, (flat c).Pairwise (· < ·) := by
    intro h n hn hs c hc
    obtain ⟨i, hi⟩ := exists_index_of_mem _ c hc
    exact (child_sorted_of_shaped t h n hn hs i c hi).1
  refine ⟨⟨hn.keys_le, ?_⟩, ?_, ?_, ?_, ?_⟩
  · intro m hm
    obtain ⟨c, hc, hmc⟩ := (mem_nodesList m _).mp hm
    cases hn with
    | leaf ks _ => simp at hc
    | inner ks cs h1 _ hl hmin hsh =>
      refine forall_nodes_of_shaped t (fun n => t - 1 ≤ (n.keys.length : Int))
        (fun n => t - 1 ≤ (n.keys.length : Int) ∧ (n.keys.length : Int) ≤ 2 * t - 1)
        ?_ h1 c (hsh c hc) (hmin c hc) m hmc
      intro h2 n2 hn2 hq
      refine ⟨⟨hq, hn2.keys_le⟩, ?_⟩
      cases hn2 with
      | leaf ks _ => intro c hc; simp at hc
      | inner ks cs h3 _ _ hmin2 _ => exact hmin2
  · refine forall_nodes_of_shaped t (fun n => (flat n).Pairwise (· < ·))
      (fun n => n.keys.Pairwise (· < ·)) ?_ h n hn hs
    intro h2 n2 hn2 hs2
    refine ⟨?_, hQ h2 n2 hn2 hs2⟩
    cases hn2 with
    | leaf ks _ => simpa using hs2
    | inner ks cs h3 _ hl _ _ =>
      simp only [flat_inner] at hs2
      exact List.Pairwise.sublist (keys_sublist_flatKC ks cs (by omega)) hs2
  · refine forall_nodes_of_shaped t (fun n => (flat n).Pairwise (· < ·))
      (fun n => ∀ (i : Nat) (c : node), n.children[i]? = some c → ∀ x ∈ c.allKeys,
        (∀ a, 0 < i → n.keys[i - 1]? = some a → a < x) ∧ (∀ b, n.keys[i]? = some b → x < b))
      ?_ h n hn hs
    intro h2 n2 hn2 hs2
    refine ⟨?_, hQ h2 n2 hn2 hs2⟩
    intro i c hc x hx
    obtain ⟨_, hw⟩ := child_sorted_of_shaped t h2 n2 hn2 hs2 i c hc
    have hcsh : ∃ h3, Shaped t h3 c := by
      cases hn2 with
      | leaf ks _ => simp at hc
      | inner ks cs h3 _ _ _ hsh => exact ⟨h3, hsh c (mem_of_index _ c i hc)⟩
    obtain ⟨h3, hc3⟩ := hcsh
    have hxf : x ∈ flat c := (mem_flat_iff_mem_allKeys t h3 c hc3 x).mpr hx
    constructor
    · intro a hi ha
      refine hw.1 a ?_ x hxf
      have : ¬ i = 0 := by omega
      simp [childMin, this, ha]
    · intro b hb
      refine hw.2 b ?_ x hxf
      simp [childMax, hb]
  · refine forall_nodes_of_shaped t (fun _ => True)
      (fun n => (n.leaf = true → n.children = []) ∧
        (n.leaf = false → n.children.length = n.keys.length + 1)) ?_ h n hn trivial
    intro h2 n2 hn2 _
    refine ⟨?_, fun _ _ => trivial⟩
    cases hn2 with
    | leaf ks _ => simp
    | inner ks cs h3 _ hl _ _ => simpa using hl
  · intro d1 hd1 d2 hd2
    have := (leafDepths_of_shaped t h n hn).1
    rw [this d1 hd1, this d2 hd2]

/-- The five invariants, inherited by subtrees, give a well-shaped tree in strictly
increasing symmetric order. -/
theorem shaped_of_invariants (t : Int) : ∀ (fuel : Nat) (n : node), n.height ≤ fuel →
    (∀ m ∈ nodes n, (m.keys.length : Int) ≤ 2 * t - 1) →
    (∀ m ∈ nodesList n.children, t - 1 ≤ (m.keys.length : Int)) →
    (∀ m ∈ nodes n, m.keys.Pairwise (· < ·)) →
    (∀ m ∈ nodes n, ∀ (i : Nat) (c : node), m.children[i]? = some c → ∀ x ∈ c.allKeys,
      (∀ a, 0 < i → m.keys[i - 1]? = some a → a < x) ∧ (∀ b, m.keys[i]? = some b → x < b)) →
    (∀ m ∈ nodes n, (m.leaf = true → m.children = []) ∧
      (m.leaf = false → m.children.length = m.keys.length + 1)) →
    (∀ d1 ∈ leafDepths n, ∀ d2 ∈ leafDepths n, d1 = d2) →
    ∃ h, Shaped t h n ∧ (flat n).Pairwise (· < ·) := by
  intro fuel
  induction fuel with
  | zero =>
    intro n hf
    obtain ⟨l, ks, cs⟩ := n
    simp [height] at hf
  | succ f ih =>
    intro n hf h1 h1c h2 h3 h4 h5
    have hself := self_mem_nodes n
    obtain ⟨lf, ks, cs⟩ := n
    cases lf with
    | true =>
      have hcs : cs = [] := by simpa using (h4 _ hself).1 rfl
      subst hcs
      exact ⟨0, Shaped.leaf ks (by simpa using h1 _ hself), by simpa using h2 _ hself⟩
    | false =>
      have hl : cs.length = ks.length + 1 := by simpa using (h4 _ hself).2 rfl
      have hchild : ∀ c ∈ cs, ∃ hc, Shaped t hc c ∧ (flat c).Pairwise (· < ·) := by
        intro c hc
        have hcn : ∀ m ∈ nodes c, m ∈ nodes (mk false ks cs) :=
          fun m hm => mem_nodes_of_child _ c m hc hm
        have hlt := height_lt_of_child (mk false ks cs) c hc
        refine ih c (by omega) (fun m hm => h1 m (hcn m hm)) ?_ (fun m hm => h2 m (hcn m hm))
          (fun m hm => h3 m (hcn m hm)) (fun m hm => h4 m (hcn m hm)) ?_
        · intro m hm
          apply h1c
          simp only [children_mk]
          obtain ⟨d, hd, hmd⟩ := (mem_nodesList m _).mp hm
          exact (mem_nodesList m cs).mpr ⟨c, hc, mem_nodes_of_child c d m hd hmd⟩
        · intro d1 hd1 d2 hd2
          have e1 : d1 + 1 ∈ leafDepths (mk false ks cs) := by
            simp only [leafDepths, List.mem_map, mem_leafDepthsList]
            exact ⟨d1, ⟨c, hc, hd1⟩, rfl⟩
          have e2 : d2 + 1 ∈ leafDepths (mk false ks cs) := by
            simp only [leafDepths, List.mem_map, mem_leafDepthsList]
            exact ⟨d2, ⟨c, hc, hd2⟩, rfl⟩
          have := h5 _ e1 _ e2
          omega
      have hne : cs ≠ [] := by intro h0; subst h0; simp at hl
      obtain ⟨c0, cs0, hcs0⟩ := List.exists_cons_of_ne_nil hne
      obtain ⟨h0, hc0s, _⟩ := hchild c0 (by rw [hcs0]; simp)
      have hall : ∀ c ∈ cs, Shaped t h0 c := by
        intro c hc
        obtain ⟨hc1, hcs1, _⟩ := hchild c hc
        obtain ⟨d, hd⟩ := List.exists_mem_of_ne_nil _ (leafDepths_of_shaped t hc1 c hcs1).2
        obtain ⟨d0, hd0⟩ := List.exists_mem_of_ne_nil _ (leafDepths_of_shaped t h0 c0 hc0s).2
        have e1 : d + 1 ∈ leafDepths (mk false ks cs) := by
          simp only [leafDepths, List.mem_map, mem_leafDepthsList]
          exact ⟨d, ⟨c, hc, hd⟩, rfl⟩
        have e2 : d0 + 1 ∈ leafDepths (mk false ks cs) := by
          simp only [leafDepths, List.mem_map, mem_leafDepthsList]
          exact ⟨d0, ⟨c0, by rw [hcs0]; simp, hd0⟩, rfl⟩
        have e3 := h5 _ e1 _ e2
        have e4 := (leafDepths_of_shaped t hc1 c hcs1).1 d hd
        have e5 := (leafDepths_of_shaped t h0 c0 hc0s).1 d0 hd0
        have : hc1 = h0 := by omega
        rw [← this]; exact hcs1
      have hshaped : Shaped t (h0 + 1) (mk false ks cs) := by
        refine Shaped.inner ks cs h0 (by simpa using h1 _ hself) hl ?_ hall
        intro c hc
        apply h1c
        simp only [children_mk]
        exact (mem_nodesList c cs).mpr ⟨c, hc, self_mem_nodes c⟩
      refine ⟨h0 + 1, hshaped, ?_⟩
      rw [flat_inner]
      refine (flatKC_sorted_of_children ks cs none none hl (by simpa using h2 _ hself)
        ⟨by simp, by simp⟩ ?_).1
      intro i c hic
      have hc := mem_of_index cs c i hic
      obtain ⟨_, _, hcsort⟩ := hchild c hc
      refine ⟨hcsort, ?_, ?_⟩
      · intro a ha x hx
        have hxa : x ∈ c.allKeys := (mem_flat_iff_mem_allKeys t h0 c (hall c hc) x).mp hx
        have hb := (h3 _ hself i c (by simpa using hic) x hxa).1
        simp only [childMin] at ha
        by_cases hi0 : i = 0
        · simp [hi0] at ha
        · rw [if_neg hi0] at ha
          exact hb a (by omega) (by simpa using ha)
      · intro b hb x hx
        have hxa : x ∈ c.allKeys := (mem_flat_iff_mem_allKeys t h0 c (hall c hc) x).mp hx
        have hb2 := (h3 _ hself i c (by simpa using hic) x hxa).2
        simp only [childMax] at hb
        cases hki : ks[i]? with
        | none => rw [hki] at hb; simp at hb
        | some b0 =>
          rw [hki] at hb
          simp only [Option.some.injEq] at hb
          subst hb
          exact hb2 b0 (by simpa using hki)

end node


namespace node

theorem validateLoop_total
    (rec : node → Option Int → Option Int → Int → Res (Option VErr × Int))
    (n : node) (lo hi : Option Int)
    (hl : n.children.length = n.keys.length + 1)
    (hrec : ∀ c ∈ n.children, ∀ lo1 hi1 l, ∃ r, rec c lo1 hi1 l = .ok r) :
    ∀ (turns i : Nat) (ld : Int), i + turns = n.children.length →
      ∃ r, validateLoop rec n lo hi turns (i : Int) ld = .ok r := by
  intro turns
  induction turns with
  | zero => intro i ld _; exact ⟨_, rfl⟩
  | succ turns ih =>
    intro i ld hit
    have hik : i ≤ n.keys.length := by omega
    have hic : i < n.children.length := by omega
    have hcast : ((i : Int) + 1) = ((i + 1 : Nat) : Int) := by push_cast; rfl
    obtain ⟨r, hr⟩ := hrec n.children[i] (List.getElem_mem hic)
      (childMin lo n.keys i) (childMax hi n.keys i) ld
    obtain ⟨e, l2⟩ := r
    simp only [validateLoop, childBounds_eq n lo hi i hik, Res.ok_bind, getAt_natCast,
      List.getElem?_eq_getElem hic, hcast, hr]
    cases e with
    | some e => exact ⟨_, rfl⟩
    | none => exact ih (i + 1) l2 (by omega)

/-- With a budget of at least the height of the subtree `validateRec` always returns. -/
theorem validateRec_total (t : Int) : ∀ (fuel : Nat) (n : node) (isRoot : Bool)
    (lo hi : Option Int) (depth ld : Int), n.height ≤ fuel →
    ∃ r, validateRec fuel n t isRoot lo hi depth ld = .ok r := by
  intro fuel
  induction fuel with
  | zero =>
    intro n isRoot lo hi depth ld hf
    obtain ⟨l, ks, cs⟩ := n
    simp [height] at hf
  | succ f ih =>
    intro n isRoot lo hi depth ld hf
    simp only [validateRec]
    by_cases h1 : t < 2
    · rw [if_pos h1]; exact ⟨_, rfl⟩
    rw [if_neg h1]
    by_cases h2 : isRoot = true ∧ (n.keys.length : Int) > maxKeys t
    · rw [if_pos h2]; exact ⟨_, rfl⟩
    rw [if_neg h2]
    by_cases h3 : ¬ isRoot = true ∧
        ((n.keys.length : Int) < t - 1 ∨ (n.keys.length : Int) > maxKeys t)
    · rw [if_pos h3]; exact ⟨_, rfl⟩
    rw [if_neg h3]
    by_cases h4 : ¬ keysIncreasing n.keys = true
    · rw [if_pos h4]; exact ⟨_, rfl⟩
    rw [if_neg h4]
    by_cases h5 : Option.any (fun lo => n.keys.any fun k => decide (k ≤ lo)) lo = true
    · rw [if_pos h5]; exact ⟨_, rfl⟩
    rw [if_neg h5]
    by_cases h6 : Option.any (fun hi => n.keys.any fun k => decide (k ≥ hi)) hi = true
    · rw [if_pos h6]; exact ⟨_, rfl⟩
    rw [if_neg h6]
    by_cases h7 : n.leaf = true
    · rw [if_pos h7]
      by_cases h8 : n.children.length ≠ 0
      · rw [if_pos h8]; exact ⟨_, rfl⟩
      rw [if_neg h8]
      by_cases h9 : ld = -1
      · rw [if_pos h9]; exact ⟨_, rfl⟩
      rw [if_neg h9]
      by_cases h10 : ld ≠ depth
      · rw [if_pos h10]; exact ⟨_, rfl⟩
      rw [if_neg h10]; exact ⟨_, rfl⟩
    rw [if_neg h7]
    by_cases h8 : n.children.length ≠ n.keys.length + 1
    · rw [if_pos h8]; exact ⟨_, rfl⟩
    rw [if_neg h8]
    have := validateLoop_total
      (fun c lo hi ld => validateRec f c t false lo hi (depth + 1) ld) n lo hi
      (by simpa using h8)
      (by
        intro c hc lo1 hi1 l
        have := height_lt_of_child n c hc
        exact ih c false lo1 hi1 (depth + 1) l (by omega))
      n.children.length 0 ld (by simp)
    simpa using this

end node

/-- `Validate()` always returns: an error or none. -/
theorem Validate_total (tr : BTree) : ∃ e, tr.Validate = .ok e := by
  unfold BTree.Validate
  by_cases h1 : tr.t < 2
  · rw [if_pos h1]; exact ⟨_, rfl⟩
  rw [if_neg h1]
  obtain ⟨r, hr⟩ := node.validateRec_total tr.t tr.root.height tr.root true none none 0 (-1)
    (le_refl _)
  exact ⟨r.1, by simp [node.validate, hr]⟩

/-- `Validate` and the invariants of the data model. For every `t ≥ 2` and every tree,
whatever its node structure, `Validate()` returns (an error or none); when it returns no
error, (1) the root has at most `2t-1` keys and every other node between `t-1` and
`2t-1`, (2) the keys of every node are strictly increasing, (3) every key in the subtree
of child `i` of a node lies strictly between keys `i-1` and `i` of that node, (4) every
leaf has no children and every internal node has `len(keys)+1` children, and (5) all
leaves are at the same depth; and when `t ≤ 2^62`, it returns no error on every tree
with these five properties. -/
theorem validate_iff_invariants (tr : BTree) (ht : 2 ≤ tr.t) :
    (∃ e, tr.Validate = .ok e) ∧
    (tr.Validate = .ok none → SpecInvariants tr.t tr.root) ∧
    (tr.t ≤ 4611686018427387904 → SpecInvariants tr.t tr.root →
      tr.Validate = .ok none) := by
  refine ⟨Validate_total tr, ?_, ?_⟩
  · intro hv
    obtain ⟨_, h, hn, hs⟩ := BTree.shaped_of_Validate tr hv
    exact node.spec_of_shaped tr.t h tr.root hn hs
  · rintro h62 ⟨⟨h1r, h1c⟩, h2, h3, h4, h5⟩
    have h1 : ∀ m ∈ tr.root.nodes, (m.keys.length : Int) ≤ 2 * tr.t - 1 := by
      intro m hm
      rcases (node.mem_nodes_iff _ m).mp hm with hm | ⟨c, hc, hm⟩
      · subst hm; exact h1r
      · exact (h1c m ((node.mem_nodesList m _).mpr ⟨c, hc, hm⟩)).2
    obtain ⟨h, hn, hs⟩ := node.shaped_of_invariants tr.t tr.root.height tr.root (le_refl _)
      h1 (fun m hm => (h1c m hm).1) h2 h3 h4 h5
    exact BTree.Validate_of_shaped tr h ht h62 hn hs

/-- Instance: the tree `tree1234` of degree 2. -/
theorem validate_iff_invariants_witness :
    (2 : Int) ≤ tree1234.t ∧ (∃ e, tree1234.Validate = .ok e) ∧
    (tree1234.Validate = .ok none → SpecInvariants tree1234.t tree1234.root) ∧
    (tree1234.t ≤ 4611686018427387904 → SpecInvariants tree1234.t tree1234.root →
      tree1234.Validate = .ok none) :=
  ⟨by decide, validate_iff_invariants tree1234 (by decide)⟩


/-! ## Enumeration, emptying, totality and the root (C11, C12, C13, C19, C20) -/

namespace node

/-- On children that each enumerate their stored keys, the symmetric order of an
internal node is a rearrangement of its keys followed by the keys of its subtrees. -/
theorem flatKC_perm : ∀ (ks : List Int) (cs : List node), cs.length = ks.length + 1 →
    (∀ c ∈ cs, (flat c).Perm (allKeys c)) → (flatKC ks cs).Perm (ks ++ allKeysList cs) := by
  intro ks
  induction ks with
  | nil =>
    intro cs hl hc
    match cs, hl with
    | [c], _ =>
      simpa [flatKC, allKeysList] using hc c (by simp)
  | cons k ks ih =>
    intro cs hl hc
    match cs, hl with
    | c :: cs1, hl =>
      have h1 := ih cs1 (by simpa using hl) (fun d hd => hc d (by simp [hd]))
      have h2 := hc c (by simp)
      simp only [flatKC_cons_cons, allKeysList, List.cons_append]
      refine List.perm_middle.trans (List.Perm.cons k ?_)
      refine (List.Perm.append h2 h1).trans ?_
      rw [← List.append_assoc, ← List.append_assoc]
      exact List.Perm.append_right _ List.perm_append_comm

/-- The symmetric order of a well-shaped subtree holds each stored key occurrence once. -/
theorem flat_perm_allKeys (t : Int) : ∀ (h : Nat) (n : node), Shaped t h n →
    (flat n).Perm (allKeys n) := by
  intro h
  induction h with
  | zero =>
    intro n hn
    cases hn with
    | leaf ks hk => simp [allKeys, allKeysList]
  | succ h ih =>
    intro n hn
    cases hn with
    | inner ks cs _ hk hl hmin hsh =>
      simpa [allKeys] using flatKC_perm ks cs hl (fun c hc => ih c (hsh c hc))

end node

/-- Folding insertions into the reference set adds exactly the inserted keys. -/
theorem foldl_onSet_insert (ins : List Int) : ∀ (S : Finset Int) (x : Int),
    x ∈ (ins.map Op.insert).foldl Op.onSet S ↔ x ∈ S ∨ x ∈ ins := by
  induction ins with
  | nil => intro S x; simp
  | cons k ins ih =>
    intro S x
    simp only [List.map_cons, List.foldl_cons, ih, Op.onSet, Finset.mem_union,
      Finset.mem_singleton, List.mem_cons]
    tauto

/-- Folding deletions into the reference set removes exactly the deleted keys. -/
theorem foldl_onSet_delete (dels : List Int) : ∀ (S : Finset Int) (x : Int),
    x ∈ (dels.map Op.delete).foldl Op.onSet S ↔ x ∈ S ∧ x ∉ dels := by
  induction dels with
  | nil => intro S x; simp
  | cons k dels ih =>
    intro S x
    simp only [List.map_cons, List.foldl_cons, ih, Op.onSet, Finset.mem_sdiff,
      Finset.mem_singleton, List.mem_cons]
    tauto

/-- A tree built by the public operations that stores no key is the empty leaf. -/
theorem root_of_flat_nil (tr : BTree) (hinv : TreeInv tr) (hf : tr.root.flat = []) :
    tr.root = node.mk true [] [] := by
  obtain ⟨_, h, hn, _, hroot⟩ := hinv
  obtain ⟨t, root⟩ := tr
  simp only at hn hroot hf ⊢
  cases hn with
  | leaf ks hk =>
    simp only [node.flat_leaf] at hf
    rw [hf]
  | inner ks cs _ hk hl hmin hsh =>
    exfalso
    simp only [node.leaf_mk, node.keys_mk, Bool.false_eq_true, false_or] at hroot
    simp only [node.flat_inner] at hf
    have hsub := node.keys_sublist_flatKC ks cs (by omega)
    rw [hf] at hsub
    have := List.sublist_nil.mp hsub
    rw [this] at hroot
    simp at hroot

/-- C11 (ordered enumeration). On every tree on which `Validate()` returns no error (so
its degree is at least 2), `Keys()` returns a list that is strictly ascending, hence
free of duplicates, and that is a rearrangement of the keys stored in the nodes of the
tree: every stored key occurrence appears in it exactly once. -/
theorem keys_sorted_and_complete (tr : BTree) (hv : tr.Validate = .ok none) :
    2 ≤ tr.t ∧ ∃ l, tr.Keys = .ok l ∧ l.Pairwise (· < ·) ∧ l.Nodup ∧
      l.Perm tr.root.allKeys ∧ tr.root.allKeys.Nodup := by
  obtain ⟨ht, h, hn, hs⟩ := BTree.shaped_of_Validate tr hv
  have hp := node.flat_perm_allKeys tr.t h tr.root hn
  have hnd : (tr.root.flat).Nodup := hs.imp (fun hab => ne_of_lt hab)
  exact ⟨ht, tr.root.flat, BTree.Keys_of_shaped tr h hn, hs, hnd, hp, hp.nodup_iff.mp hnd⟩

/-- Instance of C11: the tree `tree1234` of degree 2. -/
theorem keys_sorted_and_complete_witness :
    tree1234.Validate = .ok none ∧ 2 ≤ tree1234.t ∧
    ∃ l, tree1234.Keys = .ok l ∧ l.Pairwise (· < ·) ∧ l.Nodup ∧
      l.Perm tree1234.root.allKeys ∧ tree1234.root.allKeys.Nodup :=
  ⟨by decide, keys_sorted_and_complete tree1234 (by decide)⟩

/-- Degenerate to empty. For every `t ≥ 2`, every finite list `ins` of integer keys and
every list `dels` in which each inserted key occurs (the inserted keys in any order,
with or without repetitions), inserting all of `ins` into `New(t)` and then deleting all
of `dels` returns a tree whose `Keys()` is empty and whose root is a leaf with zero keys
and no children; `Validate()` returns no error on it when `t ≤ 2^62`, and the error of a
root with too many keys for every larger 64-bit `t`. -/
theorem insert_all_delete_all (t : Int) (ht : 2 ≤ t) (ins dels : List Int)
    (hcover : ∀ k ∈ ins, k ∈ dels) :
    ∃ tr0 tr, BTree.New t = some tr0 ∧
      tr0.run (ins.map Op.insert ++ dels.map Op.delete) = .ok tr ∧
      tr.Keys = .ok [] ∧ tr.root = node.mk true [] [] ∧
      (t ≤ 4611686018427387904 → tr.Validate = .ok none) ∧
      (4611686018427387904 < t → t ≤ 9223372036854775807 →
        tr.Validate = .ok (some .rootTooManyKeys)) := by
  obtain ⟨tr, h1, hinv, ht1, hmem⟩ :=
    BTree.run_from_New t ht (ins.map Op.insert ++ dels.map Op.delete)
  have hnew : BTree.New t = some ⟨t, newLeaf⟩ := by
    have : ¬ t < 2 := by omega
    simp [BTree.New, this]
  have hf : tr.root.flat = [] := by
    apply List.eq_nil_iff_forall_not_mem.mpr
    intro x hx
    have := (hmem x).mp hx
    rw [setAfter, List.foldl_append, foldl_onSet_delete, foldl_onSet_insert] at this
    rcases this with ⟨h2 | h2, h3⟩
    · simp at h2
    · exact h3 (hcover x h2)
  have hroot := root_of_flat_nil tr hinv hf
  obtain ⟨ht2, h, hn, hs, _⟩ := hinv
  refine ⟨⟨t, newLeaf⟩, tr, hnew, h1, ?_, hroot,
    fun h62 => BTree.Validate_of_shaped tr h ht2 (by rw [ht1]; exact h62) hn hs, ?_⟩
  · rw [BTree.Keys_of_shaped tr h hn, hf]
  · intro h62 h63
    obtain ⟨t1, root⟩ := tr
    simp only at ht1 hroot
    subst ht1 hroot
    exact BTree.Validate_leaf_large t1 [] [] h62 h63

/-- Instance: `New(2)`, insert 5, 7, 5 and delete 7, 5. -/
theorem insert_all_delete_all_witness :
    (2 : Int) ≤ 2 ∧ (∀ k ∈ [5, 7, 5], k ∈ [7, (5 : Int)]) ∧
    ∃ tr0 tr, BTree.New 2 = some tr0 ∧
      tr0.run ([5, 7, 5].map Op.insert ++ [7, 5].map Op.delete) = .ok tr ∧
      tr.Keys = .ok [] ∧ tr.root = node.mk true [] [] ∧
      ((2 : Int) ≤ 4611686018427387904 → tr.Validate = .ok none) ∧
      (4611686018427387904 < (2 : Int) → (2 : Int) ≤ 9223372036854775807 →
        tr.Validate = .ok (some .rootTooManyKeys)) :=
  ⟨by decide, by decide, insert_all_delete_all 2 (by decide) [5, 7, 5] [7, 5] (by decide)⟩

/-- C13 (totality of the public operations). On every tree reachable from `New(t)`,
`t ≥ 2`, by `Insert`/`Delete` calls and for every integer `k`, the calls `Search(k)`,
`Insert(k)`, `Delete(k)` and `Keys()` return a result: no slice access is out of range
(an out-of-range access is the outcome `panic`) and the recursion ends (within the
height of the tree, and equally with any larger depth budget). -/
theorem public_operations_total (t : Int) (tr : BTree) (k : Int) (hr : Reachable t tr) :
    (∃ b, tr.Search k = .ok b) ∧ (∃ tr1, tr.Insert k = .ok tr1) ∧
    (∃ tr1, tr.Delete k = .ok tr1) ∧ (∃ l, tr.Keys = .ok l) ∧
    ∀ fuel, tr.root.height ≤ fuel →
      (∃ r, tr.root.search fuel k = .ok r) ∧ (∃ n1, tr.root.delete fuel k tr.t = .ok n1) ∧
      (∃ l, tr.root.inorder fuel [] = .ok l) := by
  obtain ⟨hinv, _⟩ := BTree.inv_of_reachable t tr hr
  have hinv0 := hinv
  obtain ⟨ht, h, hn, hs, hroot⟩ := hinv
  refine ⟨⟨_, BTree.Search_of_shaped tr h k hn hs⟩, ?_, ?_,
    ⟨_, BTree.Keys_of_shaped tr h hn⟩, ?_⟩
  · by_cases hk : k ∈ tr.root.flat
    · exact ⟨tr, BTree.Insert_present tr k hinv0 hk⟩
    · obtain ⟨tr1, h1, _⟩ := BTree.Insert_absent tr k hinv0 hk
      exact ⟨tr1, h1⟩
  · obtain ⟨tr1, h1, _⟩ := BTree.Delete_inv tr k hinv0
    exact ⟨tr1, h1⟩
  · intro fuel hfuel
    have hlt : h < fuel := by rw [hn.height_eq] at hfuel; omega
    refine ⟨?_, ?_, ?_⟩
    · obtain ⟨i, hi⟩ := node.search_spec tr.t fuel h tr.root k hn hs hlt
      exact ⟨_, hi⟩
    · obtain ⟨n1, h1, _⟩ := node.delete_spec tr.t ht fuel h tr.root k hn hs hroot hlt
      exact ⟨n1, h1⟩
    · exact ⟨_, node.inorder_eq tr.t fuel h tr.root [] hn hlt⟩

/-- Instance of C13: the tree reached from `New(2)` by inserting 1, 2, 3, 4, and the
key 3. -/
theorem public_operations_total_witness :
    Reachable 2 tree1234 ∧
    (∃ b, tree1234.Search 3 = .ok b) ∧ (∃ tr1, tree1234.Insert 3 = .ok tr1) ∧
    (∃ tr1, tree1234.Delete 3 = .ok tr1) ∧ (∃ l, tree1234.Keys = .ok l) ∧
    ∀ fuel, tree1234.root.height ≤ fuel →
      (∃ r, tree1234.root.search fuel 3 = .ok r) ∧
      (∃ n1, tree1234.root.delete fuel 3 tree1234.t = .ok n1) ∧
      (∃ l, tree1234.root.inorder fuel [] = .ok l) :=
  ⟨⟨⟨2, newLeaf⟩, [Op.insert 1, Op.insert 2, Op.insert 3, Op.insert 4], rfl, rfl⟩,
    public_operations_total 2 tree1234 3
      ⟨⟨2, newLeaf⟩, [Op.insert 1, Op.insert 2, Op.insert 3, Op.insert 4], rfl, rfl⟩⟩


/-! ## The root after a deletion (C19) and deletion on validated trees (C20) -/

/-- C19 (no dangling internal root). On every tree reachable from `New(t)`, `t ≥ 2`, by
a finite sequence of `Insert`/`Delete` calls, the root is a leaf or holds at least one
key. Moreover, whenever the recursive deletion of a key `k` from the root of such a tree
leaves the root an internal node with zero keys, that root has exactly one child,
`Delete(k)` returns the tree whose root is this child, and the height of the tree has
decreased by exactly one. -/
theorem no_dangling_internal_root (t : Int) (tr : BTree) (hr : Reachable t tr) :
    (tr.root.leaf = true ∨ 1 ≤ tr.root.keys.length) ∧
    ∀ (k : Int) (root1 : node), tr.root.delete tr.root.height k tr.t = .ok root1 →
      root1.keys.length = 0 → root1.leaf = false →
      ∃ c, root1.children = [c] ∧ tr.Delete k = .ok ⟨tr.t, c⟩ ∧
        c.height + 1 = tr.root.height := by
  obtain ⟨hinv, _⟩ := BTree.inv_of_reachable t tr hr
  obtain ⟨ht, h, hn, hs, hroot⟩ := hinv
  refine ⟨hroot, ?_⟩
  intro k root1 hdel hk0 hlf
  obtain ⟨n1, hn1, hn1s, _, _⟩ :=
    node.delete_spec tr.t ht tr.root.height h tr.root k hn hs hroot (by rw [hn.height_eq]; omega)
  rw [hdel] at hn1
  cases hn1
  obtain ⟨lf, ks, cs⟩ := root1
  simp only [node.keys_mk, node.leaf_mk] at hk0 hlf
  subst hlf
  have hks : ks = [] := List.length_eq_zero.mp hk0
  subst hks
  cases hn1s with
  | inner _ _ h0 hk hl hmin hsh =>
    match cs, hl with
    | [c], _ =>
      refine ⟨c, rfl, ?_, ?_⟩
      · simp [BTree.Delete, hdel]
      · have hc := (hsh c (by simp)).height_eq
        rw [hn.height_eq, hc]

/-- Instance of C19: the tree `tree123`, reached from `New(2)` by inserting 1, 2, 3, 4
and deleting 4; deleting 1 merges the two leaves and empties the root. -/
theorem no_dangling_internal_root_witness :
    Reachable 2 tree123 ∧
    (tree123.root.leaf = true ∨ 1 ≤ tree123.root.keys.length) ∧
    ∀ (k : Int) (root1 : node),
      tree123.root.delete tree123.root.height k tree123.t = .ok root1 →
      root1.keys.length = 0 → root1.leaf = false →
      ∃ c, root1.children = [c] ∧ tree123.Delete k = .ok ⟨tree123.t, c⟩ ∧
        c.height + 1 = tree123.root.height :=
  ⟨⟨⟨2, newLeaf⟩, [Op.insert 1, Op.insert 2, Op.insert 3, Op.insert 4, Op.delete 4],
      rfl, rfl⟩,
    no_dangling_internal_root 2 tree123
      ⟨⟨2, newLeaf⟩, [Op.insert 1, Op.insert 2, Op.insert 3, Op.insert 4, Op.delete 4],
        rfl, rfl⟩⟩

/-- The deletion of 1 from `tree123` empties the internal root, and `Delete(1)` returns
the merged leaf as the new root. -/
theorem tree123_delete_shrinks :
    tree123.root.delete tree123.root.height 1 tree123.t =
      .ok (node.mk false [] [node.mk true [2, 3] []]) ∧
    tree123.Delete 1 = .ok ⟨2, node.mk true [2, 3] []⟩ :=
  ⟨rfl, rfl⟩

/-- C20, refuted as stated: the tree of degree 2 whose root is an internal node with no
key and the single child `[1]` passes `Validate()`, and yet `Delete(1)` and `Delete(5)`
on it take an out-of-range index (the repair before the descent finds no right sibling
and merges with the child at index `-1`). -/
theorem validate_accepts_delete_panics :
    emptyInternalRootTree.Validate = .ok none ∧
    emptyInternalRootTree.Delete 1 = .panic ∧
    emptyInternalRootTree.Delete 5 = .panic :=
  ⟨by decide, rfl, rfl⟩

/-- `Delete` on a tree whose root is an internal node with no key over a single child
holding exactly `t-1` keys: the repair before the descent finds no sibling on either
side and merges with the child at index `-1`. -/
theorem Delete_empty_internal_panics (t : Int) (c : node) (k : Int)
    (hc : (c.keys.length : Int) = t - 1) :
    (BTree.mk t (node.mk false [] [c])).Delete k = .panic := by
  have hs : searchInts [] k = 0 := by
    obtain ⟨kl, kr, h1, h2, _, _⟩ := searchInts_split [] k (by simp)
    have : kl = [] := by
      cases kl with
      | nil => rfl
      | cons a l => simp at h1
    rw [h2, this]; rfl
  have hens := node.ensure_mergePrev (node.mk false [] [c]) 0 t (by intro h; omega)
    (by simp)
  have hdel : ∀ fuel, node.delete (fuel + 1) (node.mk false [] [c]) k t = .panic := by
    intro fuel
    simp [node.delete, hs, hc, hens, node.mergeChildren, getAt]
  simp only [BTree.Delete, node.height]
  rw [hdel]
  rfl

/-- `Delete` on a tree whose root is an internal node with no key over a single child
holding another number of keys than `t-1`: the deletion descends into the child, which
then becomes the root. -/
theorem Delete_empty_internal_descends (t : Int) (c : node) (k : Int)
    (hc : (c.keys.length : Int) ≠ t - 1) :
    (BTree.mk t (node.mk false [] [c])).Delete k =
      (do let c2 ← c.delete c.height k t; pure ⟨t, c2⟩) := by
  have hs : searchInts [] k = 0 := by
    obtain ⟨kl, kr, h1, h2, _, _⟩ := searchInts_split [] k (by simp)
    have : kl = [] := by
      cases kl with
      | nil => rfl
      | cons a l => simp at h1
    rw [h2, this]; rfl
  have hh : node.heightList [c] = c.height := by simp [node.heightList]
  simp only [BTree.Delete, node.height, hh]
  simp only [node.delete, hs, node.keys_mk, node.leaf_mk, node.children_mk, List.length_nil,
    Nat.cast_zero, lt_self_iff_false, false_and, if_false, Bool.false_eq_true,
    getAt_cons_zero, Res.ok_bind, hc, Res.pure_eq_ok]
  cases hd : node.delete c.height c k t with
  | ok c2 => simp [setAt]
  | panic => rfl
  | outOfFuel => rfl

/-- C20, amended. On every tree on which `Validate()` returns no error (whether or not it
was built by `Insert`/`Delete`) and for every integer `k`: if the root is a leaf, or
holds at least one key, or its children hold at least `t` keys each, then `Delete(k)`
returns a tree, without an out-of-range index, and `Validate()` returns no error on that
tree; otherwise, that is when the root is an internal node with zero keys over a child
holding exactly `t-1` keys, `Delete(k)` takes an out-of-range index. -/
theorem delete_after_validate (tr : BTree) (k : Int) (hv : tr.Validate = .ok none) :
    ((tr.root.leaf = true ∨ 1 ≤ tr.root.keys.length ∨
        ∀ c ∈ tr.root.children, tr.t ≤ (c.keys.length : Int)) →
      ∃ tr1, tr.Delete k = .ok tr1 ∧ tr1.Validate = .ok none) ∧
    (¬ (tr.root.leaf = true ∨ 1 ≤ tr.root.keys.length ∨
        ∀ c ∈ tr.root.children, tr.t ≤ (c.keys.length : Int)) →
      tr.Delete k = .panic) := by
  obtain ⟨ht, h, hn, hs⟩ := BTree.shaped_of_Validate tr hv
  obtain ⟨hb, hbig⟩ := BTree.bound_of_Validate tr hv
  obtain ⟨t, root⟩ := tr
  simp only at ht hn hs hb hbig ⊢
  constructor
  · intro hgood
    by_cases hroot : root.leaf = true ∨ 1 ≤ root.keys.length
    · by_cases h62 : t ≤ 4611686018427387904
      · obtain ⟨tr1, h1, ⟨ht1, h1h, hn1, hs1, _⟩, htt, _⟩ :=
          BTree.Delete_inv ⟨t, root⟩ k ⟨ht, h, hn, hs, hroot⟩
        exact ⟨tr1, h1, BTree.Validate_of_shaped tr1 h1h ht1 (by rw [htt]; exact h62) hn1 hs1⟩
      · have hleaf : root.leaf = true := by
          cases hl : root.leaf with
          | true => rfl
          | false => exact absurd (hbig hl) h62
        cases hn with
        | inner ks cs _ _ _ _ _ => simp at hleaf
        | leaf ks hk =>
          obtain ⟨n1, hdel, hn1s, _, hn1f⟩ := node.delete_spec t ht
            (node.mk true ks []).height 0 (node.mk true ks []) k (Shaped.leaf ks hk) hs
            (Or.inl rfl) (by simp [node.height])
          cases hn1s with
          | leaf ks1 hk1 =>
            simp only [node.flat_leaf] at hn1f hs
            simp only [node.keys_mk] at hb
            refine ⟨⟨t, node.mk true ks1 []⟩, by simp [BTree.Delete, hdel], ?_⟩
            apply BTree.Validate_leaf t ks1 ht
            · have : ks1.length ≤ ks.length := by rw [hn1f]; exact List.length_filter_le _ _
              omega
            · rw [hn1f]; exact List.Pairwise.filter _ hs
    · have hl : root.leaf = false := by
        cases hl : root.leaf with
        | true => exact absurd (Or.inl hl) hroot
        | false => rfl
      have h62 := hbig hl
      have hall : ∀ c ∈ root.children, t ≤ (c.keys.length : Int) := by
        rcases hgood with hg | hg | hg
        · exact absurd (Or.inl hg) hroot
        · exact absurd (Or.inr hg) hroot
        · exact hg
      cases hn with
      | leaf ks hk => simp at hl
      | inner ks cs h0 hk hlen hmin hsh =>
        have hks : ks = [] := by
          cases ks with
          | nil => rfl
          | cons a l => exact absurd (Or.inr (by simp)) hroot
        subst hks
        match cs, hlen with
        | [c], _ =>
          have hct := hall c (by simp)
          have hcs := hsh c (by simp)
          have hsc : (node.flat c).Pairwise (· < ·) := by simpa using hs
          obtain ⟨c2, hdel, hc2s, hc2k, hc2f⟩ := node.delete_spec t ht c.height h0 c k hcs hsc
            (Or.inr (by omega)) (by rw [hcs.height_eq]; omega)
          refine ⟨⟨t, c2⟩, ?_, ?_⟩
          · rw [Delete_empty_internal_descends t c k (by omega), hdel]
            rfl
          · exact BTree.Validate_of_shaped ⟨t, c2⟩ h0 ht h62 hc2s
              (by simp only; rw [hc2f]; exact List.Pairwise.filter _ hsc)
  · intro hbad
    have hl : root.leaf = false := by
      cases hl : root.leaf with
      | true => exact absurd (Or.inl hl) hbad
      | false => rfl
    cases hn with
    | leaf ks hk => simp at hl
    | inner ks cs h0 hk hlen hmin hsh =>
      have hks : ks = [] := by
        cases ks with
        | nil => rfl
        | cons a l => exact absurd (Or.inr (Or.inl (by simp))) hbad
      subst hks
      match cs, hlen with
      | [c], _ =>
        have h1 := hmin c (by simp)
        have h2 : (c.keys.length : Int) < t := by
          by_contra hge
          apply hbad
          right; right
          intro d hd
          simp only [node.children_mk, List.mem_singleton] at hd
          subst hd
          omega
        exact Delete_empty_internal_panics t c k (by omega)

/-- Instance of the amended C20: the tree `emptyInternalRootWideTree`, whose root is an
internal node with no key over the leaf `[1, 2]`, and the key 1. -/
theorem delete_after_validate_witness :
    emptyInternalRootWideTree.Validate = .ok none ∧
    ((emptyInternalRootWideTree.root.leaf = true ∨
        1 ≤ emptyInternalRootWideTree.root.keys.length ∨
        ∀ c ∈ emptyInternalRootWideTree.root.children,
          emptyInternalRootWideTree.t ≤ (c.keys.length : Int)) →
      ∃ tr1, emptyInternalRootWideTree.Delete 1 = .ok tr1 ∧ tr1.Validate = .ok none) ∧
    (¬ (emptyInternalRootWideTree.root.leaf = true ∨
        1 ≤ emptyInternalRootWideTree.root.keys.length ∨
        ∀ c ∈ emptyInternalRootWideTree.root.children,
          emptyInternalRootWideTree.t ≤ (c.keys.length : Int)) →
      emptyInternalRootWideTree.Delete 1 = .panic) :=
  ⟨by decide, delete_after_validate emptyInternalRootWideTree 1 (by decide)⟩

/-- The tree `emptyInternalRootWideTree` passes `Validate()`, its root is an internal node
with no key, and `Delete(1)` and `Delete(5)` return valid trees. -/
theorem wide_tree_delete_evaluated :
    emptyInternalRootWideTree.Validate = .ok none ∧
    emptyInternalRootWideTree.Delete 1 = .ok ⟨2, node.mk true [2] []⟩ ∧
    (BTree.mk 2 (node.mk true [2] [])).Validate = .ok none ∧
    emptyInternalRootWideTree.Delete 5 = .ok ⟨2, node.mk true [1, 2] []⟩ ∧
    (BTree.mk 2 (node.mk true [1, 2] [])).Validate = .ok none :=
  ⟨by decide, rfl, by decide, rfl, by decide⟩


/-! ## The first root split (C14) -/

namespace node

/-- Inserting an absent key into a leaf with sorted keys puts it at its sorted position. -/
theorem insertNonFull_leaf (fuel : Nat) (l : List Int) (cs : List node) (k t : Int)
    (hs : l.Pairwise (· < ·)) (hk : k ∉ l) :
    ∃ A B, l = A ++ B ∧ (∀ a ∈ A, a < k) ∧ (∀ b ∈ B, k < b) ∧
      insertAt l (searchInts l k) k = .ok (A ++ k :: B) ∧
      insertNonFull (fuel + 1) (mk true l cs) k t = .ok (mk true (A ++ k :: B) cs) := by
  rcases searchInts_cases l k hs with ⟨kl, kr, hl, _⟩ | ⟨kl, kr, hl, hi, hA, hB, _⟩
  · exact absurd (by rw [hl]; simp) hk
  · have hins := insertAt_append kl kr (searchInts l k) k hi
    rw [← hl] at hins
    refine ⟨kl, kr, hl, hA, hB, hins, ?_⟩
    simp [insertNonFull, hins]

end node

namespace BTree

/-- `Insert` of an absent key into a tree whose root is a leaf that is not full. -/
theorem Insert_leaf_root (t : Int) (l : List Int) (k : Int)
    (hs : l.Pairwise (· < ·)) (hk : k ∉ l) (hlen : (l.length : Int) < 2 * t - 1) :
    ∃ A B, l = A ++ B ∧ (∀ a ∈ A, a < k) ∧ (∀ b ∈ B, k < b) ∧
      (BTree.mk t (node.mk true l [])).Insert k = .ok ⟨t, node.mk true (A ++ k :: B) []⟩ := by
  have hn : Shaped t 0 (node.mk true l []) := Shaped.leaf l (by omega)
  have hsearch := Search_of_shaped ⟨t, node.mk true l []⟩ 0 k hn (by simpa using hs)
  obtain ⟨A, B, hl, hA, hB, _, hins⟩ := node.insertNonFull_leaf 0 l [] k t hs hk
  refine ⟨A, B, hl, hA, hB, ?_⟩
  have hnf : ¬ (l.length : Int) = 2 * t - 1 := by omega
  have hh : (node.mk true l []).height = 1 := by simp [node.height, node.heightList]
  simp [Insert, hsearch, hk, hnf, hh, hins]

/-- Inserting distinct absent keys into a leaf root that has room for all of them keeps
the root a leaf, holding the old and the new keys in increasing order. -/
theorem run_inserts_leaf (t : Int) (pre : List Int) : ∀ (l0 : List Int),
    l0.Pairwise (· < ·) → (l0 ++ pre).Nodup →
    ((l0.length : Int) + pre.length ≤ 2 * t - 1) →
    ∃ l, (BTree.mk t (node.mk true l0 [])).run (pre.map Op.insert) =
        .ok ⟨t, node.mk true l []⟩ ∧ l.Pairwise (· < ·) ∧ l.Perm (l0 ++ pre) := by
  induction pre with
  | nil =>
    intro l0 hs _ _
    exact ⟨l0, rfl, hs, by simp⟩
  | cons k pre ih =>
    intro l0 hs hnd hlen
    have hk : k ∉ l0 := by
      intro hmem
      have := (List.nodup_append.mp hnd).2.2
      exact this hmem (by simp)
    simp only [List.length_cons, Nat.cast_add, Nat.cast_one] at hlen
    obtain ⟨A, B, hl, hA, hB, hins⟩ := Insert_leaf_root t l0 k hs hk (by omega)
    have hs1 : (A ++ k :: B).Pairwise (· < ·) :=
      pairwise_insert_middle A B k (by rw [← hl]; exact hs) hA hB
    have hperm : (A ++ k :: B ++ pre).Perm (l0 ++ k :: pre) := by
      rw [hl]
      simp only [List.append_assoc, List.cons_append]
      refine List.Perm.append_left A ?_
      exact List.perm_middle.symm
    obtain ⟨l, hrun, hsl, hpl⟩ := ih (A ++ k :: B) hs1 (hperm.nodup_iff.mpr hnd) (by
      have : (A ++ k :: B).length = l0.length + 1 := by rw [hl]; simp; omega
      rw [this]; push_cast; omega)
    refine ⟨l, ?_, hsl, hpl.trans hperm⟩
    simp [run, step, hins, hrun]

/-- `Insert` of an absent key into a tree whose root is a full leaf: the leaf is split
around its median and the key goes into the half on its side. -/
theorem Insert_full_leaf_root (t : Int) (ht : 2 ≤ t) (l : List Int) (k : Int)
    (hs : l.Pairwise (· < ·)) (hk : k ∉ l) (hlen : (l.length : Int) = 2 * t - 1) :
    ∃ a m b ya zb, l = a ++ m :: b ∧ (a.length : Int) = t - 1 ∧ (b.length : Int) = t - 1 ∧
      (BTree.mk t (node.mk true l [])).Insert k =
        .ok ⟨t, node.mk false [m] [node.mk true ya [], node.mk true zb []]⟩ ∧
      ((k < m ∧ ya.Perm (k :: a) ∧ zb = b) ∨ (m < k ∧ ya = a ∧ zb.Perm (k :: b))) ∧
      ya.Pairwise (· < ·) ∧ zb.Pairwise (· < ·) := by
  have hn : Shaped t 0 (node.mk true l []) := Shaped.leaf l (by omega)
  have hsearch := Search_of_shaped ⟨t, node.mk true l []⟩ 0 k hn (by simpa using hs)
  obtain ⟨a, m, b, hl, ha, _⟩ := getAt_of_lt l (t - 1) (by omega) (by omega)
  have hb : (b.length : Int) = t - 1 := by
    have : l.length = a.length + (b.length + 1) := by rw [hl]; simp
    omega
  subst hl
  have hsa : a.Pairwise (· < ·) := (List.pairwise_append.mp hs).1
  have hsb : b.Pairwise (· < ·) :=
    (List.pairwise_cons.mp (List.pairwise_append.mp hs).2.1).2
  have hka : k ∉ a := fun h => hk (by simp [h])
  have hkb : k ∉ b := fun h => hk (by simp [h])
  have hkm : k ≠ m := fun h => hk (by simp [h])
  have hsplit := node.splitChild_eq_leaf false [] [] [] [] a b m [] 0 t rfl rfl ha
  simp only [List.nil_append] at hsplit
  have hh : (node.mk false [m] [node.mk true a [], node.mk true b []]).height = 2 := by
    simp [node.height, node.heightList]
  have hnfa : ¬ (a.length : Int) = 2 * t - 1 := by omega
  have hnfb : ¬ (b.length : Int) = 2 * t - 1 := by omega
  have hfull : (a.length : Int) + ((b.length : Int) + 1) = 2 * t - 1 := by omega
  rcases lt_or_gt_of_ne hkm with hlt | hgt
  · obtain ⟨A, B, hA, _, _, hins, _⟩ := node.insertNonFull_leaf 0 a [] k t hsa hka
    have hi : searchInts [m] k = 0 := by
      obtain ⟨kl, kr, hks, hi, hlo, _⟩ := searchInts_split [m] k (by simp)
      match kl, hks, hi, hlo with
      | [], _, hi, _ => simpa using hi
      | [x], hks, _, hlo =>
        simp only [List.singleton_append, List.cons.injEq] at hks
        have := hlo x (by simp)
        omega
      | x :: y :: r, hks, _, _ => simp at hks
    refine ⟨a, m, b, A ++ k :: B, b, rfl, ha, hb, ?_, Or.inl ⟨hlt, ?_, rfl⟩, ?_, hsb⟩
    · simp [Insert, hsearch, hk, hfull, newInternal, hsplit, hh, node.insertNonFull, hi,
        hnfa, hins, setAt]
    · rw [hA]; exact List.perm_middle
    · exact pairwise_insert_middle A B k (by rw [← hA]; exact hsa) ‹_› ‹_›
  · obtain ⟨A, B, hB, _, _, hins, _⟩ := node.insertNonFull_leaf 0 b [] k t hsb hkb
    have hi : searchInts [m] k = 1 := by
      obtain ⟨kl, kr, hks, hi, _, hhi⟩ := searchInts_split [m] k (by simp)
      match kl, kr, hks, hi, hhi with
      | [], kr, hks, _, hhi =>
        simp only [List.nil_append] at hks
        have := hhi m (by rw [← hks]; simp)
        omega
      | [x], _, _, hi, _ => simpa using hi
      | x :: y :: r, _, hks, _, _ => simp at hks
    refine ⟨a, m, b, a, A ++ k :: B, rfl, ha, hb, ?_, Or.inr ⟨hgt, rfl, ?_⟩, hsa, ?_⟩
    · simp [Insert, hsearch, hk, hfull, newInternal, hsplit, hh, node.insertNonFull, hi,
        hnfb, hins, setAt, getAt]
    · rw [hB]; exact List.perm_middle
    · exact pairwise_insert_middle A B k (by rw [← hB]; exact hsb) ‹_› ‹_›

end BTree

/-- C14 (root split boundary). For every `t ≥ 2` and every list of `2t` pairwise distinct
integers (the first `2t-1` of them `pre`, the last one `k`) inserted in order into
`New(t)`: after the first `2t-1` insertions the root is a single leaf holding these
`2t-1` keys in increasing order; after the `2t`-th insertion the tree has height 2, its
root is an internal node with exactly one key `m`, the median of the first `2t-1` keys
(`t-1` of them lie before it and `t-1` after it in increasing order), and exactly two
leaf children, the one on the side of `k` holding `t` keys and the other `t-1` keys, so
both counts lie in `[t-1, 2t-1]`. -/
theorem root_split_boundary (t : Int) (ht : 2 ≤ t) (pre : List Int) (k : Int)
    (hlen : (pre.length : Int) = 2 * t - 1) (hnd : (pre ++ [k]).Nodup) :
    ∃ tr0 tr1 tr2 l a m b ya zb, BTree.New t = some tr0 ∧
      tr0.run (pre.map Op.insert) = .ok tr1 ∧ tr1.Insert k = .ok tr2 ∧
      tr0.run ((pre ++ [k]).map Op.insert) = .ok tr2 ∧
      tr1.root = node.mk true l [] ∧ l.Pairwise (· < ·) ∧ l.Perm pre ∧
      (l.length : Int) = 2 * t - 1 ∧
      l = a ++ m :: b ∧ (a.length : Int) = t - 1 ∧ (b.length : Int) = t - 1 ∧
      tr2.root = node.mk false [m] [node.mk true ya [], node.mk true zb []] ∧
      tr2.root.height = 2 ∧
      (((ya.length : Int) = t ∧ (zb.length : Int) = t - 1) ∨
        ((ya.length : Int) = t - 1 ∧ (zb.length : Int) = t)) ∧
      (t - 1 ≤ (ya.length : Int) ∧ (ya.length : Int) ≤ 2 * t - 1) ∧
      (t - 1 ≤ (zb.length : Int) ∧ (zb.length : Int) ≤ 2 * t - 1) ∧
      ((k < m ∧ ya.Perm (k :: a) ∧ zb = b) ∨ (m < k ∧ ya = a ∧ zb.Perm (k :: b))) := by
  have hnew : BTree.New t = some ⟨t, newLeaf⟩ := by
    have : ¬ t < 2 := by omega
    simp [BTree.New, this]
  have hndp : pre.Nodup := (List.nodup_append.mp hnd).1
  obtain ⟨l, hrun, hsl, hpl⟩ := BTree.run_inserts_leaf t pre [] (by simp)
    (by simpa using hndp) (by simp; omega)
  simp only [List.nil_append] at hpl
  have hll : (l.length : Int) = 2 * t - 1 := by rw [hpl.length_eq]; exact hlen
  have hk : k ∉ l := by
    intro hmem
    have := (List.nodup_append.mp hnd).2.2
    exact this (hpl.mem_iff.mp hmem) (by simp)
  obtain ⟨a, m, b, ya, zb, hl, ha, hb, hins, hside, _, _⟩ :=
    BTree.Insert_full_leaf_root t ht l k hsl hk hll
  have hya : (((ya.length : Int) = t ∧ (zb.length : Int) = t - 1) ∨
      ((ya.length : Int) = t - 1 ∧ (zb.length : Int) = t)) := by
    rcases hside with ⟨_, hp, hz⟩ | ⟨_, hy, hp⟩
    · left
      rw [hp.length_eq, hz]
      simp only [List.length_cons, Nat.cast_add, Nat.cast_one]
      omega
    · right
      rw [hp.length_eq, hy]
      simp only [List.length_cons, Nat.cast_add, Nat.cast_one]
      omega
  refine ⟨⟨t, newLeaf⟩, ⟨t, node.mk true l []⟩, _, l, a, m, b, ya, zb, hnew, hrun, hins, ?_,
    rfl, hsl, hpl, hll, hl, ha, hb, rfl, ?_, hya, ?_, ?_, hside⟩
  · have hrun2 : ∀ (ops : List Op) (x y z : BTree), x.run ops = .ok y →
        y.step (Op.insert k) = .ok z → x.run (ops ++ [Op.insert k]) = .ok z := by
      intro ops
      induction ops with
      | nil =>
        intro x y z h1 h2
        simp only [BTree.run] at h1
        cases h1
        simp [BTree.run, h2]
      | cons op ops ih =>
        intro x y z h1 h2
        simp only [BTree.run, List.cons_append] at h1 ⊢
        cases hx : x.step op with
        | ok x1 =>
          rw [hx] at h1
          simp only [Res.ok_bind] at h1 ⊢
          exact ih x1 y z h1 h2
        | panic => rw [hx] at h1; cases h1
        | outOfFuel => rw [hx] at h1; cases h1
    rw [List.map_append]
    exact hrun2 _ _ _ _ hrun hins
  · simp [node.height, node.heightList]
  · rcases hya with ⟨h1, h2⟩ | ⟨h1, h2⟩ <;> omega
  · rcases hya with ⟨h1, h2⟩ | ⟨h1, h2⟩ <;> omega

/-- Instance of C14: degree 2 and the keys 3, 1, 2, then 4. -/
theorem root_split_boundary_witness :
    (2 : Int) ≤ 2 ∧ (([3, 1, 2] : List Int).length : Int) = 2 * 2 - 1 ∧
    ([3, 1, 2] ++ [(4 : Int)]).Nodup ∧
    ∃ tr0 tr1 tr2 l a m b ya zb, BTree.New 2 = some tr0 ∧
      tr0.run ([3, 1, 2].map Op.insert) = .ok tr1 ∧ tr1.Insert 4 = .ok tr2 ∧
      tr0.run (([3, 1, 2] ++ [4]).map Op.insert) = .ok tr2 ∧
      tr1.root = node.mk true l [] ∧ l.Pairwise (· < ·) ∧ l.Perm [3, 1, 2] ∧
      (l.length : Int) = 2 * 2 - 1 ∧
      l = a ++ m :: b ∧ (a.length : Int) = 2 - 1 ∧ (b.length : Int) = 2 - 1 ∧
      tr2.root = node.mk false [m] [node.mk true ya [], node.mk true zb []] ∧
      tr2.root.height = 2 ∧
      (((ya.length : Int) = 2 ∧ (zb.length : Int) = 2 - 1) ∨
        ((ya.length : Int) = 2 - 1 ∧ (zb.length : Int) = 2)) ∧
      (2 - 1 ≤ (ya.length : Int) ∧ (ya.length : Int) ≤ 2 * 2 - 1) ∧
      (2 - 1 ≤ (zb.length : Int) ∧ (zb.length : Int) ≤ 2 * 2 - 1) ∧
      ((4 < m ∧ ya.Perm (4 :: a) ∧ zb = b) ∨ (m < 4 ∧ ya = a ∧ zb.Perm (4 :: b))) :=
  ⟨by decide, by decide, by decide,
    root_split_boundary 2 (by decide) [3, 1, 2] 4 (by decide) (by decide)⟩


/-! ## The traversal `inorder` on arbitrary nodes -/

theorem Res.bind_assoc {α β γ : Type} (x : Res α) (f : α → Res β) (g : β → Res γ) :
    (x >>= f) >>= g = x >>= fun a => f a >>= g := by
  cases x <;> rfl

theorem Res.bind_ok {α : Type} (x : Res α) : (x >>= fun a => Res.ok a) = x := by
  cases x <;> rfl

theorem Res.bind_congr {α β : Type} (x : Res α) (f g : α → Res β) (h : ∀ a, f a = g a) :
    (x >>= f) = (x >>= g) := by
  have : f = g := funext h
  rw [this]

namespace node

/-- The loop of `inorder` over keys `ks` and the children `M` at the positions after a
prefix `L` is the list traversal of `ks` and `M`. -/
theorem inorderLoop_eq_KC (rec : node → List Int → Res (List Int)) :
    ∀ (ks : List Int) (L M R : List node) (out : List Int), M.length = ks.length →
      inorderLoop rec (L ++ M ++ R) ks L.length out = inorderKC rec ks M out := by
  intro ks
  induction ks with
  | nil =>
    intro L M R out hM
    cases M with
    | nil => simp [inorderLoop, inorderKC]
    | cons c M => simp at hM
  | cons k ks ih =>
    intro L M R out hM
    cases M with
    | nil => simp at hM
    | cons c M =>
      simp only [List.length_cons, Nat.add_right_cancel_iff] at hM
      have hg : getAt (L ++ (c :: M) ++ R) (L.length : Int) = .ok c := by
        rw [List.append_assoc, List.cons_append]
        exact getAt_append_cons L c (M ++ R) _ rfl
      simp only [inorderLoop, hg, Res.ok_bind, inorderKC]
      apply Res.bind_congr
      intro o
      have := ih (L ++ [c]) M R (o ++ [k]) hM
      simp only [List.length_append, List.length_singleton, Nat.cast_add, Nat.cast_one,
        List.append_assoc, List.singleton_append] at this
      simpa [List.append_assoc] using this

theorem inorderKC_append (rec : node → List Int → Res (List Int)) (kr : List Int)
    (R : List node) : ∀ (kl : List Int) (L : List node) (out : List Int),
    L.length = kl.length →
    inorderKC rec (kl ++ kr) (L ++ R) out =
      inorderKC rec kl L out >>= fun o => inorderKC rec kr R o := by
  intro kl
  induction kl with
  | nil =>
    intro L out h
    cases L with
    | nil => simp [inorderKC]
    | cons c L => simp at h
  | cons k kl ih =>
    intro L out h
    cases L with
    | nil => simp at h
    | cons c L =>
      simp only [List.length_cons, Nat.add_right_cancel_iff] at h
      simp only [List.cons_append, inorderKC, Res.bind_assoc]
      apply Res.bind_congr
      intro o
      exact ih L (o ++ [k]) h

/-- An internal node with one more child than keys is traversed child, key, child, ...,
last child. -/
theorem inorder_inner (f : Nat) (ks : List Int) (cs : List node) (out : List Int)
    (hl : cs.length = ks.length + 1) :
    inorder (f + 1) (mk false ks cs) out = inorderKC (inorder f) ks cs out := by
  have hne : cs ≠ [] := by intro h0; subst h0; simp at hl
  obtain ⟨M, last, hcs⟩ : ∃ M last, cs = M ++ [last] :=
    ⟨cs.dropLast, cs.getLast hne, (List.dropLast_append_getLast hne).symm⟩
  have hM : M.length = ks.length := by
    have := congrArg List.length hcs
    simp at this; omega
  subst hcs
  have hloop := inorderLoop_eq_KC (inorder f) ks [] M [last] out hM
  simp only [List.length_nil, Nat.cast_zero, List.nil_append] at hloop
  have hlast : getAt (M ++ [last]) (((M ++ [last]).length : Int) - 1) = .ok last :=
    getAt_append_cons M last [] _ (by simp)
  have happ := inorderKC_append (inorder f) [] [last] ks M out hM
  simp only [List.append_nil] at happ
  rw [happ]
  simp only [inorder, leaf_mk, keys_mk, children_mk, Bool.false_eq_true, if_false, hloop]
  apply Res.bind_congr
  intro o
  simp only [hlast, Res.ok_bind, inorderKC]

theorem inorderKC_split (rec : node → List Int → Res (List Int)) (a b : List Int) (m : Int)
    (ca cb : List node) (out : List Int) (h : ca.length = a.length + 1) :
    inorderKC rec (a ++ m :: b) (ca ++ cb) out =
      inorderKC rec a ca out >>= fun o => inorderKC rec b cb (o ++ [m]) := by
  have hne : ca ≠ [] := by intro h0; subst h0; simp at h
  obtain ⟨M, last, hca⟩ : ∃ M last, ca = M ++ [last] :=
    ⟨ca.dropLast, ca.getLast hne, (List.dropLast_append_getLast hne).symm⟩
  have hM : M.length = a.length := by
    have := congrArg List.length hca
    simp at this; omega
  subst hca
  have h1 := inorderKC_append rec (m :: b) (last :: cb) a M out hM
  have h2 := inorderKC_append rec [] [last] a M out hM
  simp only [List.append_nil] at h2
  rw [List.append_assoc, List.singleton_append, h1, h2, Res.bind_assoc]
  apply Res.bind_congr
  intro o
  simp only [inorderKC]

/-- The traversal of an internal node around one child, and around two adjacent children
and their separator: what precedes and what follows is the same. -/
theorem inorderKC_context (rec : node → List Int → Res (List Int)) (kl kr : List Int)
    (L R : List node) (hL : L.length = kl.length) :
    ∃ g : List Int → Res (List Int),
      (∀ c out, inorderKC rec (kl ++ kr) (L ++ c :: R) out =
        inorderKC rec kl L out >>= fun o => rec c o >>= g) ∧
      (∀ s a b out, inorderKC rec (kl ++ s :: kr) (L ++ a :: b :: R) out =
        inorderKC rec kl L out >>= fun o => rec a o >>= fun o1 => rec b (o1 ++ [s]) >>= g) := by
  cases kr with
  | nil =>
    refine ⟨fun o => .ok o, ?_, ?_⟩
    · intro c out
      rw [inorderKC_append rec [] (c :: R) kl L out hL]
      apply Res.bind_congr
      intro o
      simp only [inorderKC, Res.bind_ok]
    · intro s a b out
      rw [inorderKC_append rec [s] (a :: b :: R) kl L out hL]
      apply Res.bind_congr
      intro o
      simp only [inorderKC]
      apply Res.bind_congr
      intro o1
      simp only [Res.bind_ok]
  | cons k kr =>
    refine ⟨fun o => inorderKC rec kr R (o ++ [k]), ?_, ?_⟩
    · intro c out
      rw [inorderKC_append rec (k :: kr) (c :: R) kl L out hL]
      apply Res.bind_congr
      intro o
      simp only [inorderKC]
    · intro s a b out
      rw [inorderKC_append rec (s :: k :: kr) (a :: b :: R) kl L out hL]
      apply Res.bind_congr
      intro o
      simp only [inorderKC]

/-- The traversal of a leaf holding `a ++ m :: b` is the traversal of a leaf holding `a`,
then `m`, then the traversal of a leaf holding `b`. -/
theorem inorder_join_leaf (f : Nat) (a b : List Int) (m : Int) (c1 c2 c3 : List node)
    (o : List Int) :
    inorder f (mk true (a ++ m :: b) c1) o =
      inorder f (mk true a c2) o >>= fun o1 => inorder f (mk true b c3) (o1 ++ [m]) := by
  cases f with
  | zero => simp [inorder]
  | succ f => simp [inorder]

/-- The traversal of an internal node holding the keys `a ++ m :: b` over the children
`ca ++ cb` is the traversal of the node `a` over `ca`, then `m`, then the traversal of
the node `b` over `cb`. -/
theorem inorder_join_inner (f : Nat) (a b : List Int) (m : Int) (ca cb : List node)
    (o : List Int) (hca : ca.length = a.length + 1) (hcb : cb.length = b.length + 1) :
    inorder f (mk false (a ++ m :: b) (ca ++ cb)) o =
      inorder f (mk false a ca) o >>= fun o1 => inorder f (mk false b cb) (o1 ++ [m]) := by
  cases f with
  | zero => simp [inorder]
  | succ f =>
    rw [inorder_inner f (a ++ m :: b) (ca ++ cb) o (by simp; omega),
      inorder_inner f a ca o hca, inorderKC_split (inorder f) a b m ca cb o hca]
    apply Res.bind_congr
    intro o1
    rw [inorder_inner f b cb (o1 ++ [m]) hcb]

/-- Replacing a child by two nodes and a separator that traverse like it leaves the
traversal of the parent unchanged. -/
theorem inorder_replace_one_by_two (kl kr : List Int) (L R : List node) (y y1 z : node)
    (m : Int) (hL : L.length = kl.length) (hR : R.length = kr.length)
    (hy : ∀ f o, inorder f y o = inorder f y1 o >>= fun o1 => inorder f z (o1 ++ [m])) :
    ∀ fuel out, inorder fuel (mk false (kl ++ m :: kr) (L ++ y1 :: z :: R)) out =
      inorder fuel (mk false (kl ++ kr) (L ++ y :: R)) out := by
  intro fuel out
  cases fuel with
  | zero => simp [inorder]
  | succ f =>
    obtain ⟨g, h1, h2⟩ := inorderKC_context (inorder f) kl kr L R hL
    rw [inorder_inner f _ _ out (by simp; omega), inorder_inner f _ _ out (by simp; omega),
      h1, h2]
    apply Res.bind_congr
    intro o
    rw [hy f o, Res.bind_assoc]

/-- Replacing two adjacent children and their separator by two nodes and a separator
that traverse like them leaves the traversal of the parent unchanged. -/
theorem inorder_replace_two_by_two (kl kr : List Int) (L R : List node) (a b a1 b1 : node)
    (s u : Int) (hL : L.length = kl.length) (hR : R.length = kr.length)
    (hab : ∀ f o, (inorder f a o >>= fun o1 => inorder f b (o1 ++ [s])) =
      (inorder f a1 o >>= fun o1 => inorder f b1 (o1 ++ [u]))) :
    ∀ fuel out, inorder fuel (mk false (kl ++ u :: kr) (L ++ a1 :: b1 :: R)) out =
      inorder fuel (mk false (kl ++ s :: kr) (L ++ a :: b :: R)) out := by
  intro fuel out
  cases fuel with
  | zero => simp [inorder]
  | succ f =>
    obtain ⟨g, _, h2⟩ := inorderKC_context (inorder f) kl kr L R hL
    rw [inorder_inner f _ _ out (by simp; omega), inorder_inner f _ _ out (by simp; omega),
      h2, h2]
    apply Res.bind_congr
    intro o
    rw [← Res.bind_assoc, ← Res.bind_assoc, hab f o]

end node


/-! ## The contracts of `splitChild` and `mergeChildren` (C15, C16) -/

/-- A list with an element at index `i` is the elements before it, the element, and the
elements after it. -/
theorem list_split_at {α : Type} (cs : List α) (i : Nat) (y : α) (h : cs[i]? = some y) :
    cs.take i ++ y :: cs.drop (i + 1) = cs ∧ (cs.take i).length = i ∧ i < cs.length := by
  obtain ⟨hi, hy⟩ := List.getElem?_eq_some_iff.mp h
  refine ⟨?_, ?_, hi⟩
  · rw [← hy]
    simp
  · simp [List.length_take]; omega

namespace node

/-- Splitting a full leaf child, then merging: result, traversal and way back. -/
theorem splitChild_contract_leaf (kl kr : List Int) (L R : List node) (a b : List Int)
    (m : Int) (yc : List node) (i t : Int) (hi : i = L.length) (hL : L.length = kl.length)
    (hR : R.length = kr.length) (ha : (a.length : Int) = t - 1) :
    splitChild (mk false (kl ++ kr) (L ++ mk true (a ++ m :: b) yc :: R)) i t =
      .ok (mk false (kl ++ m :: kr) (L ++ mk true a yc :: mk true b [] :: R)) ∧
    (∀ fuel out,
      inorder fuel (mk false (kl ++ m :: kr) (L ++ mk true a yc :: mk true b [] :: R)) out =
        inorder fuel (mk false (kl ++ kr) (L ++ mk true (a ++ m :: b) yc :: R)) out) ∧
    mergeChildren (mk false (kl ++ m :: kr) (L ++ mk true a yc :: mk true b [] :: R)) i =
      .ok (mk false (kl ++ kr) (L ++ mk true (a ++ m :: b) yc :: R)) := by
  refine ⟨splitChild_eq_leaf false kl kr L R a b m yc i t hi hL ha, ?_, ?_⟩
  · exact inorder_replace_one_by_two kl kr L R _ _ _ m hL hR
      (fun f o => inorder_join_leaf f a b m yc yc [] o)
  · rw [mergeChildren_eq false kl kr m L R _ _ i hi hL]
    simp

/-- Splitting a full internal child, then merging: result, traversal and way back. -/
theorem splitChild_contract_inner (kl kr : List Int) (L R : List node) (a b : List Int)
    (m : Int) (ca cb : List node) (i t : Int) (hi : i = L.length)
    (hL : L.length = kl.length) (hR : R.length = kr.length) (ha : (a.length : Int) = t - 1)
    (hca : (ca.length : Int) = t) (hcb : cb.length = b.length + 1) :
    splitChild (mk false (kl ++ kr) (L ++ mk false (a ++ m :: b) (ca ++ cb) :: R)) i t =
      .ok (mk false (kl ++ m :: kr) (L ++ mk false a ca :: mk false b cb :: R)) ∧
    (∀ fuel out,
      inorder fuel (mk false (kl ++ m :: kr) (L ++ mk false a ca :: mk false b cb :: R)) out =
        inorder fuel (mk false (kl ++ kr) (L ++ mk false (a ++ m :: b) (ca ++ cb) :: R)) out) ∧
    mergeChildren (mk false (kl ++ m :: kr) (L ++ mk false a ca :: mk false b cb :: R)) i =
      .ok (mk false (kl ++ kr) (L ++ mk false (a ++ m :: b) (ca ++ cb) :: R)) := by
  refine ⟨splitChild_eq_inner false kl kr L R a b m ca cb i t hi hL ha hca, ?_, ?_⟩
  · exact inorder_replace_one_by_two kl kr L R _ _ _ m hL hR
      (fun f o => inorder_join_inner f a b m ca cb o (by omega) hcb)
  · rw [mergeChildren_eq false kl kr m L R _ _ i hi hL]
    simp

/-- The contract of `splitChild` and its inversion by `mergeChildren`, for a node given
by its keys and children and a child given by its index. -/
theorem splitChild_contract (t : Int) (ht : 2 ≤ t) (ks : List Int) (cs : List node) (i : Nat)
    (y : node) (hlen : cs.length = ks.length + 1) (hy : cs[i]? = some y)
    (hyk : (y.keys.length : Int) = 2 * t - 1)
    (hyc : y.leaf = false → (y.children.length : Int) = 2 * t) :
    ∃ m, y.keys[(t - 1).toNat]? = some m ∧
      splitChild (mk false ks cs) i t =
        .ok (mk false (ks.take i ++ m :: ks.drop i)
          (cs.take i ++
            mk y.leaf (y.keys.take (t - 1).toNat)
              (if y.leaf then y.children else y.children.take t.toNat) ::
            mk y.leaf (y.keys.drop t.toNat)
              (if y.leaf then [] else y.children.drop t.toNat) :: cs.drop (i + 1))) ∧
      (∀ fuel out,
        inorder fuel (mk false (ks.take i ++ m :: ks.drop i)
          (cs.take i ++
            mk y.leaf (y.keys.take (t - 1).toNat)
              (if y.leaf then y.children else y.children.take t.toNat) ::
            mk y.leaf (y.keys.drop t.toNat)
              (if y.leaf then [] else y.children.drop t.toNat) :: cs.drop (i + 1))) out =
        inorder fuel (mk false ks cs) out) ∧
      mergeChildren (mk false (ks.take i ++ m :: ks.drop i)
          (cs.take i ++
            mk y.leaf (y.keys.take (t - 1).toNat)
              (if y.leaf then y.children else y.children.take t.toNat) ::
            mk y.leaf (y.keys.drop t.toNat)
              (if y.leaf then [] else y.children.drop t.toNat) :: cs.drop (i + 1))) i =
        .ok (mk false ks cs) := by
  obtain ⟨lf, yk, yc⟩ := y
  simp only [keys_mk, leaf_mk, children_mk] at hyk hyc ⊢
  obtain ⟨hcs, hLi, hic⟩ := list_split_at cs i _ hy
  have hn : (((t - 1).toNat : Nat) : Int) = t - 1 := Int.toNat_of_nonneg (by omega)
  have htn : t.toNat = (t - 1).toNat + 1 := by omega
  have hnlt : (t - 1).toNat < yk.length := by omega
  have hm : yk[(t - 1).toNat]? = some yk[(t - 1).toNat] := List.getElem?_eq_getElem hnlt
  obtain ⟨hyks, hal, _⟩ := list_split_at yk _ _ hm
  have hkl : (ks.take i).length = i := by simp [List.length_take]; omega
  have hR : (cs.drop (i + 1)).length = (ks.drop i).length := by
    simp only [List.length_drop]; omega
  have hks : ks.take i ++ ks.drop i = ks := List.take_append_drop i ks
  have ha : (((yk.take (t - 1).toNat).length : Nat) : Int) = t - 1 := by rw [hal]; exact hn
  refine ⟨yk[(t - 1).toNat], hm, ?_⟩
  rw [htn]
  cases lf with
  | true =>
    have := splitChild_contract_leaf (ks.take i) (ks.drop i) (cs.take i) (cs.drop (i + 1))
      (yk.take (t - 1).toNat) (yk.drop ((t - 1).toNat + 1)) yk[(t - 1).toNat] yc i t
      (by rw [hLi]) (by rw [hLi, hkl]) hR ha
    rw [hyks, hcs, hks] at this
    simpa using this
  | false =>
    have hycl := hyc rfl
    have hca : (((yc.take ((t - 1).toNat + 1)).length : Nat) : Int) = t := by
      simp only [List.length_take]; omega
    have hcb : (yc.drop ((t - 1).toNat + 1)).length =
        (yk.drop ((t - 1).toNat + 1)).length + 1 := by
      simp only [List.length_drop]; omega
    have := splitChild_contract_inner (ks.take i) (ks.drop i) (cs.take i) (cs.drop (i + 1))
      (yk.take (t - 1).toNat) (yk.drop ((t - 1).toNat + 1)) yk[(t - 1).toNat]
      (yc.take ((t - 1).toNat + 1)) (yc.drop ((t - 1).toNat + 1)) i t
      (by rw [hLi]) (by rw [hLi, hkl]) hR ha hca hcb
    rw [hyks, List.take_append_drop _ yc, hcs, hks] at this
    simpa using this

end node


/-! ## Claims C15 and C16 -/

/-- C15 (split contract). For every `t ≥ 2`, every internal node `n` with
`len(children) = len(keys)+1` and every index `i` such that `y = children[i]` has exactly
`2t-1` keys (and `2t` children if internal), `n.splitChild(i, t)` returns, and after it:
`y` keeps its first `t-1` keys (and first `t` children), a new node `z` with the same
leaf flag as `y` holds the last `t-1` keys of `y` (and its last `t` children), `n.keys`
is the old `n.keys` with the key `m` that `y` held at index `t-1` inserted at position
`i`, `n.children` is the old `n.children` with `y` updated and `z` inserted at position
`i+1`, and `inorder` on `n` gives the same result as before, from every output prefix
and with every depth budget. -/
theorem split_contract (t : Int) (ht : 2 ≤ t) (ks : List Int) (cs : List node) (i : Nat)
    (y : node) (hlen : cs.length = ks.length + 1) (hy : cs[i]? = some y)
    (hyk : (y.keys.length : Int) = 2 * t - 1)
    (hyc : y.leaf = false → (y.children.length : Int) = 2 * t) :
    ∃ m, y.keys[(t - 1).toNat]? = some m ∧
      node.splitChild (node.mk false ks cs) i t =
        .ok (node.mk false (ks.take i ++ m :: ks.drop i)
          (cs.take i ++
            node.mk y.leaf (y.keys.take (t - 1).toNat)
              (if y.leaf then y.children else y.children.take t.toNat) ::
            node.mk y.leaf (y.keys.drop t.toNat)
              (if y.leaf then [] else y.children.drop t.toNat) :: cs.drop (i + 1))) ∧
      ((y.keys.take (t - 1).toNat).length : Int) = t - 1 ∧
      ((y.keys.drop t.toNat).length : Int) = t - 1 ∧
      (y.leaf = false → ((y.children.take t.toNat).length : Int) = t ∧
        ((y.children.drop t.toNat).length : Int) = t) ∧
      ∀ fuel out,
        node.inorder fuel (node.mk false (ks.take i ++ m :: ks.drop i)
          (cs.take i ++
            node.mk y.leaf (y.keys.take (t - 1).toNat)
              (if y.leaf then y.children else y.children.take t.toNat) ::
            node.mk y.leaf (y.keys.drop t.toNat)
              (if y.leaf then [] else y.children.drop t.toNat) :: cs.drop (i + 1))) out =
        node.inorder fuel (node.mk false ks cs) out := by
  obtain ⟨m, hm, hsplit, hin, _⟩ := node.splitChild_contract t ht ks cs i y hlen hy hyk hyc
  refine ⟨m, hm, hsplit, ?_, ?_, ?_, hin⟩
  · simp only [List.length_take]; omega
  · simp only [List.length_drop]; omega
  · intro hl
    have := hyc hl
    simp only [List.length_take, List.length_drop]
    omega

/-- Instance of C15: degree 2, the node with key 10 over the leaves `[1, 2, 3]` and
`[20]`, and the index 0 of the full leaf. -/
theorem split_contract_witness :
    (2 : Int) ≤ 2 ∧
    [node.mk true [1, 2, 3] [], node.mk true [20] []].length = [(10 : Int)].length + 1 ∧
    [node.mk true [1, 2, 3] [], node.mk true [20] []][0]? = some (node.mk true [1, 2, 3] []) ∧
    (((node.mk true [1, 2, 3] []).keys.length : Nat) : Int) = 2 * 2 - 1 ∧
    ((node.mk true [1, 2, 3] []).leaf = false →
      (((node.mk true [1, 2, 3] []).children.length : Nat) : Int) = 2 * 2) ∧
    node.splitChild (node.mk false [10] [node.mk true [1, 2, 3] [], node.mk true [20] []])
        0 2 =
      .ok (node.mk false [2, 10]
        [node.mk true [1] [], node.mk true [3] [], node.mk true [20] []]) ∧
    ∃ m, (node.mk true [1, 2, 3] []).keys[((2 : Int) - 1).toNat]? = some m ∧
      node.splitChild (node.mk false [10] [node.mk true [1, 2, 3] [], node.mk true [20] []])
          ((0 : Nat) : Int) 2 =
        .ok (node.mk false ([(10 : Int)].take 0 ++ m :: [(10 : Int)].drop 0)
          ([node.mk true [1, 2, 3] [], node.mk true [20] []].take 0 ++
            node.mk (node.mk true [1, 2, 3] []).leaf
              ((node.mk true [1, 2, 3] []).keys.take ((2 : Int) - 1).toNat)
              (if (node.mk true [1, 2, 3] []).leaf then (node.mk true [1, 2, 3] []).children
                else (node.mk true [1, 2, 3] []).children.take (2 : Int).toNat) ::
            node.mk (node.mk true [1, 2, 3] []).leaf
              ((node.mk true [1, 2, 3] []).keys.drop (2 : Int).toNat)
              (if (node.mk true [1, 2, 3] []).leaf then []
                else (node.mk true [1, 2, 3] []).children.drop (2 : Int).toNat) ::
            [node.mk true [1, 2, 3] [], node.mk true [20] []].drop (0 + 1))) ∧
      ((((node.mk true [1, 2, 3] []).keys.take ((2 : Int) - 1).toNat).length : Nat) : Int)
        = 2 - 1 ∧
      ((((node.mk true [1, 2, 3] []).keys.drop (2 : Int).toNat).length : Nat) : Int)
        = 2 - 1 ∧
      ((node.mk true [1, 2, 3] []).leaf = false →
        ((((node.mk true [1, 2, 3] []).children.take (2 : Int).toNat).length : Nat) : Int)
          = 2 ∧
        ((((node.mk true [1, 2, 3] []).children.drop (2 : Int).toNat).length : Nat) : Int)
          = 2) ∧
      ∀ fuel out,
        node.inorder fuel (node.mk false ([(10 : Int)].take 0 ++ m :: [(10 : Int)].drop 0)
          ([node.mk true [1, 2, 3] [], node.mk true [20] []].take 0 ++
            node.mk (node.mk true [1, 2, 3] []).leaf
              ((node.mk true [1, 2, 3] []).keys.take ((2 : Int) - 1).toNat)
              (if (node.mk true [1, 2, 3] []).leaf then (node.mk true [1, 2, 3] []).children
                else (node.mk true [1, 2, 3] []).children.take (2 : Int).toNat) ::
            node.mk (node.mk true [1, 2, 3] []).leaf
              ((node.mk true [1, 2, 3] []).keys.drop (2 : Int).toNat)
              (if (node.mk true [1, 2, 3] []).leaf then []
                else (node.mk true [1, 2, 3] []).children.drop (2 : Int).toNat) ::
            [node.mk true [1, 2, 3] [], node.mk true [20] []].drop (0 + 1))) out =
        node.inorder fuel
          (node.mk false [10] [node.mk true [1, 2, 3] [], node.mk true [20] []]) out :=
  ⟨by decide, rfl, rfl, by decide, by decide, rfl,
    split_contract 2 (by decide) [10] [node.mk true [1, 2, 3] [], node.mk true [20] []] 0
      (node.mk true [1, 2, 3] []) rfl rfl (by decide) (by decide)⟩

/-- C16 (merge is the inverse of split). For every `t ≥ 2`, every internal node `n` with
`len(children) = len(keys)+1` and every index `i` such that `children[i]` has exactly
`2t-1` keys (and `2t` children if internal), `n.splitChild(i, t)` returns a node on
which `mergeChildren(i)` returns `n` exactly: the same keys and children of `n`, with
`children[i]` holding its original keys and children. -/
theorem merge_inverts_split (t : Int) (ht : 2 ≤ t) (ks : List Int) (cs : List node) (i : Nat)
    (y : node) (hlen : cs.length = ks.length + 1) (hy : cs[i]? = some y)
    (hyk : (y.keys.length : Int) = 2 * t - 1)
    (hyc : y.leaf = false → (y.children.length : Int) = 2 * t) :
    ∃ n1, node.splitChild (node.mk false ks cs) i t = .ok n1 ∧
      node.mergeChildren n1 i = .ok (node.mk false ks cs) := by
  obtain ⟨m, _, hsplit, _, hmerge⟩ := node.splitChild_contract t ht ks cs i y hlen hy hyk hyc
  exact ⟨_, hsplit, hmerge⟩

/-- Instance of C16: degree 2, the node with key 10 over the leaf `[20]` and the internal
node with keys 20, 30, 40 over four leaves, at the index 1 of the full internal child. -/
theorem merge_inverts_split_witness :
    (2 : Int) ≤ 2 ∧
    [node.mk true [5] [], node.mk false [20, 30, 40] [node.mk true [15] [],
      node.mk true [25] [], node.mk true [35] [], node.mk true [45] []]].length =
      [(10 : Int)].length + 1 ∧
    [node.mk true [5] [], node.mk false [20, 30, 40] [node.mk true [15] [],
      node.mk true [25] [], node.mk true [35] [], node.mk true [45] []]][1]? =
      some (node.mk false [20, 30, 40] [node.mk true [15] [],
        node.mk true [25] [], node.mk true [35] [], node.mk true [45] []]) ∧
    (((node.mk false [20, 30, 40] [node.mk true [15] [],
      node.mk true [25] [], node.mk true [35] [], node.mk true [45] []]).keys.length : Nat)
        : Int) = 2 * 2 - 1 ∧
    ((node.mk false [20, 30, 40] [node.mk true [15] [],
      node.mk true [25] [], node.mk true [35] [], node.mk true [45] []]).leaf = false →
      (((node.mk false [20, 30, 40] [node.mk true [15] [], node.mk true [25] [],
        node.mk true [35] [], node.mk true [45] []]).children.length : Nat) : Int) = 2 * 2) ∧
    ∃ n1, node.splitChild (node.mk false [10] [node.mk true [5] [],
        node.mk false [20, 30, 40] [node.mk true [15] [],
          node.mk true [25] [], node.mk true [35] [], node.mk true [45] []]])
        ((1 : Nat) : Int) 2 = .ok n1 ∧
      node.mergeChildren n1 ((1 : Nat) : Int) = .ok (node.mk false [10] [node.mk true [5] [],
        node.mk false [20, 30, 40] [node.mk true [15] [],
          node.mk true [25] [], node.mk true [35] [], node.mk true [45] []]]) :=
  ⟨by decide, rfl, rfl, by decide, by decide,
    merge_inverts_split 2 (by decide) [10] [node.mk true [5] [],
      node.mk false [20, 30, 40] [node.mk true [15] [],
        node.mk true [25] [], node.mk true [35] [], node.mk true [45] []]] 1
      (node.mk false [20, 30, 40] [node.mk true [15] [],
        node.mk true [25] [], node.mk true [35] [], node.mk true [45] []])
      rfl rfl (by decide) (by decide)⟩


/-! ## The borrow helpers as rotations (C17) -/

/-- A list with elements at the indices `i` and `i+1` is the elements before them, the
two elements, and the elements after them. -/
theorem list_split_two {α : Type} (cs : List α) (i : Nat) (a b : α) (ha : cs[i]? = some a)
    (hb : cs[i + 1]? = some b) :
    cs.take i ++ a :: b :: cs.drop (i + 2) = cs ∧ (cs.take i).length = i ∧
      i + 1 < cs.length := by
  obtain ⟨h1, h2, h3⟩ := list_split_at cs i a ha
  obtain ⟨hi, hy⟩ := List.getElem?_eq_some_iff.mp hb
  refine ⟨?_, h2, hi⟩
  have hd : cs.drop (i + 1) = b :: cs.drop (i + 2) := by
    rw [← hy]
    exact List.drop_eq_getElem_cons hi
  rw [← hd]
  exact h1

namespace node

theorem borrowFromPrev_contract_leaf (kl kr : List Int) (s : Int) (L R : List node)
    (sk : List Int) (u : Int) (sc : List node) (ck : List Int) (cc : List node) (idx : Int)
    (hi : idx = L.length + 1) (hL : L.length = kl.length) (hR : R.length = kr.length) :
    borrowFromPrev (mk false (kl ++ s :: kr)
        (L ++ mk true (sk ++ [u]) sc :: mk true ck cc :: R)) idx =
      .ok (mk false (kl ++ u :: kr) (L ++ mk true sk sc :: mk true (s :: ck) cc :: R)) ∧
    ∀ fuel out,
      inorder fuel (mk false (kl ++ u :: kr)
        (L ++ mk true sk sc :: mk true (s :: ck) cc :: R)) out =
      inorder fuel (mk false (kl ++ s :: kr)
        (L ++ mk true (sk ++ [u]) sc :: mk true ck cc :: R)) out := by
  refine ⟨borrowFromPrev_eq_leaf false kl kr s L R true sk u sc ck cc idx hi hL, ?_⟩
  refine inorder_replace_two_by_two kl kr L R _ _ _ _ s u hL hR ?_
  intro f o
  cases f with
  | zero => simp [inorder]
  | succ f => simp [inorder]

theorem borrowFromPrev_contract_inner (kl kr : List Int) (s : Int) (L R : List node)
    (sk : List Int) (u : Int) (sc : List node) (mv : node) (ck : List Int) (cc : List node)
    (idx : Int) (hi : idx = L.length + 1) (hL : L.length = kl.length)
    (hR : R.length = kr.length) (hsc : sc.length = sk.length + 1)
    (hcc : cc.length = ck.length + 1) :
    borrowFromPrev (mk false (kl ++ s :: kr)
        (L ++ mk false (sk ++ [u]) (sc ++ [mv]) :: mk false ck cc :: R)) idx =
      .ok (mk false (kl ++ u :: kr)
        (L ++ mk false sk sc :: mk false (s :: ck) (mv :: cc) :: R)) ∧
    ∀ fuel out,
      inorder fuel (mk false (kl ++ u :: kr)
        (L ++ mk false sk sc :: mk false (s :: ck) (mv :: cc) :: R)) out =
      inorder fuel (mk false (kl ++ s :: kr)
        (L ++ mk false (sk ++ [u]) (sc ++ [mv]) :: mk false ck cc :: R)) out := by
  refine ⟨borrowFromPrev_eq_inner false kl kr s L R false sk u sc mv ck cc idx hi hL, ?_⟩
  refine inorder_replace_two_by_two kl kr L R _ _ _ _ s u hL hR ?_
  intro f o
  have h1 := inorder_join_inner f sk [] u sc [mv] o hsc (by simp)
  have h2 : ∀ o1, inorder f (mk false (s :: ck) (mv :: cc)) o1 =
      inorder f (mk false [] [mv]) o1 >>= fun o2 => inorder f (mk false ck cc) (o2 ++ [s]) :=
    fun o1 => inorder_join_inner f [] ck s [mv] cc o1 (by simp) hcc
  rw [h1, Res.bind_assoc]
  apply Res.bind_congr
  intro o1
  rw [h2]

theorem borrowFromNext_contract_leaf (kl kr : List Int) (s : Int) (L R : List node)
    (sk : List Int) (u : Int) (sc : List node) (ck : List Int) (cc : List node) (idx : Int)
    (hi : idx = L.length) (hL : L.length = kl.length) (hR : R.length = kr.length) :
    borrowFromNext (mk false (kl ++ s :: kr)
        (L ++ mk true ck cc :: mk true (u :: sk) sc :: R)) idx =
      .ok (mk false (kl ++ u :: kr) (L ++ mk true (ck ++ [s]) cc :: mk true sk sc :: R)) ∧
    ∀ fuel out,
      inorder fuel (mk false (kl ++ u :: kr)
        (L ++ mk true (ck ++ [s]) cc :: mk true sk sc :: R)) out =
      inorder fuel (mk false (kl ++ s :: kr)
        (L ++ mk true ck cc :: mk true (u :: sk) sc :: R)) out := by
  refine ⟨borrowFromNext_eq_leaf false kl kr s L R true sk u sc ck cc idx hi hL, ?_⟩
  refine inorder_replace_two_by_two kl kr L R _ _ _ _ s u hL hR ?_
  intro f o
  cases f with
  | zero => simp [inorder]
  | succ f => simp [inorder]

theorem borrowFromNext_contract_inner (kl kr : List Int) (s : Int) (L R : List node)
    (sk : List Int) (u : Int) (sc : List node) (mv : node) (ck : List Int) (cc : List node)
    (idx : Int) (hi : idx = L.length) (hL : L.length = kl.length)
    (hR : R.length = kr.length) (hsc : sc.length = sk.length + 1)
    (hcc : cc.length = ck.length + 1) :
    borrowFromNext (mk false (kl ++ s :: kr)
        (L ++ mk false ck cc :: mk false (u :: sk) (mv :: sc) :: R)) idx =
      .ok (mk false (kl ++ u :: kr)
        (L ++ mk false (ck ++ [s]) (cc ++ [mv]) :: mk false sk sc :: R)) ∧
    ∀ fuel out,
      inorder fuel (mk false (kl ++ u :: kr)
        (L ++ mk false (ck ++ [s]) (cc ++ [mv]) :: mk false sk sc :: R)) out =
      inorder fuel (mk false (kl ++ s :: kr)
        (L ++ mk false ck cc :: mk false (u :: sk) (mv :: sc) :: R)) out := by
  refine ⟨borrowFromNext_eq_inner false kl kr s L R false sk u sc mv ck cc idx hi hL, ?_⟩
  refine inorder_replace_two_by_two kl kr L R _ _ _ _ s u hL hR ?_
  intro f o
  have h1 := inorder_join_inner f ck [] s cc [mv] o hcc (by simp)
  have h2 : ∀ o1, inorder f (mk false (u :: sk) (mv :: sc)) o1 =
      inorder f (mk false [] [mv]) o1 >>= fun o2 => inorder f (mk false sk sc) (o2 ++ [u]) :=
    fun o1 => inorder_join_inner f [] sk u [mv] sc o1 (by simp) hsc
  rw [h1, Res.bind_assoc]
  apply Res.bind_congr
  intro o1
  rw [h2]

end node


/-! ## Claim C17 -/

/-- C17, refuted as stated. The internal node `mixedChildrenNode` has one key and two
children, and the left sibling of its child 1 is non-empty, but that sibling is an
internal node while the child is a leaf: `borrowFromPrev(1)` returns, the sibling keeps
its three children with a single key, and `inorder` no longer visits the key 30 and
emits 50 before 40. On `leafSiblingNode`, where the sibling is a leaf and the child an
internal node, `borrowFromPrev(1)` takes the index `-1` of the children of the sibling. -/
theorem borrow_mixed_children :
    mixedChildrenNode.leaf = false ∧
    mixedChildrenNode.children.length = mixedChildrenNode.keys.length + 1 ∧
    (∃ sib, mixedChildrenNode.children[0]? = some sib ∧ sib.keys ≠ []) ∧
    node.borrowFromPrev mixedChildrenNode 1 = .ok mixedChildrenNodeBorrowed ∧
    node.inorder mixedChildrenNode.height mixedChildrenNode [] =
      .ok [10, 20, 30, 40, 50, 60, 70] ∧
    node.inorder mixedChildrenNodeBorrowed.height mixedChildrenNodeBorrowed [] =
      .ok [10, 20, 50, 40, 60, 70] ∧
    leafSiblingNode.leaf = false ∧
    leafSiblingNode.children.length = leafSiblingNode.keys.length + 1 ∧
    (∃ sib, leafSiblingNode.children[0]? = some sib ∧ sib.keys ≠ []) ∧
    node.borrowFromPrev leafSiblingNode 1 = .panic :=
  ⟨rfl, rfl, ⟨_, rfl, by decide⟩, rfl, rfl, rfl, rfl, rfl, ⟨_, rfl, by decide⟩, rfl⟩

/-- C17, amended (borrow is a rotation through the parent separator). Let `n` be an
internal node with `len(children) = len(keys)+1`, and `left = children[i]`,
`right = children[i+1]` two adjacent children that are both leaves, or both internal
nodes with `len(children) = len(keys)+1`; let `s = keys[i]` be their separator.
If `left` is non-empty, with last key `u`, then `n.borrowFromPrev(i+1)` returns, and
after it the child `right` has gained `s` as its first key, the separator has become
`u`, the sibling `left` has lost `u`, and for internal children the last child of the
sibling has become the first child of the child. Symmetrically, if `right` is non-empty,
with first key `u`, then `n.borrowFromNext(i)` returns, and after it the child `left`
has gained `s` as its last key, the separator has become `u`, the sibling `right` has
lost `u`, and for internal children the first child of the sibling has become the last
child of the child. In both cases the key count and the child count of `n` are unchanged
and `inorder` on `n` gives the same result as before, from every output prefix and with
every depth budget. -/
theorem borrow_rotation (ks : List Int) (cs : List node) (i : Nat) (left right : node)
    (hlen : cs.length = ks.length + 1) (hl : cs[i]? = some left)
    (hr : cs[i + 1]? = some right) (hkind : left.leaf = right.leaf)
    (hlc : left.leaf = false → left.children.length = left.keys.length + 1)
    (hrc : right.leaf = false → right.children.length = right.keys.length + 1) :
    ∃ s, ks[i]? = some s ∧
      (∀ u, left.keys.getLast? = some u →
        ∃ sib1 child1,
          node.borrowFromPrev (node.mk false ks cs) ((i : Int) + 1) =
            .ok (node.mk false (ks.take i ++ u :: ks.drop (i + 1))
              (cs.take i ++ sib1 :: child1 :: cs.drop (i + 2))) ∧
          child1.keys = s :: right.keys ∧ sib1.keys = left.keys.dropLast ∧
          child1.leaf = right.leaf ∧ sib1.leaf = left.leaf ∧
          (right.leaf = true →
            child1.children = right.children ∧ sib1.children = left.children) ∧
          (right.leaf = false → ∃ mv, left.children.getLast? = some mv ∧
            child1.children = mv :: right.children ∧
            sib1.children = left.children.dropLast) ∧
          (ks.take i ++ u :: ks.drop (i + 1)).length = ks.length ∧
          (cs.take i ++ sib1 :: child1 :: cs.drop (i + 2)).length = cs.length ∧
          ∀ fuel out,
            node.inorder fuel (node.mk false (ks.take i ++ u :: ks.drop (i + 1))
              (cs.take i ++ sib1 :: child1 :: cs.drop (i + 2))) out =
            node.inorder fuel (node.mk false ks cs) out) ∧
      (∀ u, right.keys.head? = some u →
        ∃ child1 sib1,
          node.borrowFromNext (node.mk false ks cs) (i : Int) =
            .ok (node.mk false (ks.take i ++ u :: ks.drop (i + 1))
              (cs.take i ++ child1 :: sib1 :: cs.drop (i + 2))) ∧
          child1.keys = left.keys ++ [s] ∧ sib1.keys = right.keys.tail ∧
          child1.leaf = left.leaf ∧ sib1.leaf = right.leaf ∧
          (left.leaf = true →
            child1.children = left.children ∧ sib1.children = right.children) ∧
          (left.leaf = false → ∃ mv, right.children.head? = some mv ∧
            child1.children = left.children ++ [mv] ∧
            sib1.children = right.children.tail) ∧
          (ks.take i ++ u :: ks.drop (i + 1)).length = ks.length ∧
          (cs.take i ++ child1 :: sib1 :: cs.drop (i + 2)).length = cs.length ∧
          ∀ fuel out,
            node.inorder fuel (node.mk false (ks.take i ++ u :: ks.drop (i + 1))
              (cs.take i ++ child1 :: sib1 :: cs.drop (i + 2))) out =
            node.inorder fuel (node.mk false ks cs) out) := by
  obtain ⟨lf, lk, lc⟩ := left
  obtain ⟨rf, rk, rc⟩ := right
  simp only [node.leaf_mk, node.keys_mk, node.children_mk] at hkind hlc hrc ⊢
  subst hkind
  obtain ⟨hcs, hLi, hic⟩ := list_split_two cs i _ _ hl hr
  have hik : i < ks.length := by omega
  have hs : ks[i]? = some ks[i] := List.getElem?_eq_getElem hik
  obtain ⟨hks, hkl, _⟩ := list_split_at ks i _ hs
  have hR : (cs.drop (i + 2)).length = (ks.drop (i + 1)).length := by
    simp only [List.length_drop]; omega
  have hlenk : (ks.take i ++ 0 :: ks.drop (i + 1)).length = ks.length := by
    simp only [List.length_append, List.length_cons, List.length_take, List.length_drop]
    omega
  have hlenc : ∀ a b : node, (cs.take i ++ a :: b :: cs.drop (i + 2)).length = cs.length := by
    intro a b
    simp only [List.length_append, List.length_cons, List.length_take, List.length_drop]
    omega
  refine ⟨ks[i], hs, ?_, ?_⟩
  · intro u hu
    obtain ⟨sk, rfl⟩ := List.getLast?_eq_some_iff.mp hu
    cases lf with
    | true =>
      obtain ⟨h1, h2⟩ := node.borrowFromPrev_contract_leaf (ks.take i) (ks.drop (i + 1))
        ks[i] (cs.take i) (cs.drop (i + 2)) sk u lc rk rc ((i : Int) + 1)
        (by rw [hLi]) (by rw [hLi, hkl]) hR
      rw [hcs, hks] at h1 h2
      refine ⟨node.mk true sk lc, node.mk true (ks[i] :: rk) rc, h1, ?_, ?_, rfl, rfl, ?_, ?_,
        ?_, hlenc _ _, h2⟩
      · simp
      · simp
      · intro _; simp
      · intro h; cases h
      · simpa using hlenk
    | false =>
      have hlc1 := hlc rfl
      have hrc1 := hrc rfl
      have hne : lc ≠ [] := by intro h0; subst h0; simp at hlc1
      obtain ⟨sc, mv, rfl⟩ : ∃ sc mv, lc = sc ++ [mv] :=
        ⟨lc.dropLast, lc.getLast hne, (List.dropLast_append_getLast hne).symm⟩
      have hsc : sc.length = sk.length + 1 := by simp at hlc1; omega
      obtain ⟨h1, h2⟩ := node.borrowFromPrev_contract_inner (ks.take i) (ks.drop (i + 1))
        ks[i] (cs.take i) (cs.drop (i + 2)) sk u sc mv rk rc ((i : Int) + 1)
        (by rw [hLi]) (by rw [hLi, hkl]) hR hsc hrc1
      rw [hcs, hks] at h1 h2
      refine ⟨node.mk false sk sc, node.mk false (ks[i] :: rk) (mv :: rc), h1, ?_, ?_, rfl,
        rfl, ?_, ?_, ?_, hlenc _ _, h2⟩
      · simp
      · simp
      · intro h; cases h
      · intro _; exact ⟨mv, by simp, by simp, by simp⟩
      · simpa using hlenk
  · intro u hu
    obtain ⟨sk, rfl⟩ := List.head?_eq_some_iff.mp hu
    cases lf with
    | true =>
      obtain ⟨h1, h2⟩ := node.borrowFromNext_contract_leaf (ks.take i) (ks.drop (i + 1))
        ks[i] (cs.take i) (cs.drop (i + 2)) sk u rc lk lc (i : Int)
        (by rw [hLi]) (by rw [hLi, hkl]) hR
      rw [hcs, hks] at h1 h2
      refine ⟨node.mk true (lk ++ [ks[i]]) lc, node.mk true sk rc, h1, ?_, ?_, rfl, rfl, ?_,
        ?_, ?_, hlenc _ _, h2⟩
      · simp
      · simp
      · intro _; simp
      · intro h; cases h
      · simpa using hlenk
    | false =>
      have hlc1 := hlc rfl
      have hrc1 := hrc rfl
      have hne : rc ≠ [] := by intro h0; subst h0; simp at hrc1
      obtain ⟨mv, sc, rfl⟩ : ∃ mv sc, rc = mv :: sc := List.exists_cons_of_ne_nil hne
      have hsc : sc.length = sk.length + 1 := by simp at hrc1; omega
      obtain ⟨h1, h2⟩ := node.borrowFromNext_contract_inner (ks.take i) (ks.drop (i + 1))
        ks[i] (cs.take i) (cs.drop (i + 2)) sk u sc mv lk lc (i : Int)
        (by rw [hLi]) (by rw [hLi, hkl]) hR hsc hlc1
      rw [hcs, hks] at h1 h2
      refine ⟨node.mk false (lk ++ [ks[i]]) (lc ++ [mv]), node.mk false sk sc, h1, ?_, ?_,
        rfl, rfl, ?_, ?_, ?_, hlenc _ _, h2⟩
      · simp
      · simp
      · intro h; cases h
      · intro _; exact ⟨mv, by simp, by simp, by simp⟩
      · simpa using hlenk


/-! ## The three repairs of a minimal child, on arbitrary subtrees -/

theorem index_append_length {α : Type} (L : List α) (a : α) (R : List α) :
    (L ++ a :: R)[L.length]? = some a := by
  rw [List.getElem?_append_right (Nat.le_refl _)]
  simp

theorem index_append_length_succ {α : Type} (L : List α) (a b : α) (R : List α) :
    (L ++ a :: b :: R)[L.length + 1]? = some b := by
  rw [List.getElem?_append_right (Nat.le_succ _)]
  simp

namespace node

theorem mem_allKeys_mk (x : Int) (lf : Bool) (ks : List Int) (cs : List node) :
    x ∈ allKeys (mk lf ks cs) ↔ x ∈ ks ∨ ∃ c ∈ cs, x ∈ allKeys c := by
  simp [allKeys, mem_allKeysList]

/-- Borrowing from a left sibling of the same kind that holds at least `t` keys. -/
theorem repair_borrowPrev (t : Int) (ht : 1 ≤ t) (kl kr : List Int) (s : Int)
    (L R : List node) (l child : node) (idx : Int)
    (hi : idx = L.length + 1) (hL : L.length = kl.length) (hR : R.length = kr.length)
    (hlk : t ≤ (l.keys.length : Int)) (hck : (child.keys.length : Int) = t - 1)
    (hkind : l.leaf = child.leaf)
    (hlc : l.leaf = false → l.children.length = l.keys.length + 1)
    (hcc : child.leaf = false → child.children.length = child.keys.length + 1) :
    ∃ n1 cj, borrowFromPrev (mk false (kl ++ s :: kr) (L ++ l :: child :: R)) idx = .ok n1 ∧
      n1.children[L.length + 1]? = some cj ∧ t ≤ (cj.keys.length : Int) ∧
      (∀ x ∈ child.allKeys, x ∈ cj.allKeys) ∧
      ∀ fuel out, inorder fuel n1 out =
        inorder fuel (mk false (kl ++ s :: kr) (L ++ l :: child :: R)) out := by
  obtain ⟨lf, lk, lc⟩ := l
  obtain ⟨cf, ck, cc⟩ := child
  simp only [leaf_mk, keys_mk, children_mk] at hlk hck hkind hlc hcc
  subst hkind
  have hne : lk ≠ [] := by intro h0; subst h0; simp at hlk; omega
  obtain ⟨sk, u, rfl⟩ : ∃ sk u, lk = sk ++ [u] :=
    ⟨lk.dropLast, lk.getLast hne, (List.dropLast_append_getLast hne).symm⟩
  cases lf with
  | true =>
    obtain ⟨h1, h2⟩ := borrowFromPrev_contract_leaf kl kr s L R sk u lc ck cc idx hi hL hR
    refine ⟨_, mk true (s :: ck) cc, h1, ?_, ?_, ?_, h2⟩
    · simp only [children_mk]
      exact index_append_length_succ L _ _ R
    · simp only [keys_mk, List.length_cons, Nat.cast_add, Nat.cast_one]; omega
    · intro x hx
      rw [mem_allKeys_mk] at hx ⊢
      rcases hx with hx | hx
      · left; simp [hx]
      · right; exact hx
  | false =>
    have hlc1 := hlc rfl
    have hcc1 := hcc rfl
    have hne2 : lc ≠ [] := by intro h0; subst h0; simp at hlc1
    obtain ⟨sc, mv, rfl⟩ : ∃ sc mv, lc = sc ++ [mv] :=
      ⟨lc.dropLast, lc.getLast hne2, (List.dropLast_append_getLast hne2).symm⟩
    have hsc : sc.length = sk.length + 1 := by simp at hlc1; omega
    obtain ⟨h1, h2⟩ := borrowFromPrev_contract_inner kl kr s L R sk u sc mv ck cc idx hi hL hR
      hsc hcc1
    refine ⟨_, mk false (s :: ck) (mv :: cc), h1, ?_, ?_, ?_, h2⟩
    · simp only [children_mk]
      exact index_append_length_succ L _ _ R
    · simp only [keys_mk, List.length_cons, Nat.cast_add, Nat.cast_one]; omega
    · intro x hx
      rw [mem_allKeys_mk] at hx ⊢
      rcases hx with hx | ⟨c, hc, hx⟩
      · left; simp [hx]
      · right; exact ⟨c, by simp [hc], hx⟩

/-- Borrowing from a right sibling of the same kind that holds at least `t` keys. -/
theorem repair_borrowNext (t : Int) (ht : 1 ≤ t) (kl kr : List Int) (s : Int)
    (L R : List node) (child r : node) (idx : Int)
    (hi : idx = L.length) (hL : L.length = kl.length) (hR : R.length = kr.length)
    (hrk : t ≤ (r.keys.length : Int)) (hck : (child.keys.length : Int) = t - 1)
    (hkind : r.leaf = child.leaf)
    (hrc : r.leaf = false → r.children.length = r.keys.length + 1)
    (hcc : child.leaf = false → child.children.length = child.keys.length + 1) :
    ∃ n1 cj, borrowFromNext (mk false (kl ++ s :: kr) (L ++ child :: r :: R)) idx = .ok n1 ∧
      n1.children[L.length]? = some cj ∧ t ≤ (cj.keys.length : Int) ∧
      (∀ x ∈ child.allKeys, x ∈ cj.allKeys) ∧
      ∀ fuel out, inorder fuel n1 out =
        inorder fuel (mk false (kl ++ s :: kr) (L ++ child :: r :: R)) out := by
  obtain ⟨rf, rk, rc⟩ := r
  obtain ⟨cf, ck, cc⟩ := child
  simp only [leaf_mk, keys_mk, children_mk] at hrk hck hkind hrc hcc
  subst hkind
  have hne : rk ≠ [] := by intro h0; subst h0; simp at hrk; omega
  obtain ⟨u, sk, rfl⟩ : ∃ u sk, rk = u :: sk := List.exists_cons_of_ne_nil hne
  cases rf with
  | true =>
    obtain ⟨h1, h2⟩ := borrowFromNext_contract_leaf kl kr s L R sk u rc ck cc idx hi hL hR
    refine ⟨_, mk true (ck ++ [s]) cc, h1, ?_, ?_, ?_, h2⟩
    · simp only [children_mk]
      exact index_append_length L _ _
    · simp only [keys_mk, List.length_append, List.length_singleton, Nat.cast_add,
        Nat.cast_one]
      omega
    · intro x hx
      rw [mem_allKeys_mk] at hx ⊢
      rcases hx with hx | hx
      · left; simp [hx]
      · right; exact hx
  | false =>
    have hrc1 := hrc rfl
    have hcc1 := hcc rfl
    have hne2 : rc ≠ [] := by intro h0; subst h0; simp at hrc1
    obtain ⟨mv, sc, rfl⟩ : ∃ mv sc, rc = mv :: sc := List.exists_cons_of_ne_nil hne2
    have hsc : sc.length = sk.length + 1 := by simp at hrc1; omega
    obtain ⟨h1, h2⟩ := borrowFromNext_contract_inner kl kr s L R sk u sc mv ck cc idx hi hL hR
      hsc hcc1
    refine ⟨_, mk false (ck ++ [s]) (cc ++ [mv]), h1, ?_, ?_, ?_, h2⟩
    · simp only [children_mk]
      exact index_append_length L _ _
    · simp only [keys_mk, List.length_append, List.length_singleton, Nat.cast_add,
        Nat.cast_one]
      omega
    · intro x hx
      rw [mem_allKeys_mk] at hx ⊢
      rcases hx with hx | ⟨c, hc, hx⟩
      · left; simp [hx]
      · right; exact ⟨c, by simp [hc], hx⟩

/-- Merging two adjacent children of the same kind around their separator. -/
theorem repair_merge (kl kr : List Int) (s : Int) (L R : List node) (a b : node) (i : Int)
    (hi : i = L.length) (hL : L.length = kl.length) (hR : R.length = kr.length)
    (hkind : a.leaf = b.leaf)
    (hac : a.leaf = false → a.children.length = a.keys.length + 1)
    (hbc : b.leaf = false → b.children.length = b.keys.length + 1) :
    ∃ n1 cj, mergeChildren (mk false (kl ++ s :: kr) (L ++ a :: b :: R)) i = .ok n1 ∧
      n1.children[L.length]? = some cj ∧
      cj.keys.length = a.keys.length + 1 + b.keys.length ∧
      (∀ x ∈ a.allKeys, x ∈ cj.allKeys) ∧
      ((b.leaf = true → b.children = []) → ∀ x ∈ b.allKeys, x ∈ cj.allKeys) ∧
      ∀ fuel out, inorder fuel n1 out =
        inorder fuel (mk false (kl ++ s :: kr) (L ++ a :: b :: R)) out := by
  obtain ⟨af, ak, ac⟩ := a
  obtain ⟨bf, bk, bc⟩ := b
  simp only [leaf_mk, keys_mk, children_mk] at hkind hac hbc ⊢
  subst hkind
  have hmerge := mergeChildren_eq false kl kr s L R (mk af ak ac) (mk af bk bc) i hi hL
  simp only [leaf_mk, keys_mk, children_mk, List.append_assoc, List.singleton_append]
    at hmerge
  cases af with
  | true =>
    simp only [if_true] at hmerge
    refine ⟨_, mk true (ak ++ s :: bk) ac, hmerge, ?_, ?_, ?_, ?_, ?_⟩
    · simp only [children_mk]
      exact index_append_length L _ _
    · simp only [keys_mk, List.length_append, List.length_cons]; omega
    · intro x hx
      rw [mem_allKeys_mk] at hx ⊢
      rcases hx with hx | hx
      · left; simp [hx]
      · right; exact hx
    · intro hb x hx
      rw [hb rfl] at hx
      rw [mem_allKeys_mk] at hx ⊢
      rcases hx with hx | ⟨c, hc, _⟩
      · left; simp [hx]
      · simp at hc
    · intro fuel out
      exact (inorder_replace_one_by_two kl kr L R _ _ _ s hL hR
        (fun f o => inorder_join_leaf f ak bk s ac ac bc o) fuel out).symm
  | false =>
    simp only [Bool.false_eq_true, if_false] at hmerge
    refine ⟨_, mk false (ak ++ s :: bk) (ac ++ bc), hmerge, ?_, ?_, ?_, ?_, ?_⟩
    · simp only [children_mk]
      exact index_append_length L _ _
    · simp only [keys_mk, List.length_append, List.length_cons]; omega
    · intro x hx
      rw [mem_allKeys_mk] at hx ⊢
      rcases hx with hx | ⟨c, hc, hx⟩
      · left; simp [hx]
      · right; exact ⟨c, by simp [hc], hx⟩
    · intro _ x hx
      rw [mem_allKeys_mk] at hx ⊢
      rcases hx with hx | ⟨c, hc, hx⟩
      · left; simp [hx]
      · right; exact ⟨c, by simp [hc], hx⟩
    · intro fuel out
      exact (inorder_replace_one_by_two kl kr L R _ _ _ s hL hR
        (fun f o => inorder_join_inner f ak bk s ac bc o (hac rfl) (hbc rfl)) fuel out).symm

end node


/-! ## The repair before the descent (C18) -/

theorem getAt_of_index {α : Type} (s : List α) (j : Nat) (a : α) (h : s[j]? = some a)
    (i : Int) (hi : i = j) : getAt s i = .ok a := by
  subst hi
  rw [getAt_natCast, h]

namespace node

/-- The repair of a child holding `t-1` keys among children of one kind: the choice of
the repair, the index returned, and what the repair keeps. -/
theorem ensure_contract (t : Int) (ht : 2 ≤ t) (ks : List Int) (cs : List node) (idx : Nat)
    (child : node) (hk1 : 1 ≤ ks.length) (hlen : cs.length = ks.length + 1)
    (hc : cs[idx]? = some child) (hck : (child.keys.length : Int) = t - 1)
    (hshape : ∀ c ∈ cs, c.leaf = child.leaf ∧ (c.leaf = true → c.children = []) ∧
      (c.leaf = false → c.children.length = c.keys.length + 1)) :
    ∃ n1 j cj, ensureChildHasAtLeastTKeys (mk false ks cs) idx t = .ok (n1, j) ∧
      ((0 < idx ∧ ∃ l, cs[idx - 1]? = some l ∧ t ≤ (l.keys.length : Int)) →
        borrowFromPrev (mk false ks cs) idx = .ok n1 ∧ j = idx) ∧
      (¬ (0 < idx ∧ ∃ l, cs[idx - 1]? = some l ∧ t ≤ (l.keys.length : Int)) →
        ((∃ r, cs[idx + 1]? = some r ∧ t ≤ (r.keys.length : Int)) →
          borrowFromNext (mk false ks cs) idx = .ok n1 ∧ j = idx) ∧
        (¬ (∃ r, cs[idx + 1]? = some r ∧ t ≤ (r.keys.length : Int)) →
          (idx < ks.length → mergeChildren (mk false ks cs) idx = .ok n1 ∧ j = idx) ∧
          (idx = ks.length →
            mergeChildren (mk false ks cs) ((idx : Int) - 1) = .ok n1 ∧
              j = (idx : Int) - 1))) ∧
      0 ≤ j ∧ n1.children[j.toNat]? = some cj ∧ t ≤ (cj.keys.length : Int) ∧
      (∀ x ∈ child.allKeys, x ∈ cj.allKeys) ∧
      ∀ fuel out, inorder fuel n1 out = inorder fuel (mk false ks cs) out := by
  have hic : idx < cs.length := (List.getElem?_eq_some_iff.mp hc).1
  have hcm : child ∈ cs := mem_of_index _ _ _ hc
  obtain ⟨_, hcleaf, hcc⟩ := hshape child hcm
  by_cases hPL : 0 < idx ∧ ∃ l, cs[idx - 1]? = some l ∧ t ≤ (l.keys.length : Int)
  · -- borrow from the left sibling
    obtain ⟨hpos, l, hl, hlk⟩ := hPL
    obtain ⟨i, rfl⟩ : ∃ i, idx = i + 1 := ⟨idx - 1, by omega⟩
    simp only [Nat.add_sub_cancel] at hl
    have hlm : l ∈ cs := mem_of_index _ _ _ hl
    obtain ⟨hlkind, _, hlc⟩ := hshape l hlm
    obtain ⟨hcs, hLi, _⟩ := list_split_two cs i _ _ hl hc
    have hik : i < ks.length := by omega
    have hs : ks[i]? = some ks[i] := List.getElem?_eq_getElem hik
    obtain ⟨hks, hkl, _⟩ := list_split_at ks i _ hs
    have hR : (cs.drop (i + 2)).length = (ks.drop (i + 1)).length := by
      simp only [List.length_drop]; omega
    obtain ⟨n1, cj, hb, hidx, hcnt, hkeys, hin⟩ := repair_borrowPrev t (by omega) (ks.take i)
      (ks.drop (i + 1)) ks[i] (cs.take i) (cs.drop (i + 2)) l child ((i + 1 : Nat) : Int)
      (by rw [hLi]; push_cast; rfl) (by rw [hLi, hkl]) hR hlk hck hlkind hlc hcc
    rw [hcs, hks] at hb hin
    rw [hLi] at hidx
    have hens := ensure_prev (mk false ks cs) ((i + 1 : Nat) : Int) t l (by push_cast; omega)
      (getAt_of_index cs i l hl _ (by push_cast; omega)) hlk
    refine ⟨n1, ((i + 1 : Nat) : Int), cj, ?_, fun _ => ⟨hb, rfl⟩, ?_, by omega, ?_, hcnt,
      hkeys, hin⟩
    · rw [hens, hb]; rfl
    · intro hn
      exact absurd ⟨hpos, l, by simpa using hl, hlk⟩ hn
    · simpa using hidx
  · have hprev : ((idx : Nat) : Int) > 0 →
        ∃ p, getAt (mk false ks cs).children ((idx : Int) - 1) = .ok p ∧
          (p.keys.length : Int) < t := by
      intro hp
      have hp1 : 0 < idx := by omega
      have hlt : idx - 1 < cs.length := by omega
      refine ⟨cs[idx - 1], getAt_of_index cs (idx - 1) _ (List.getElem?_eq_getElem hlt) _
        (by omega), ?_⟩
      by_contra hge
      exact hPL ⟨hp1, cs[idx - 1], List.getElem?_eq_getElem hlt, by omega⟩
    by_cases hPR : ∃ r, cs[idx + 1]? = some r ∧ t ≤ (r.keys.length : Int)
    · -- borrow from the right sibling
      obtain ⟨r, hr, hrk⟩ := hPR
      have hrm : r ∈ cs := mem_of_index _ _ _ hr
      obtain ⟨hrkind, _, hrc⟩ := hshape r hrm
      obtain ⟨hcs, hLi, hir⟩ := list_split_two cs idx _ _ hc hr
      have hik : idx < ks.length := by omega
      have hs : ks[idx]? = some ks[idx] := List.getElem?_eq_getElem hik
      obtain ⟨hks, hkl, _⟩ := list_split_at ks idx _ hs
      have hR : (cs.drop (idx + 2)).length = (ks.drop (idx + 1)).length := by
        simp only [List.length_drop]; omega
      obtain ⟨n1, cj, hb, hidx, hcnt, hkeys, hin⟩ := repair_borrowNext t (by omega)
        (ks.take idx) (ks.drop (idx + 1)) ks[idx] (cs.take idx) (cs.drop (idx + 2)) child r
        (idx : Int) (by rw [hLi]) (by rw [hLi, hkl]) hR hrk hck hrkind hrc hcc
      rw [hcs, hks] at hb hin
      rw [hLi] at hidx
      have hens := ensure_next (mk false ks cs) (idx : Int) t r hprev
        (by simp only [children_mk]; omega)
        (getAt_of_index cs (idx + 1) r hr _ (by push_cast; rfl)) hrk
      refine ⟨n1, (idx : Int), cj, ?_, fun h => absurd h hPL,
        fun _ => ⟨fun _ => ⟨hb, rfl⟩, fun hn => absurd ⟨r, hr, hrk⟩ hn⟩, by omega, ?_, hcnt,
        hkeys, hin⟩
      · rw [hens, hb]; rfl
      · simpa using hidx
    · by_cases hlast : idx < ks.length
      · -- merge with the right sibling
        have hir : idx + 1 < cs.length := by omega
        have hr : cs[idx + 1]? = some cs[idx + 1] := List.getElem?_eq_getElem hir
        have hrk : ((cs[idx + 1]).keys.length : Int) < t := by
          by_contra hge
          exact hPR ⟨cs[idx + 1], hr, by omega⟩
        have hrm : cs[idx + 1] ∈ cs := mem_of_index _ _ _ hr
        obtain ⟨hrkind, _, hrc⟩ := hshape _ hrm
        obtain ⟨hcs, hLi, _⟩ := list_split_two cs idx _ _ hc hr
        have hs : ks[idx]? = some ks[idx] := List.getElem?_eq_getElem hlast
        obtain ⟨hks, hkl, _⟩ := list_split_at ks idx _ hs
        have hR : (cs.drop (idx + 2)).length = (ks.drop (idx + 1)).length := by
          simp only [List.length_drop]; omega
        obtain ⟨n1, cj, hb, hidx, hcnt, hkeys, _, hin⟩ := repair_merge (ks.take idx)
          (ks.drop (idx + 1)) ks[idx] (cs.take idx) (cs.drop (idx + 2)) child cs[idx + 1]
          (idx : Int) (by rw [hLi]) (by rw [hLi, hkl]) hR hrkind.symm hcc hrc
        rw [hcs, hks] at hb hin
        rw [hLi] at hidx
        have hens := ensure_mergeNext (mk false ks cs) (idx : Int) t cs[idx + 1] hprev
          (by simp only [children_mk]; omega)
          (getAt_of_index cs (idx + 1) _ hr _ (by push_cast; rfl)) hrk
        refine ⟨n1, (idx : Int), cj, ?_, fun h => absurd h hPL,
          fun _ => ⟨fun h => absurd h hPR, fun _ => ⟨fun _ => ⟨hb, rfl⟩, fun h => ?_⟩⟩,
          by omega, ?_, ?_, hkeys, hin⟩
        · rw [hens, hb]; rfl
        · omega
        · simpa using hidx
        · rw [hcnt]; push_cast; omega
      · -- merge with the left sibling
        have hidx0 : idx = ks.length := by omega
        obtain ⟨i, rfl⟩ : ∃ i, idx = i + 1 := ⟨idx - 1, by omega⟩
        have hil : i < cs.length := by omega
        have hl : cs[i]? = some cs[i] := List.getElem?_eq_getElem hil
        have hlm : cs[i] ∈ cs := mem_of_index _ _ _ hl
        obtain ⟨hlkind, _, hlc⟩ := hshape _ hlm
        obtain ⟨hcs, hLi, _⟩ := list_split_two cs i _ _ hl hc
        have hik : i < ks.length := by omega
        have hs : ks[i]? = some ks[i] := List.getElem?_eq_getElem hik
        obtain ⟨hks, hkl, _⟩ := list_split_at ks i _ hs
        have hR : (cs.drop (i + 2)).length = (ks.drop (i + 1)).length := by
          simp only [List.length_drop]; omega
        obtain ⟨n1, cj, hb, hidx, hcnt, _, hkeys, hin⟩ := repair_merge (ks.take i)
          (ks.drop (i + 1)) ks[i] (cs.take i) (cs.drop (i + 2)) cs[i] child
          (((i + 1 : Nat) : Int) - 1) (by rw [hLi]; push_cast; omega) (by rw [hLi, hkl]) hR
          hlkind hlc hcc
        rw [hcs, hks] at hb hin
        rw [hLi] at hidx
        have hens := ensure_mergePrev (mk false ks cs) ((i + 1 : Nat) : Int) t hprev
          (by simp only [children_mk]; push_cast; omega)
        refine ⟨n1, ((i + 1 : Nat) : Int) - 1, cj, ?_, fun h => absurd h hPL,
          fun _ => ⟨fun h => absurd h hPR, fun _ => ⟨fun h => absurd h hlast,
            fun _ => ⟨hb, rfl⟩⟩⟩,
          by push_cast; omega, ?_, ?_, hkeys hcleaf, hin⟩
        · rw [hens, hb]; rfl
        · have : (((i + 1 : Nat) : Int) - 1).toNat = i := by push_cast; omega
          rw [this]; exact hidx
        · rw [hcnt]; push_cast; omega

end node


/-! ## Claims C17 (instance) and C18 -/

/-- Instance of the amended C17: the parent with key 60 over the leaves `[20, 40]` and
`[70, 80]`. -/
theorem borrow_rotation_witness :
    pairChildren.length = pairKeys.length + 1 ∧ pairChildren[0]? = some pairLeft ∧
    pairChildren[0 + 1]? = some pairRight ∧ pairLeft.leaf = pairRight.leaf ∧
    (pairLeft.leaf = false → pairLeft.children.length = pairLeft.keys.length + 1) ∧
    (pairRight.leaf = false → pairRight.children.length = pairRight.keys.length + 1) ∧
    ∃ s, pairKeys[0]? = some s ∧
      (∀ u, pairLeft.keys.getLast? = some u →
        ∃ sib1 child1,
          node.borrowFromPrev (node.mk false pairKeys pairChildren) (((0 : Nat) : Int) + 1) =
            .ok (node.mk false (pairKeys.take 0 ++ u :: pairKeys.drop (0 + 1))
              (pairChildren.take 0 ++ sib1 :: child1 :: pairChildren.drop (0 + 2))) ∧
          child1.keys = s :: pairRight.keys ∧ sib1.keys = pairLeft.keys.dropLast ∧
          child1.leaf = pairRight.leaf ∧ sib1.leaf = pairLeft.leaf ∧
          (pairRight.leaf = true →
            child1.children = pairRight.children ∧ sib1.children = pairLeft.children) ∧
          (pairRight.leaf = false → ∃ mv, pairLeft.children.getLast? = some mv ∧
            child1.children = mv :: pairRight.children ∧
            sib1.children = pairLeft.children.dropLast) ∧
          (pairKeys.take 0 ++ u :: pairKeys.drop (0 + 1)).length = pairKeys.length ∧
          (pairChildren.take 0 ++ sib1 :: child1 :: pairChildren.drop (0 + 2)).length =
            pairChildren.length ∧
          ∀ fuel out,
            node.inorder fuel (node.mk false (pairKeys.take 0 ++ u :: pairKeys.drop (0 + 1))
              (pairChildren.take 0 ++ sib1 :: child1 :: pairChildren.drop (0 + 2))) out =
            node.inorder fuel (node.mk false pairKeys pairChildren) out) ∧
      (∀ u, pairRight.keys.head? = some u →
        ∃ child1 sib1,
          node.borrowFromNext (node.mk false pairKeys pairChildren) ((0 : Nat) : Int) =
            .ok (node.mk false (pairKeys.take 0 ++ u :: pairKeys.drop (0 + 1))
              (pairChildren.take 0 ++ child1 :: sib1 :: pairChildren.drop (0 + 2))) ∧
          child1.keys = pairLeft.keys ++ [s] ∧ sib1.keys = pairRight.keys.tail ∧
          child1.leaf = pairLeft.leaf ∧ sib1.leaf = pairRight.leaf ∧
          (pairLeft.leaf = true →
            child1.children = pairLeft.children ∧ sib1.children = pairRight.children) ∧
          (pairLeft.leaf = false → ∃ mv, pairRight.children.head? = some mv ∧
            child1.children = pairLeft.children ++ [mv] ∧
            sib1.children = pairRight.children.tail) ∧
          (pairKeys.take 0 ++ u :: pairKeys.drop (0 + 1)).length = pairKeys.length ∧
          (pairChildren.take 0 ++ child1 :: sib1 :: pairChildren.drop (0 + 2)).length =
            pairChildren.length ∧
          ∀ fuel out,
            node.inorder fuel (node.mk false (pairKeys.take 0 ++ u :: pairKeys.drop (0 + 1))
              (pairChildren.take 0 ++ child1 :: sib1 :: pairChildren.drop (0 + 2))) out =
            node.inorder fuel (node.mk false pairKeys pairChildren) out) :=
  ⟨rfl, rfl, rfl, rfl, by decide, by decide,
    borrow_rotation pairKeys pairChildren 0 pairLeft pairRight rfl rfl rfl rfl
      (by decide) (by decide)⟩

/-- The two rotations on the example parent, evaluated. -/
theorem pair_borrow_evaluated :
    node.borrowFromPrev (node.mk false pairKeys pairChildren) 1 =
      .ok (node.mk false [40] [node.mk true [20] [], node.mk true [60, 70, 80] []]) ∧
    node.borrowFromNext (node.mk false pairKeys pairChildren) 0 =
      .ok (node.mk false [70] [node.mk true [20, 40, 60] [], node.mk true [80] []]) :=
  ⟨rfl, rfl⟩

/-- C18, refuted as stated. With `t = 2`, the internal node `mixedChildrenNode` has one
key and two children holding at least `t-1` keys, and its child 1 holds exactly `t-1`
keys; its left sibling holds `t` keys but is an internal node while the child is a
leaf: the repair borrows from it and returns 1, and `inorder` no longer visits the key
30 and emits 50 before 40. On `leafSiblingNode`, where the sibling is a leaf and the
child an internal node, the repair takes the index `-1` of the children of the sibling
and returns no index. -/
theorem repair_mixed_children :
    mixedChildrenNode.leaf = false ∧ 1 ≤ mixedChildrenNode.keys.length ∧
    mixedChildrenNode.children.length = mixedChildrenNode.keys.length + 1 ∧
    (∀ c ∈ mixedChildrenNode.children, (2 : Int) - 1 ≤ (c.keys.length : Int)) ∧
    (∃ c, mixedChildrenNode.children[1]? = some c ∧ (c.keys.length : Int) = 2 - 1) ∧
    node.ensureChildHasAtLeastTKeys mixedChildrenNode 1 2 =
      .ok (mixedChildrenNodeBorrowed, 1) ∧
    node.inorder mixedChildrenNode.height mixedChildrenNode [] =
      .ok [10, 20, 30, 40, 50, 60, 70] ∧
    node.inorder mixedChildrenNodeBorrowed.height mixedChildrenNodeBorrowed [] =
      .ok [10, 20, 50, 40, 60, 70] ∧
    leafSiblingNode.leaf = false ∧ 1 ≤ leafSiblingNode.keys.length ∧
    leafSiblingNode.children.length = leafSiblingNode.keys.length + 1 ∧
    (∀ c ∈ leafSiblingNode.children, (2 : Int) - 1 ≤ (c.keys.length : Int)) ∧
    (∃ c, leafSiblingNode.children[1]? = some c ∧ (c.keys.length : Int) = 2 - 1) ∧
    node.ensureChildHasAtLeastTKeys leafSiblingNode 1 2 = .panic :=
  ⟨rfl, by decide, rfl, by decide, ⟨_, rfl, by decide⟩, rfl, rfl, rfl,
    rfl, by decide, rfl, by decide, ⟨_, rfl, by decide⟩, rfl⟩

/-- C18, amended (underflow repair before descent). For every `t ≥ 2`, every internal
node `n` with at least one key and `len(children) = len(keys)+1` whose children are all
leaves without children, or all internal nodes with `len(children) = len(keys)+1`, and
every index `idx` with `children[idx]` holding exactly `t-1` keys,
`n.ensureChildHasAtLeastTKeys(idx, t)` returns an index `j`, and: the repair chosen is,
in priority order, borrow from the left sibling if it has at least `t` keys, else borrow
from the right sibling if it has at least `t` keys, else merge with the right sibling,
and merge with the left sibling only when `idx` is the last child index; `j = idx` in
the first three cases and `j = idx-1` in the last; `j` is a valid child index,
`children[j]` holds at least `t` keys, every key previously stored in the subtree of
`children[idx]` is stored in the subtree of `children[j]`, and `inorder` on `n` gives
the same result as before, from every output prefix and with every depth budget. (The
lower bound `t-1` on the key counts of the other children is not needed.) -/
theorem repair_before_descent (t : Int) (ht : 2 ≤ t) (ks : List Int) (cs : List node)
    (idx : Nat) (child : node) (hk1 : 1 ≤ ks.length) (hlen : cs.length = ks.length + 1)
    (hc : cs[idx]? = some child) (hck : (child.keys.length : Int) = t - 1)
    (hshape : ∀ c ∈ cs, c.leaf = child.leaf ∧ (c.leaf = true → c.children = []) ∧
      (c.leaf = false → c.children.length = c.keys.length + 1)) :
    ∃ n1 j cj, node.ensureChildHasAtLeastTKeys (node.mk false ks cs) idx t = .ok (n1, j) ∧
      ((0 < idx ∧ ∃ l, cs[idx - 1]? = some l ∧ t ≤ (l.keys.length : Int)) →
        node.borrowFromPrev (node.mk false ks cs) idx = .ok n1 ∧ j = idx) ∧
      (¬ (0 < idx ∧ ∃ l, cs[idx - 1]? = some l ∧ t ≤ (l.keys.length : Int)) →
        ((∃ r, cs[idx + 1]? = some r ∧ t ≤ (r.keys.length : Int)) →
          node.borrowFromNext (node.mk false ks cs) idx = .ok n1 ∧ j = idx) ∧
        (¬ (∃ r, cs[idx + 1]? = some r ∧ t ≤ (r.keys.length : Int)) →
          (idx < ks.length →
            node.mergeChildren (node.mk false ks cs) idx = .ok n1 ∧ j = idx) ∧
          (idx = ks.length →
            node.mergeChildren (node.mk false ks cs) ((idx : Int) - 1) = .ok n1 ∧
              j = (idx : Int) - 1))) ∧
      0 ≤ j ∧ n1.children[j.toNat]? = some cj ∧ t ≤ (cj.keys.length : Int) ∧
      (∀ x ∈ child.allKeys, x ∈ cj.allKeys) ∧
      ∀ fuel out, node.inorder fuel n1 out = node.inorder fuel (node.mk false ks cs) out :=
  node.ensure_contract t ht ks cs idx child hk1 hlen hc hck hshape

/-- Instance of the amended C18: degree 2, the parent with key 60 over the leaves
`[20, 40]` and `[70]`, and the index 1 of the leaf with one key. -/
theorem repair_before_descent_witness :
    (2 : Int) ≤ 2 ∧ 1 ≤ pairKeys.length ∧ repairChildren.length = pairKeys.length + 1 ∧
    repairChildren[1]? = some repairChild ∧ (repairChild.keys.length : Int) = 2 - 1 ∧
    (∀ c ∈ repairChildren, c.leaf = repairChild.leaf ∧ (c.leaf = true → c.children = []) ∧
      (c.leaf = false → c.children.length = c.keys.length + 1)) ∧
    ∃ n1 j cj,
      node.ensureChildHasAtLeastTKeys (node.mk false pairKeys repairChildren)
        ((1 : Nat) : Int) 2 = .ok (n1, j) ∧
      ((0 < 1 ∧ ∃ l, repairChildren[1 - 1]? = some l ∧ (2 : Int) ≤ (l.keys.length : Int)) →
        node.borrowFromPrev (node.mk false pairKeys repairChildren) ((1 : Nat) : Int) =
          .ok n1 ∧ j = ((1 : Nat) : Int)) ∧
      (¬ (0 < 1 ∧ ∃ l, repairChildren[1 - 1]? = some l ∧
          (2 : Int) ≤ (l.keys.length : Int)) →
        ((∃ r, repairChildren[1 + 1]? = some r ∧ (2 : Int) ≤ (r.keys.length : Int)) →
          node.borrowFromNext (node.mk false pairKeys repairChildren) ((1 : Nat) : Int) =
            .ok n1 ∧ j = ((1 : Nat) : Int)) ∧
        (¬ (∃ r, repairChildren[1 + 1]? = some r ∧ (2 : Int) ≤ (r.keys.length : Int)) →
          (1 < pairKeys.length →
            node.mergeChildren (node.mk false pairKeys repairChildren) ((1 : Nat) : Int) =
              .ok n1 ∧ j = ((1 : Nat) : Int)) ∧
          (1 = pairKeys.length →
            node.mergeChildren (node.mk false pairKeys repairChildren)
              (((1 : Nat) : Int) - 1) = .ok n1 ∧ j = ((1 : Nat) : Int) - 1))) ∧
      0 ≤ j ∧ n1.children[j.toNat]? = some cj ∧ (2 : Int) ≤ (cj.keys.length : Int) ∧
      (∀ x ∈ repairChild.allKeys, x ∈ cj.allKeys) ∧
      ∀ fuel out, node.inorder fuel n1 out =
        node.inorder fuel (node.mk false pairKeys repairChildren) out :=
  ⟨by decide, by decide, rfl, rfl, by decide,
    by
      intro c hc
      simp only [repairChildren, List.mem_cons, List.mem_singleton, List.not_mem_nil,
        or_false] at hc
      rcases hc with rfl | rfl <;> simp [pairLeft, repairChild],
    repair_before_descent 2 (by decide) pairKeys repairChildren 1 repairChild (by decide) rfl
      rfl (by decide) (by
        intro c hc
        simp only [repairChildren, List.mem_cons, List.mem_singleton, List.not_mem_nil,
          or_false] at hc
        rcases hc with rfl | rfl <;> simp [pairLeft, repairChild])⟩

/-- The repair on the example parent, evaluated: it borrows from the left sibling. -/
theorem repair_evaluated :
    node.ensureChildHasAtLeastTKeys (node.mk false pairKeys repairChildren) 1 2 =
      .ok (node.mk false [40] [node.mk true [20] [], node.mk true [60, 70] []], 1) :=
  rfl


/-! ## The validator at degrees above `2^62` (C1, C9, C10, C12) -/

/-- At the degree `2^62 + 1` the Go value of `2*t-1` is `-(2^63 - 1)`, and at the largest
`int` it is `-3`. -/
theorem maxKeys_overflow :
    maxKeys overflowDegree = -9223372036854775807 ∧ maxKeys maxInt = -3 :=
  ⟨by decide, by decide⟩

/-- C1 fails on the code for degrees above `2^62`: `New(2^62 + 1)` returns a tree on
which `Validate()` reports a root with too many keys before any call and after
`Insert(1)`, and so does the tree returned by `New(2^63 - 1)` after `Insert(1)`,
`Insert(2)`, `Insert(3)`: the bound `2*t-1` of `validateRec` has wrapped to a negative
number. -/
theorem validate_fails_after_calls_at_large_degree :
    (∃ tr0 tr1, BTree.New overflowDegree = some tr0 ∧
      tr0.run ([Op.insert 1].take 0) = .ok tr0 ∧
      tr0.Validate = .ok (some .rootTooManyKeys) ∧
      tr0.run ([Op.insert 1].take 1) = .ok tr1 ∧
      tr1.root = node.mk true [1] [] ∧
      tr1.Validate = .ok (some .rootTooManyKeys)) ∧
    (∃ tr0 tr3, BTree.New maxInt = some tr0 ∧
      tr0.run [Op.insert 1, Op.insert 2, Op.insert 3] = .ok tr3 ∧
      tr3.root = node.mk true [1, 2, 3] [] ∧
      tr3.Validate = .ok (some .rootTooManyKeys)) :=
  ⟨⟨⟨overflowDegree, newLeaf⟩, ⟨overflowDegree, node.mk true [1] []⟩, rfl, rfl, by decide,
      rfl, rfl, by decide⟩,
    ⟨⟨maxInt, newLeaf⟩, ⟨maxInt, node.mk true [1, 2, 3] []⟩, rfl, rfl, rfl, by decide⟩⟩

/-- C9 fails on the code for degrees above `2^62`: `New(2^62 + 1)` returns a tree of that
minimum degree whose root is an empty leaf, with `Keys()` empty and `Search(0)` false,
and `Validate()` reports a root with too many keys on it. -/
theorem new_validate_fails_at_large_degree :
    (2 : Int) ≤ overflowDegree ∧
    ∃ tr, BTree.New overflowDegree = some tr ∧ tr.MinDegree = overflowDegree ∧
      tr.root = node.mk true [] [] ∧ tr.Keys = .ok [] ∧ tr.Search 0 = .ok false ∧
      tr.Validate = .ok (some .rootTooManyKeys) :=
  ⟨by decide, ⟨overflowDegree, newLeaf⟩, rfl, rfl, rfl, rfl, rfl, by decide⟩

/-- C10 fails on the code for degrees above `2^62`: the tree of degree `2^62 + 1` whose
root is the empty leaf has the five invariants of the data model, and `Validate()`
reports a root with too many keys on it. -/
theorem validate_rejects_invariants_at_large_degree :
    (2 : Int) ≤ overflowDegree ∧ SpecInvariants overflowDegree newLeaf ∧
    (BTree.mk overflowDegree newLeaf).Validate = .ok (some .rootTooManyKeys) :=
  ⟨by decide,
    node.spec_of_shaped overflowDegree 0 newLeaf (Shaped.leaf [] (by decide))
      (by simp [newLeaf]),
    by decide⟩

/-- C12 fails on the code for degrees above `2^62`: inserting 5 and 7 into
`New(2^62 + 1)` and deleting 7 and 5 returns a tree whose `Keys()` is empty and whose
root is a leaf with zero keys, and `Validate()` reports a root with too many keys on
it. -/
theorem emptied_tree_validate_fails_at_large_degree :
    (2 : Int) ≤ overflowDegree ∧ (∀ k ∈ [5, 7], k ∈ [7, (5 : Int)]) ∧
    ∃ tr0 tr, BTree.New overflowDegree = some tr0 ∧
      tr0.run ([5, 7].map Op.insert ++ [7, 5].map Op.delete) = .ok tr ∧
      tr.Keys = .ok [] ∧ tr.root = node.mk true [] [] ∧
      tr.Validate = .ok (some .rootTooManyKeys) :=
  ⟨by decide, by decide, ⟨overflowDegree, newLeaf⟩, ⟨overflowDegree, newLeaf⟩, rfl, rfl, rfl,
    rfl, by decide⟩
